import Mathlib

/-!
# Type predicates of `go/types/predicates.go`

A shallow embedding of the type predicates, of `Comparable`, `hasNil`, `Default` and of the
structural identity algorithm `identical` with its two entry points `Identical` and
`IdenticalIgnoreTags`.

The Go type graph is a graph of heap nodes compared by pointer, possibly cyclic.  It is embedded
as a heap (`Universe.heap`, a total map from addresses to nodes); a value of the Go interface
type `Type` is a `Ty`: the nil interface, the nil `*Tuple` pointer, or a pointer to a node.
Go's `x == y` on `Type` values is equality of `Ty`.

Recursion over a possibly cyclic graph is bounded by a fuel argument; a nil dereference or a
failed `assert` is the outcome `abort`.
-/

namespace GoTypes

/-! ## Data model -/

/-- A value of the Go interface type `Type`. `nil` is the nil interface ("no type"),
`nilTuple` is the nil pointer of type `*Tuple` (the parameter or result list of a signature
that has none), `ptr a` is a pointer to the node stored at address `a`. -/
inductive Ty where
  | nil
  | nilTuple
  | ptr (a : Nat)
  deriving DecidableEq, Repr

/-- Modelled from the spec: the kind enumeration of a Primitive (`BasicKind`), whose
declaration is not among the sources; `Byte` and `Rune` are the kinds `Uint8` and `Int32`. -/
inductive BasicKind where
  | Invalid
  | Bool | Int | Int8 | Int16 | Int32 | Int64
  | Uint | Uint8 | Uint16 | Uint32 | Uint64 | Uintptr
  | Float32 | Float64 | Complex64 | Complex128
  | String | UnsafePointer
  | UntypedBool | UntypedInt | UntypedRune | UntypedFloat | UntypedComplex | UntypedString
  | UntypedNil
  deriving DecidableEq, Repr

/-- Modelled from the spec: the direction of a Channel (send/receive/both). -/
inductive ChanDir where
  | SendRecv | SendOnly | RecvOnly
  deriving DecidableEq, Repr

/-- Modelled from the spec: a struct field, {name, declaring-scope identity, Type, tag string,
anonymous flag}. `pkg` is the identity of the declaring package. -/
structure Field where
  pkg : Nat
  name : String
  typ : Ty
  tag : String
  anonymous : Bool
  deriving DecidableEq, Repr

/-- Modelled from the spec: an entry of an interface's resolved method set, {name, declaring
package, method Signature}. -/
structure Method where
  pkg : Nat
  name : String
  typ : Ty
  deriving DecidableEq, Repr

/-- A variable of a tuple (a parameter or a result): its name and its type. "Parameter and
result names are not required to match" (comment at the Signature case of `identical`). -/
structure Var where
  name : String
  typ : Ty
  deriving DecidableEq, Repr

/-- Modelled from the spec: the variants of the type graph (section 3 of the spec) with their
payloads; the struct declarations are not among the sources.  A field of Go type `Type` is a
`Ty`; a field that is a typed pointer (`*Tuple` of a signature, `*Named` of an instance) is an
address, `none` being the nil `*Tuple`.  `obj` is the identity of the declaration-site object. -/
inductive Node where
  | Basic (kind : BasicKind) (info : Nat)
  | Array (len : Int) (elem : Ty)
  | Slice (elem : Ty)
  | Struct (fields : List Field)
  | Pointer (base : Ty)
  | Tuple (vars : List Var)
  | Signature (recv : Ty) (params results : Option Nat) (variadic : Bool)
  | Interface (allMethods : List Method)
  | Map (key elem : Ty)
  | Chan (dir : ChanDir) (elem : Ty)
  | Named (obj : Nat) (underlying : Ty)
  | Instance (named : Nat) (args : List Ty)
  | TypeParam (obj : Nat) (restriction : Nat)
  deriving DecidableEq, Repr

/-- The immutable surroundings of the predicates: the heap of type nodes and the parts of the
package that the predicates use but that are not among the sources, taken as parameters:
the table `Typ` of predeclared types and `universeRune` (addresses of their nodes), the
export test on names, and the constraint check `assignableToTypeParam`. -/
structure Universe where
  heap : Nat → Node
  Typ : BasicKind → Nat
  universeRune : Nat
  exported : String → Bool
  assignableToTypeParam : Ty → Nat → Bool

/-- Modelled from the spec: the capability bitset of a Primitive (`BasicInfo`); the flag
declarations are not among the sources. -/
def IsBoolean : Nat := 1
/-- Modelled from the spec: capability bit of integer primitives. -/
def IsInteger : Nat := 2
/-- Modelled from the spec: capability bit of unsigned primitives. -/
def IsUnsigned : Nat := 4
/-- Modelled from the spec: capability bit of floating-point primitives. -/
def IsFloat : Nat := 8
/-- Modelled from the spec: capability bit of complex primitives. -/
def IsComplex : Nat := 16
/-- Modelled from the spec: capability bit of string primitives. -/
def IsString : Nat := 32
/-- Modelled from the spec: capability bit of untyped (constant) primitives. -/
def IsUntyped : Nat := 64
/-- Modelled from the spec: the Ordered capability. -/
def IsOrdered : Nat := IsInteger ||| IsFloat ||| IsString
/-- Modelled from the spec: the Numeric capability. -/
def IsNumeric : Nat := IsInteger ||| IsFloat ||| IsComplex
/-- Modelled from the spec: the ConstType capability. -/
def IsConstType : Nat := IsBoolean ||| IsNumeric ||| IsString

/-- Modelled from the spec: constraint bit "supports equality" of a TypeParameter; the
bit positions of the constraint bitset are not among the sources. -/
def RestrictionEq : Nat := 1
/-- Modelled from the spec: constraint bit "supports ordering". -/
def RestrictionOrd : Nat := 2
/-- Modelled from the spec: constraint bit "supports arithmetic". -/
def RestrictionNum : Nat := 4

/-- Outcome of a call: it returns a boolean, it aborts (nil dereference, failed assertion),
or the fuel that bounds the recursion is used up. -/
inductive Outcome where
  | ret (b : Bool)
  | abort
  | fuel
  deriving DecidableEq, Repr

/-- The unification map `map[*TypeParam]Type`, keyed by the address of the TypeParam node;
the first entry for a key is its binding. -/
abbrev Mapping := List (Nat × Ty)

/-- An `ifacePair` is a node in a stack of interface type pairs compared for identity; the
`prev` link is the tail of the list that holds the stack. -/
structure ifacePair where
  x : Nat
  y : Nat
  deriving DecidableEq, Repr

/-- What a call of `identical` leaves behind: its outcome and the unification map (`none` is
the nil map) as the call left it. -/
abbrev Result := Outcome × Option Mapping

/-! ## Accessors: type assertions on `Type` values -/

/-- Modelled from the spec: `Underlying()`. "Every underlying lookup unwraps
DeclaredType/GenericInstance to the structural variant they wrap"; every other variant is its
own underlying type. The method call on the nil interface aborts (`none`); on the nil `*Tuple`
it returns the receiver. -/
def Underlying (U : Universe) : Ty → Option Ty
  | .nil => none
  | .nilTuple => some .nilTuple
  | .ptr a =>
    match U.heap a with
    | .Named _ u => some u
    | .Instance n _ =>
      match U.heap n with
      | .Named _ u => some u
      | _ => some (.ptr n)
    | _ => some (.ptr a)

/-- Type assertion `typ.(*Basic)`. -/
def asBasic (U : Universe) : Ty → Option (BasicKind × Nat)
  | .ptr a => match U.heap a with
    | .Basic k i => some (k, i)
    | _ => none
  | _ => none

/-- Type assertion `typ.(*TypeParam)`: the address of the node, its declaration-site object
and its constraint bitset. -/
def asTypeParam (U : Universe) : Ty → Option (Nat × Nat × Nat)
  | .ptr a => match U.heap a with
    | .TypeParam o r => some (a, o, r)
    | _ => none
  | _ => none

/-- Type assertion `y.(*Array)`. -/
def asArray (U : Universe) : Ty → Option (Int × Ty)
  | .ptr a => match U.heap a with
    | .Array l e => some (l, e)
    | _ => none
  | _ => none

/-- Type assertion `y.(*Slice)`. -/
def asSlice (U : Universe) : Ty → Option Ty
  | .ptr a => match U.heap a with
    | .Slice e => some e
    | _ => none
  | _ => none

/-- Type assertion `y.(*Struct)`. -/
def asStruct (U : Universe) : Ty → Option (List Field)
  | .ptr a => match U.heap a with
    | .Struct fs => some fs
    | _ => none
  | _ => none

/-- Type assertion `y.(*Pointer)`. -/
def asPointer (U : Universe) : Ty → Option Ty
  | .ptr a => match U.heap a with
    | .Pointer b => some b
    | _ => none
  | _ => none

/-- Type assertion `y.(*Tuple)`, giving the types `w.typ` of the variables `y.vars`; the nil
`*Tuple` has no variables (`Len()` is 0 for it). -/
def asTuple (U : Universe) : Ty → Option (List Ty)
  | .nilTuple => some []
  | .ptr a => match U.heap a with
    | .Tuple vs => some (vs.map Var.typ)
    | _ => none
  | .nil => none

/-- Type assertion `y.(*Signature)`: params, results, variadic. -/
def asSignature (U : Universe) : Ty → Option (Option Nat × Option Nat × Bool)
  | .ptr a => match U.heap a with
    | .Signature _ ps rs v => some (ps, rs, v)
    | _ => none
  | _ => none

/-- Type assertion `y.(*Interface)`: the address of the node and `allMethods`. -/
def asInterface (U : Universe) : Ty → Option (Nat × List Method)
  | .ptr a => match U.heap a with
    | .Interface ms => some (a, ms)
    | _ => none
  | _ => none

/-- Type assertion `y.(*Map)`. -/
def asMap (U : Universe) : Ty → Option (Ty × Ty)
  | .ptr a => match U.heap a with
    | .Map k e => some (k, e)
    | _ => none
  | _ => none

/-- Type assertion `y.(*Chan)`. -/
def asChan (U : Universe) : Ty → Option (ChanDir × Ty)
  | .ptr a => match U.heap a with
    | .Chan d e => some (d, e)
    | _ => none
  | _ => none

/-- Type assertion `y.(*Named)`, giving `y.obj`. -/
def asNamed (U : Universe) : Ty → Option Nat
  | .ptr a => match U.heap a with
    | .Named o _ => some o
    | _ => none
  | _ => none

/-- Type assertion `y.(*Instance)`: `y.Named()` and the arguments. -/
def asInstance (U : Universe) : Ty → Option (Nat × List Ty)
  | .ptr a => match U.heap a with
    | .Instance n as => some (n, as)
    | _ => none
  | _ => none

/-- A `*Tuple` field of a signature as a `Type` value. -/
def tupleTy : Option Nat → Ty
  | none => .nilTuple
  | some a => .ptr a

/-- Modelled from the spec: the unique name of a method or field, "name + declaring package
for non-exported names" (`Id()`). -/
def Id (U : Universe) (pkg : Nat) (name : String) : Option Nat × String :=
  (if U.exported name then none else some pkg, name)

/-- Modelled from the spec: "same field identity" (`sameId`): the same name and, for a
non-exported name, the same declaring package. -/
def sameId (U : Universe) (f g : Field) : Bool :=
  decide (Id U f.pkg f.name = Id U g.pkg g.name)

/-! ## Predicates -/

/-- Reports whether the type is a Basic, Named or Instance type (`isNamed`). -/
def isNamed (U : Universe) (typ : Ty) : Bool :=
  (asBasic U typ).isSome || (asNamed U typ).isSome || (asInstance U typ).isSome

/-- The shape shared by the predicates on primitives:
`t, ok := typ.Underlying().(*Basic); return ok && t.info&flag != 0`. -/
def basicHas (U : Universe) (flag : Nat) (typ : Ty) : Option Bool :=
  match Underlying U typ with
  | none => none
  | some u =>
    match asBasic U u with
    | some (_, info) => some (info &&& flag != 0)
    | none => some false

/-- Reports whether the underlying type is a Basic type with the boolean flag. -/
def isBoolean (U : Universe) (typ : Ty) : Option Bool := basicHas U IsBoolean typ

/-- Reports whether the underlying type is a Basic type with the integer flag. -/
def isInteger (U : Universe) (typ : Ty) : Option Bool := basicHas U IsInteger typ

/-- Reports whether the underlying type is a Basic type with the unsigned flag. -/
def isUnsigned (U : Universe) (typ : Ty) : Option Bool := basicHas U IsUnsigned typ

/-- Reports whether the underlying type is a Basic type with the floating-point flag. -/
def isFloat (U : Universe) (typ : Ty) : Option Bool := basicHas U IsFloat typ

/-- Reports whether the underlying type is a Basic type with the complex flag. -/
def isComplex (U : Universe) (typ : Ty) : Option Bool := basicHas U IsComplex typ

/-- Reports whether the type is numeric: a type parameter restricted to numbers, or a Basic
type with a numeric flag. -/
def isNumeric (U : Universe) (typ : Ty) : Option Bool :=
  match Underlying U typ with
  | none => none
  | some u =>
    match asTypeParam U u with
    | some (_, _, r) => if r &&& RestrictionNum != 0 then some true else basicHas U IsNumeric typ
    | none => basicHas U IsNumeric typ

/-- Reports whether the underlying type is a Basic type with the string flag. -/
def isString (U : Universe) (typ : Ty) : Option Bool := basicHas U IsString typ

/-- Reports whether the type is typed: not a Basic type, or a Basic type without the
untyped flag. -/
def isTyped (U : Universe) (typ : Ty) : Option Bool :=
  match Underlying U typ with
  | none => none
  | some u =>
    match asBasic U u with
    | some (_, info) => some (info &&& IsUntyped == 0)
    | none => some true

/-- Reports whether the underlying type is a Basic type with the untyped flag. -/
def isUntyped (U : Universe) (typ : Ty) : Option Bool := basicHas U IsUntyped typ

/-- Reports whether the type is ordered: a type parameter restricted to ordered types, or a
Basic type with an ordered flag. -/
def isOrdered (U : Universe) (typ : Ty) : Option Bool :=
  match Underlying U typ with
  | none => none
  | some u =>
    match asTypeParam U u with
    | some (_, _, r) => if r &&& RestrictionOrd != 0 then some true else basicHas U IsOrdered typ
    | none => basicHas U IsOrdered typ

/-- Reports whether the underlying type is a Basic type with the constant flag. -/
def isConstType (U : Universe) (typ : Ty) : Option Bool := basicHas U IsConstType typ

/-- IsInterface reports whether typ is an interface type. -/
def IsInterface (U : Universe) (typ : Ty) : Option Bool :=
  match Underlying U typ with
  | none => none
  | some u => some (asInterface U u).isSome

/-- The loop of `Comparable` over the fields of a struct: the first field that is not
comparable ends it with false. -/
def comparableFields (rec : Ty → Outcome) : List Field → Outcome
  | [] => .ret true
  | f :: fs =>
    match rec f.typ with
    | .ret true => comparableFields rec fs
    | r => r

/-- Comparable reports whether values of type T are comparable. -/
def Comparable (U : Universe) : Nat → Ty → Outcome
  | 0, _ => .fuel
  | n + 1, T =>
    match Underlying U T with
    | none => .abort
    | some .nil => .ret false
    | some .nilTuple => .ret false
    | some (.ptr a) =>
      match U.heap a with
      | .Basic kind _ => .ret (kind != .UntypedNil)
      | .Pointer _ => .ret true
      | .Interface _ => .ret true
      | .Chan _ _ => .ret true
      | .Struct fields => comparableFields (Comparable U n) fields
      | .Array _ elem => Comparable U n elem
      | .TypeParam _ r => .ret (r &&& RestrictionEq != 0)
      | _ => .ret false

/-- Reports whether a type includes the nil value (`hasNil`). -/
def hasNil (U : Universe) (typ : Ty) : Option Bool :=
  match Underlying U typ with
  | none => none
  | some .nil => some false
  | some .nilTuple => some false
  | some (.ptr a) =>
    match U.heap a with
    | .Basic kind _ => some (kind == .UnsafePointer)
    | .Slice _ => some true
    | .Pointer _ => some true
    | .Signature _ _ _ _ => some true
    | .Interface _ => some true
    | .Map _ _ => some true
    | .Chan _ _ => some true
    | _ => some false

/-- Default returns the default "typed" type for an "untyped" type; it returns the incoming
type for all other types. The default type for untyped nil is untyped nil. -/
def Default (U : Universe) (typ : Ty) : Ty :=
  match asBasic U typ with
  | some (kind, _) =>
    match kind with
    | .UntypedBool => .ptr (U.Typ .Bool)
    | .UntypedInt => .ptr (U.Typ .Int)
    | .UntypedRune => .ptr U.universeRune
    | .UntypedFloat => .ptr (U.Typ .Float64)
    | .UntypedComplex => .ptr (U.Typ .Complex128)
    | .UntypedString => .ptr (U.Typ .String)
    | _ => typ
  | none => typ

/-! ## Structural identity -/

/-- The comparison `p.x == q.x && p.y == q.y || p.x == q.y && p.y == q.x` of two stack
nodes. -/
def ifacePair.identical (p q : ifacePair) : Bool :=
  p.x == q.x && p.y == q.y || p.x == q.y && p.y == q.x

/-- Sequencing of `a && b` and of `if !a { return false }; b` where `a` is a call of
`identical`: `b` runs, from the map `a` left, only when `a` returned true. -/
def andThen (r : Result) (k : Option Mapping → Result) : Result :=
  match r with
  | (.ret true, m) => k m
  | r => r

/-- The loop over corresponding element types (tuple variables, instance arguments):
the first pair that is not identical ends it with false. -/
def identicalTypes (rec : Option Mapping → Ty → Ty → Result) :
    List Ty → List Ty → Option Mapping → Result
  | v :: vs, w :: ws, m => andThen (rec m v w) (identicalTypes rec vs ws)
  | _, _, m => (.ret true, m)

/-- The loop over corresponding struct fields. -/
def identicalFields (U : Universe) (rec : Option Mapping → Ty → Ty → Result) (cmpTags : Bool) :
    List Field → List Field → Option Mapping → Result
  | f :: fs, g :: gs, m =>
    if f.anonymous != g.anonymous || (cmpTags && f.tag != g.tag) || !sameId U f g then
      (.ret false, m)
    else
      andThen (rec m f.typ g.typ) (identicalFields U rec cmpTags fs gs)
  | _, _, m => (.ret true, m)

/-- The loop over corresponding methods of two interfaces. -/
def identicalMethods (U : Universe) (rec : Option Mapping → Ty → Ty → Result) :
    List Method → List Method → Option Mapping → Result
  | f :: fs, g :: gs, m =>
    if Id U f.pkg f.name != Id U g.pkg g.name then
      (.ret false, m)
    else
      andThen (rec m f.typ g.typ) (identicalMethods U rec fs gs)
  | _, _, m => (.ret true, m)

/-- The type switch of `identical` (`switch x := x.(type)` to the final `return false`);
`rec` stands for the recursive calls of `identical`. The sortedness assertions on the method
sets are compiled out (`debug` is false). -/
def identicalSwitch (U : Universe)
    (rec : Option Mapping → Ty → Ty → Bool → List ifacePair → Result)
    (mapping : Option Mapping) (x y : Ty) (cmpTags : Bool) (p : List ifacePair) : Result :=
  match x with
  | .nil => (.ret false, mapping)
  | .nilTuple =>
    match asTuple U y with
    | some ws => (.ret (0 == ws.length), mapping)
    | none => (.ret false, mapping)
  | .ptr a =>
    match U.heap a with
    | .Basic kind _ =>
      match asBasic U y with
      | some (ykind, _) => (.ret (kind == ykind), mapping)
      | none => (.ret false, mapping)
    | .Array len elem =>
      match asArray U y with
      | some (ylen, yelem) =>
        if len == ylen then rec mapping elem yelem cmpTags p else (.ret false, mapping)
      | none => (.ret false, mapping)
    | .Slice elem =>
      match asSlice U y with
      | some yelem => rec mapping elem yelem cmpTags p
      | none => (.ret false, mapping)
    | .Struct fields =>
      match asStruct U y with
      | some yfields =>
        if fields.length == yfields.length then
          identicalFields U (fun m s t => rec m s t cmpTags p) cmpTags fields yfields mapping
        else (.ret false, mapping)
      | none => (.ret false, mapping)
    | .Pointer base =>
      match asPointer U y with
      | some ybase => rec mapping base ybase cmpTags p
      | none => (.ret false, mapping)
    | .Tuple vars =>
      match asTuple U y with
      | some ws =>
        if vars.length == ws.length then
          identicalTypes (fun m s t => rec m s t cmpTags p) (vars.map Var.typ) ws mapping
        else (.ret false, mapping)
      | none => (.ret false, mapping)
    | .Signature _ params results variadic =>
      match asSignature U y with
      | some (yparams, yresults, yvariadic) =>
        if variadic == yvariadic then
          andThen (rec mapping (tupleTy params) (tupleTy yparams) cmpTags p)
            (fun m => rec m (tupleTy results) (tupleTy yresults) cmpTags p)
        else (.ret false, mapping)
      | none => (.ret false, mapping)
    | .Interface ms =>
      match asInterface U y with
      | some (b, yms) =>
        if ms.length == yms.length then
          let q : ifacePair := ⟨a, b⟩
          if p.any (fun e => e.identical q) then
            (.ret true, mapping)
          else
            identicalMethods U (fun m s t => rec m s t cmpTags (q :: p)) ms yms mapping
        else (.ret false, mapping)
      | none => (.ret false, mapping)
    | .Map key elem =>
      match asMap U y with
      | some (ykey, yelem) =>
        andThen (rec mapping key ykey cmpTags p) (fun m => rec m elem yelem cmpTags p)
      | none => (.ret false, mapping)
    | .Chan dir elem =>
      match asChan U y with
      | some (ydir, yelem) =>
        if dir == ydir then rec mapping elem yelem cmpTags p else (.ret false, mapping)
      | none => (.ret false, mapping)
    | .Named obj _ =>
      match asNamed U y with
      | some yobj => (.ret (obj == yobj), mapping)
      | none => (.ret false, mapping)
    | .Instance named args =>
      match asInstance U y with
      | some (ynamed, yargs) =>
        andThen (rec mapping (.ptr named) (.ptr ynamed) cmpTags p) (fun m =>
          if args.length != yargs.length then (.abort, m)
          else identicalTypes (fun m s t => rec m s t cmpTags p) args yargs m)
      | none => (.ret false, mapping)
    | .TypeParam obj _ =>
      match asTypeParam U y with
      | some (_, yobj, _) => (.ret (obj == yobj), mapping)
      | none => (.ret false, mapping)

/-- The function `identical(mapping, x, y, cmpTags, p)`. The first argument bounds the depth
of the recursion; the result carries the map as the call left it. -/
def identical (U : Universe) :
    Nat → Option Mapping → Ty → Ty → Bool → List ifacePair → Result
  | 0, mapping, _, _, _, _ => (.fuel, mapping)
  | n + 1, mapping, x, y, cmpTags, p =>
    if x = y then (.ret true, mapping)
    else
      match Underlying U y with
      | none => (.abort, mapping)
      | some uy =>
        match asTypeParam U uy, mapping with
        | some (typeParam, _, _), some mp =>
          match mp.lookup typeParam with
          | some typ => identicalSwitch U (identical U n) mapping x typ cmpTags p
          | none =>
            match isUntyped U x with
            | none => (.abort, mapping)
            | some untyped =>
              let x1 := if untyped then Default U x else x
              if !U.assignableToTypeParam x1 typeParam then (.ret false, mapping)
              else (.ret true, some ((typeParam, x1) :: mp))
        | _, _ => identicalSwitch U (identical U n) mapping x y cmpTags p

/-- Identical reports whether x and y are identical types.
Receivers of Signature types are ignored. -/
def Identical (U : Universe) (n : Nat) (x y : Ty) : Outcome :=
  (identical U n none x y true []).1

/-- IdenticalIgnoreTags reports whether x and y are identical types if tags are ignored.
Receivers of Signature types are ignored. -/
def IdenticalIgnoreTags (U : Universe) (n : Nat) (x y : Ty) : Outcome :=
  (identical U n none x y false []).1

/-! ## Predicates used to state the properties -/

/-- The result `r` of a call started with the map `m` leaves the map `ext ++ m`: the bindings
of `m`, and in front of them bindings for distinct keys that `m` does not bind. -/
def Grows (m : Mapping) (r : Result) : Prop :=
  ∃ ext : Mapping, r.2 = some (ext ++ m) ∧ (ext.map Prod.fst).Nodup ∧
    ∀ k ∈ ext.map Prod.fst, m.lookup k = none

/-- Corresponding nodes: `a` and `b` are of the same variant, agree in the payload that the
identity rule of the variant compares directly, and their corresponding component types are
related by `R`. -/
def NodeSim (U : Universe) (R : Ty → Ty → Prop) (a b : Node) : Prop :=
  match a with
  | .Basic k _ => ∃ i, b = .Basic k i
  | .Array l e => ∃ e1, b = .Array l e1 ∧ R e e1
  | .Slice e => ∃ e1, b = .Slice e1 ∧ R e e1
  | .Struct fs => ∃ gs, b = .Struct gs ∧
      List.Forall₂ (fun f g => f.anonymous = g.anonymous ∧ f.tag = g.tag ∧ sameId U f g = true ∧
        R f.typ g.typ) fs gs
  | .Pointer e => ∃ e1, b = .Pointer e1 ∧ R e e1
  | .Tuple vs => ∃ ws, b = .Tuple ws ∧ List.Forall₂ R (vs.map Var.typ) (ws.map Var.typ)
  | .Signature _ ps rs v => ∃ recv ps1 rs1, b = .Signature recv ps1 rs1 v ∧
      R (tupleTy ps) (tupleTy ps1) ∧ R (tupleTy rs) (tupleTy rs1)
  | .Interface ms => ∃ ms1, b = .Interface ms1 ∧
      List.Forall₂ (fun f g => Id U f.pkg f.name = Id U g.pkg g.name ∧ R f.typ g.typ) ms ms1
  | .Map k e => ∃ k1 e1, b = .Map k1 e1 ∧ R k k1 ∧ R e e1
  | .Chan d e => ∃ e1, b = .Chan d e1 ∧ R e e1
  | .Named o _ => ∃ u, b = .Named o u
  | .Instance n as => ∃ n1 as1, b = .Instance n1 as1 ∧ R (.ptr n) (.ptr n1) ∧
      List.Forall₂ R as as1
  | .TypeParam o _ => ∃ r, b = .TypeParam o r

/-- The node is an Interface. -/
def Node.isInterface : Node → Bool
  | .Interface _ => true
  | _ => false

/-- The number of interface pairs of `L` that no entry of the stack `p` matches. -/
def unmatched (L p : List ifacePair) : Nat :=
  (L.filter (fun l => !p.any (fun e => e.identical l))).length

/-- Two type graphs that correspond, and whose cycles pass through interfaces. `R` relates the
corresponding types: related types are the same value, or pointers to corresponding nodes,
whose corresponding components are in turn the same value or related. The related components
of a node that is not an interface have a smaller `rank` than the node, so a cycle has to pass
through an interface; the related pairs of interfaces are listed in `L`; ranks are at most
`D`. -/
structure Corresponds (U : Universe) (R : Ty → Ty → Prop) (L : List ifacePair)
    (rank : Ty → Nat) (D : Nat) : Prop where
  bound : ∀ x y, R x y → rank x ≤ D
  step : ∀ x y, R x y → x = y ∨ ∃ a b, x = .ptr a ∧ y = .ptr b ∧
    NodeSim U (fun s t => s = t ∨
        (R s t ∧ ((U.heap a).isInterface = false → rank s < rank x)))
      (U.heap a) (U.heap b) ∧
    ((U.heap a).isInterface = true → (⟨a, b⟩ : ifacePair) ∈ L)

/-- The result `r2` is the result `r1`, when `r1` is not the exhaustion of the depth: what a
call gives at some depth, it gives at a greater depth. -/
def Settles (r1 r2 : Result) : Prop :=
  r1.1 ≠ .fuel → r2 = r1

/-- The stack entry for the same two interfaces compared in the other order. -/
def ifacePair.swap (q : ifacePair) : ifacePair := ⟨q.y, q.x⟩

/-- Two results are the same, unless one of the two calls aborted. -/
def AgreeOrAbort (r1 r2 : Result) : Prop :=
  r1 = r2 ∨ r1.1 = .abort ∨ r2.1 = .abort

/-! ## A concrete universe

The predeclared types live at the addresses `100 + k` (`k` the index of the kind), `rune` at
address 90; the low addresses hold the composite types used as examples. -/

/-- Modelled from the spec: the capability bitset of each predeclared Primitive. -/
def basicInfo : BasicKind → Nat
  | .Invalid => 0
  | .Bool => IsBoolean
  | .Int | .Int8 | .Int16 | .Int32 | .Int64 => IsInteger
  | .Uint | .Uint8 | .Uint16 | .Uint32 | .Uint64 | .Uintptr => IsInteger ||| IsUnsigned
  | .Float32 | .Float64 => IsFloat
  | .Complex64 | .Complex128 => IsComplex
  | .String => IsString
  | .UnsafePointer => 0
  | .UntypedBool => IsBoolean ||| IsUntyped
  | .UntypedInt | .UntypedRune => IsInteger ||| IsUntyped
  | .UntypedFloat => IsFloat ||| IsUntyped
  | .UntypedComplex => IsComplex ||| IsUntyped
  | .UntypedString => IsString ||| IsUntyped
  | .UntypedNil => IsUntyped

/-- Address of the predeclared type of a kind in the example universe. -/
def exTyp (k : BasicKind) : Nat := 100 + k.toCtorIdx

/-- The `int` type of the example universe. -/
def exInt : Ty := .ptr (exTyp .Int)

/-- The `string` type of the example universe. -/
def exString : Ty := .ptr (exTyp .String)

/-- The heap of the example universe. -/
def exHeap (a : Nat) : Node :=
  match a with
  -- type parameters: P unconstrained, Q numeric
  | 2 => .TypeParam 500 0
  | 1 => .TypeParam 501 RestrictionNum
  -- tuples (int, int), (P, P), (int, string), a second (P, P)
  | 3 => .Tuple [⟨"a", exInt⟩, ⟨"b", exInt⟩]
  | 4 => .Tuple [⟨"x", .ptr 2⟩, ⟨"y", .ptr 2⟩]
  | 5 => .Tuple [⟨"a", exInt⟩, ⟨"b", exString⟩]
  | 6 => .Tuple [⟨"x", .ptr 2⟩, ⟨"y", .ptr 2⟩]
  -- struct { a int "tag1" } and struct { a int "tag2" }
  | 7 => .Struct [⟨1, "a", exInt, "tag1", false⟩]
  | 8 => .Struct [⟨1, "a", exInt, "tag2", false⟩]
  -- declared types: two declarations of the same structure, one declaration seen twice
  | 9 => .Named 600 (.ptr 7)
  | 14 => .Named 601 (.ptr 7)
  | 15 => .Named 600 (.ptr 8)
  -- type T interface { m() interface{T} }, and the same again as U
  | 10 => .Interface [⟨1, "m", .ptr 11⟩]
  | 11 => .Signature .nil none (some 12) false
  | 12 => .Tuple [⟨"", .ptr 13⟩]
  | 13 => .Interface [⟨1, "m", .ptr 11⟩]
  | 20 => .Interface [⟨1, "m", .ptr 21⟩]
  | 21 => .Signature .nil none (some 22) false
  | 22 => .Tuple [⟨"", .ptr 23⟩]
  | 23 => .Interface [⟨1, "m", .ptr 21⟩]
  -- map[int]string, chan map[int]string, [3]int, [3]map[int]string, struct{}
  | 30 => .Map exInt exString
  | 31 => .Chan .SendRecv (.ptr 30)
  | 32 => .Array 3 exInt
  | 33 => .Array 3 (.ptr 30)
  | 34 => .Struct []
  | 35 => .Struct [⟨1, "f", .ptr 30, "", false⟩]
  | 36 => .Struct [⟨1, "f", exInt, "", false⟩, ⟨1, "g", exString, "", false⟩]
  -- []Q, []int and the tuple ([]Q, []int)
  | 40 => .Slice (.ptr 1)
  | 41 => .Slice exInt
  | 42 => .Tuple [⟨"a", .ptr 40⟩, ⟨"b", .ptr 41⟩]
  -- (c, d int); func (r T) (a, b int) (int, string) with a receiver, and without one under
  -- other parameter names; the same, variadic
  | 43 => .Tuple [⟨"c", exInt⟩, ⟨"d", exInt⟩]
  | 44 => .Signature (.ptr 9) (some 3) (some 5) false
  | 45 => .Signature .nil (some 43) (some 5) false
  | 46 => .Signature .nil (some 43) (some 5) true
  -- the tuple (int, P)
  | 53 => .Tuple [⟨"a", exInt⟩, ⟨"b", .ptr 2⟩]
  -- the tuple ([]int, []int), twice
  | 48 => .Tuple [⟨"a", .ptr 41⟩, ⟨"b", .ptr 41⟩]
  | 49 => .Tuple [⟨"a", .ptr 41⟩, ⟨"b", .ptr 41⟩]
  -- struct { a rune }, struct { a int32 }, struct { a rune }
  | 50 => .Struct [⟨1, "a", .ptr 90, "", false⟩]
  | 51 => .Struct [⟨1, "a", .ptr 105, "", false⟩]
  | 52 => .Struct [⟨1, "a", .ptr 90, "", false⟩]
  -- struct { f T } for T the struct itself: a struct nested in itself
  | 70 => .Struct [⟨1, "f", .ptr 70, "", false⟩]
  -- type N P, and N with int in the place of P
  | 60 => .Named 602 (.ptr 2)
  | 61 => .Named 602 exInt
  | 90 => .Basic .Int32 IsInteger
  | a => if 100 ≤ a ∧ a < 126 then
      .Basic (BasicKind.ofNat (a - 100)) (basicInfo (BasicKind.ofNat (a - 100)))
    else .Basic .Invalid 0

/-- The example universe before its constraint check is installed. Its export test looks at
the first character of a name: an upper-case ASCII letter is exported, the empty name is not.
The names of the example universe are ASCII. -/
def exBase : Universe where
  heap := exHeap
  Typ := exTyp
  universeRune := 90
  exported := fun s => s != "" && s.front.isUpper
  assignableToTypeParam := fun _ _ => false

/-- Modelled from the spec: the constraint check, "check `x` satisfies the parameter's
constraint bitset (its declared capabilities, e.g. if the parameter requires ordering, `x`
must be orderable)"; `assignableToTypeParam` itself is not among the sources. -/
def satisfies (U : Universe) (x : Ty) (P : Nat) : Bool :=
  match U.heap P with
  | .TypeParam _ r =>
    (r &&& RestrictionEq == 0 || Comparable U 16 x == .ret true) &&
    (r &&& RestrictionOrd == 0 || isOrdered U x == some true) &&
    (r &&& RestrictionNum == 0 || isNumeric U x == some true)
  | _ => false

/-- The example universe, with the export test of `exBase`. -/
def exU : Universe where
  heap := exHeap
  Typ := exTyp
  universeRune := 90
  exported := fun s => s != "" && s.front.isUpper
  assignableToTypeParam := satisfies exBase

/-- The corresponding types of the two recursive interfaces of the example universe. -/
def exR (x y : Ty) : Prop :=
  (x, y) ∈ [(Ty.ptr 10, Ty.ptr 20), (Ty.ptr 11, Ty.ptr 21), (Ty.ptr 12, Ty.ptr 22),
    (Ty.ptr 13, Ty.ptr 23)]

/-- The corresponding interface pairs of the example universe. -/
def exL : List ifacePair := [⟨10, 20⟩, ⟨13, 23⟩]

/-- Nesting depth of the example structs over their field types. -/
def exDepth : Ty → Nat
  | .ptr 50 => 1
  | .ptr 51 => 1
  | .ptr 52 => 1
  | _ => 0

/-- The replacement of the parameters `Q` and `P` by `int` in the example universe: `[]Q`
becomes `[]int`, the tuple `([]Q, []int)` the second `([]int, []int)`, and `type N P` the
node of `N` over `int`. -/
def exSub : Ty → Ty
  | .ptr 1 => exInt
  | .ptr 2 => exInt
  | .ptr 40 => .ptr 41
  | .ptr 42 => .ptr 49
  | .ptr 60 => .ptr 61
  | t => t

/-- Nesting depth below an interface in the example universe: signature, then result tuple. -/
def exRank : Ty → Nat
  | .ptr 11 => 2
  | .ptr 12 => 1
  | _ => 0

/-! ## Well-formedness of the predeclared types -/

/-- Modelled from the spec: the table `Typ` of predeclared types, which is not among the
sources, holds at index `k` the Primitive of kind `k`, and `universeRune` ("the named alias
for a 32-bit signed integer") is a Primitive of kind `Int32`. -/
def PredeclaredTable (U : Universe) : Prop :=
  (∀ k, ∃ info, U.heap (U.Typ k) = .Basic k info) ∧ ∃ info, U.heap U.universeRune = .Basic .Int32 info

/-- Modelled from the spec: every Primitive node carries the capability bitset of its kind
("a Primitive is untyped iff its capability bitset has the Untyped bit"). -/
def BasicsWellFormed (U : Universe) : Prop :=
  ∀ a k info, U.heap a = .Basic k info → info = basicInfo k

/-- The struct and array nesting below the underlying types is well founded and holds no
absent component: every field type of a struct and the element type of an array is present
and of smaller `rank` than the type itself. -/
def ComparableWF (U : Universe) (rank : Ty → Nat) : Prop :=
  ∀ T a, Underlying U T = some (.ptr a) →
    (∀ fields, U.heap a = .Struct fields → ∀ f ∈ fields, f.typ ≠ .nil ∧ rank f.typ < rank T) ∧
    (∀ len elem, U.heap a = .Array len elem → elem ≠ .nil ∧ rank elem < rank T)

/-! ## Receivers and variable names -/

/-- The node without what a change of receiver or of parameter and result names touches: the
receiver of a Signature is dropped and the variables of a Tuple lose their names. -/
def Node.eraseNames : Node → Node
  | .Signature _ params results variadic => .Signature .nil params results variadic
  | .Tuple vars => .Tuple (vars.map (fun v => ⟨"", v.typ⟩))
  | node => node

/-- The universe `U` over another heap. -/
def withHeap (U : Universe) (heap : Nat → Node) : Universe where
  heap := heap
  Typ := U.Typ
  universeRune := U.universeRune
  exported := U.exported
  assignableToTypeParam := U.assignableToTypeParam

/-! ## Containment -/

/-- The component types of a type that `identical` compares: element, field, parameter,
result, method, key and argument types. The receiver of a Signature and the underlying type
of a declared type are not among them. -/
def children (U : Universe) : Ty → List Ty
  | .ptr a =>
    match U.heap a with
    | .Array _ elem => [elem]
    | .Slice elem => [elem]
    | .Struct fields => fields.map Field.typ
    | .Pointer base => [base]
    | .Tuple vars => vars.map Var.typ
    | .Signature _ params results _ => [tupleTy params, tupleTy results]
    | .Interface ms => ms.map Method.typ
    | .Map key elem => [key, elem]
    | .Chan _ elem => [elem]
    | .Instance named args => .ptr named :: args
    | _ => []
  | _ => []

/-- The type `x` contains the type `t`: `t` is `x` or a component of a type that `x`
contains. -/
def Contains (U : Universe) (x t : Ty) : Prop :=
  Relation.ReflTransGen (fun s c => c ∈ children U s) x t

/-- Neither `x` nor a type it contains is a struct with a field of non-empty tag. -/
def TagFree (U : Universe) (x : Ty) : Prop :=
  ∀ a fields, Contains U x (.ptr a) → U.heap a = .Struct fields → ∀ f ∈ fields, f.tag = ""

/-- The type graph below `x` is acyclic: `rank` falls from every type that `x` contains to
each of its components. -/
def Acyclic (U : Universe) (rank : Ty → Nat) (x : Ty) : Prop :=
  ∀ t, Contains U x t → ∀ c ∈ children U t, rank c < rank t

/-! ## Nodes of operands and the comparison stack -/

/-- The node that a type value stands for; the nil `*Tuple` stands for a tuple without
variables, Absence for no node. -/
def nodeAt (U : Universe) : Ty → Option Node
  | .ptr a => some (U.heap a)
  | .nilTuple => some (.Tuple [])
  | .nil => none

/-- The stack with which the type switch compares the components of `x` and `y`: for two
interfaces the pair `q` of the two is pushed (`q := &ifacePair{x, y, p}`). -/
def pushed (U : Universe) (x y : Ty) (p : List ifacePair) : List ifacePair :=
  match asInterface U x, asInterface U y with
  | some (a, _), some (b, _) => ⟨a, b⟩ :: p
  | _, _ => p

/-- Every pair on the stack `p` lies above `x` and `y`: its interfaces have greater ranks. -/
def Above (rank : Ty → Nat) (p : List ifacePair) (x y : Ty) : Prop :=
  ∀ e ∈ p, rank x < rank (.ptr e.x) ∧ rank y < rank (.ptr e.y)

/-- A recursive call on `s` and `t` that returned true, between the maps `m` and `m1`, in
the order `le` on the maps. -/
def Visits (rec : Option Mapping → Ty → Ty → Result) (le : Option Mapping → Option Mapping → Prop)
    (m m1 : Option Mapping) (s t : Ty) : Prop :=
  ∃ m2 m3, le m m2 ∧ rec m2 s t = (.ret true, m3) ∧ le m3 m1

/-! ## Replacing type parameters by their bindings -/

/-- The node `b` is the node `a` with `sub` applied to its component types. The underlying
type of a declared type, which `identical` does not compare, is left open. -/
def SubstNode (sub : Ty → Ty) (a b : Node) : Prop :=
  match a with
  | .Basic k i => b = .Basic k i
  | .Array l e => b = .Array l (sub e)
  | .Slice e => b = .Slice (sub e)
  | .Struct fs => b = .Struct (fs.map (fun f => ⟨f.pkg, f.name, sub f.typ, f.tag, f.anonymous⟩))
  | .Pointer e => b = .Pointer (sub e)
  | .Tuple vs => b = .Tuple (vs.map (fun v => ⟨v.name, sub v.typ⟩))
  | .Signature recv ps rs v => ∃ ps1 rs1, b = .Signature recv ps1 rs1 v ∧
      tupleTy ps1 = sub (tupleTy ps) ∧ tupleTy rs1 = sub (tupleTy rs)
  | .Interface ms => b = .Interface (ms.map (fun f => ⟨f.pkg, f.name, sub f.typ⟩))
  | .Map k e => b = .Map (sub k) (sub e)
  | .Chan d e => b = .Chan d (sub e)
  | .Named o _ => ∃ u, b = .Named o u
  | .Instance n args => ∃ n1, b = .Instance n1 (args.map sub) ∧ .ptr n1 = sub (.ptr n)
  | .TypeParam o r => b = .TypeParam o r

/-- The address that `sub` gives for the node at address `b`. -/
def subAddr (sub : Ty → Ty) (b : Nat) : Nat :=
  match sub (.ptr b) with
  | .ptr b1 => b1
  | _ => b

/-- The stack entry with `sub` applied to its second interface. -/
def subPair (sub : Ty → Ty) (e : ifacePair) : ifacePair := ⟨e.x, subAddr sub e.y⟩

/-- The type `x` contains no type parameter and no untyped primitive: no type that `x`
contains has a type parameter as underlying type, or is untyped. -/
def ParamFree (U : Universe) (x : Ty) : Prop :=
  ∀ t, Contains U x t →
    (∀ u, Underlying U t = some u → asTypeParam U u = none) ∧ isUntyped U t ≠ some true

/-- The type `y` contains no type parameter: no type that `y` contains has a type parameter
as underlying type. -/
def NoTypeParam (U : Universe) (y : Ty) : Prop :=
  ∀ t u, Contains U y t → Underlying U t = some u → asTypeParam U u = none

/-- The type parameters of `y` stand for themselves: a type that `y` contains and whose
underlying type is a type parameter is that type parameter, not a declared type over it. -/
def ParamsDirect (U : Universe) (y : Ty) : Prop :=
  ∀ t u P o r, Contains U y t → Underlying U t = some u → asTypeParam U u = some (P, o, r) →
    t = .ptr P

/-- The function `sub` replaces in `y` every type parameter by the type that the map `m` binds
it to: it leaves the types of `x` (which has no type parameter) and the nil tuple as they
are, sends a type parameter that `m` binds to its binding, and sends every other type that
`y` contains to a node of the same variant over the replaced components. -/
structure Substitution (U : Universe) (x y : Ty) (m : Mapping) (sub : Ty → Ty) : Prop where
  nilTuple : sub .nilTuple = .nilTuple
  fixed : ∀ t, Contains U x t → sub t = t
  bound : ∀ P o r t, U.heap P = .TypeParam o r → m.lookup P = some t → sub (.ptr P) = t
  node : ∀ a, Contains U y (.ptr a) → ¬ Contains U x (.ptr a) →
    asTypeParam U (.ptr a) = none → ∃ b, sub (.ptr a) = .ptr b ∧ SubstNode sub (U.heap a) (U.heap b)

/-- The map `b` extends the map `a` by bindings to types in `G`: it keeps the bindings of
`a`, and what it binds, `a` binds or is in `G`. -/
def Extends (G : Ty → Prop) (a b : Option Mapping) : Prop :=
  ∀ ma, a = some ma → ∃ mb, b = some mb ∧
    (∀ P t, ma.lookup P = some t → mb.lookup P = some t) ∧
    (∀ P t, mb.lookup P = some t → ma.lookup P = some t ∨ G t)

/-! ## Reflexivity and declaration identity -/

/-- The pointer comparison at the head of `identical`. -/
theorem identical_self (U : Universe) (n : Nat) (m : Option Mapping) (x : Ty) (c : Bool)
    (p : List ifacePair) : identical U (n + 1) m x x c p = (.ret true, m) := by
  simp [identical]

/-- C1. Reflexivity: for every type value T (nil interface, nil tuple or a pointer to any node
of any heap), `Identical(T, T)` returns true; the pointer comparison `x == y` at the head of
`identical` answers before anything is dereferenced. -/
theorem Identical_refl (U : Universe) (n : Nat) (T : Ty) :
    Identical U (n + 1) T T = .ret true := by
  simp [Identical, identical]

/-- C4. Declaration identity: for two Named nodes `Identical` returns the comparison of
their declaration-site objects, true exactly when they are the same object; the underlying
types that the nodes wrap play no role. -/
theorem Identical_Named (U : Universe) (n a b o1 o2 : Nat) (u1 u2 : Ty)
    (ha : U.heap a = .Named o1 u1) (hb : U.heap b = .Named o2 u2) :
    Identical U (n + 1) (.ptr a) (.ptr b) = .ret (o1 == o2) := by
  by_cases hab : a = b
  · subst hab
    rw [ha] at hb
    cases hb
    simp [Identical, identical]
  · have hne : Ty.ptr a ≠ Ty.ptr b := fun h => hab (by cases h; rfl)
    simp only [Identical, identical, if_neg hne, Underlying, hb]
    cases hu : asTypeParam U u2 <;>
      simp [identicalSwitch, ha, asNamed, hb]

/-! ## The head of `identical`: pointer comparison and unification step -/

theorem identical_of_eq (U : Universe) (n : Nat) (m : Option Mapping) (x y : Ty) (c : Bool)
    (p : List ifacePair) (hxy : x = y) : identical U (n + 1) m x y c p = (.ret true, m) := by
  simp [identical, hxy]

theorem identical_of_nil (U : Universe) (n : Nat) (m : Option Mapping) (x y : Ty) (c : Bool)
    (p : List ifacePair) (hxy : x ≠ y) (hy : Underlying U y = none) :
    identical U (n + 1) m x y c p = (.abort, m) := by
  simp [identical, hxy, hy]

theorem identical_of_switch (U : Universe) (n : Nat) (m : Option Mapping) (x y : Ty) (c : Bool)
    (p : List ifacePair) (uy : Ty) (hxy : x ≠ y) (hy : Underlying U y = some uy)
    (h : asTypeParam U uy = none ∨ m = none) :
    identical U (n + 1) m x y c p = identicalSwitch U (identical U n) m x y c p := by
  simp only [identical, if_neg hxy, hy]
  rcases h with h | h
  · simp [h]
  · subst h
    cases asTypeParam U uy <;> rfl

theorem identical_of_bound (U : Universe) (n : Nat) (m : Mapping) (x y : Ty) (c : Bool)
    (p : List ifacePair) (uy : Ty) (P o r : Nat) (typ : Ty) (hxy : x ≠ y)
    (hy : Underlying U y = some uy) (hP : asTypeParam U uy = some (P, o, r))
    (hm : m.lookup P = some typ) :
    identical U (n + 1) (some m) x y c p =
      identicalSwitch U (identical U n) (some m) x typ c p := by
  simp only [identical, if_neg hxy, hy, hP, hm]

theorem identical_of_unclassified (U : Universe) (n : Nat) (m : Mapping) (x y : Ty) (c : Bool)
    (p : List ifacePair) (uy : Ty) (P o r : Nat) (hxy : x ≠ y)
    (hy : Underlying U y = some uy) (hP : asTypeParam U uy = some (P, o, r))
    (hm : m.lookup P = none) (hx : isUntyped U x = none) :
    identical U (n + 1) (some m) x y c p = (.abort, some m) := by
  simp only [identical, if_neg hxy, hy, hP, hm, hx]

theorem identical_of_unbound (U : Universe) (n : Nat) (m : Mapping) (x y : Ty) (c : Bool)
    (p : List ifacePair) (uy : Ty) (P o r : Nat) (untyped : Bool) (hxy : x ≠ y)
    (hy : Underlying U y = some uy) (hP : asTypeParam U uy = some (P, o, r))
    (hm : m.lookup P = none) (hx : isUntyped U x = some untyped) :
    identical U (n + 1) (some m) x y c p =
      if U.assignableToTypeParam (if untyped then Default U x else x) P
      then (.ret true, some ((P, if untyped then Default U x else x) :: m))
      else (.ret false, some m) := by
  simp only [identical, if_neg hxy, hy, hP, hm, hx]
  cases hA : U.assignableToTypeParam (if untyped then Default U x else x) P <;> simp

/-- The unification step of `identical` (lines 157 to 169): `y` has the unbound type parameter
`P` as underlying type and the untyped test on `x` returns. -/
theorem identical_unbound (U : Universe) (n : Nat) (m : Mapping) (x y : Ty) (c : Bool)
    (p : List ifacePair) (P o r : Nat) (untyped : Bool)
    (hxy : x ≠ y) (hy : Underlying U y = some (.ptr P)) (hP : U.heap P = .TypeParam o r)
    (hm : m.lookup P = none) (hx : isUntyped U x = some untyped) :
    identical U (n + 1) (some m) x y c p =
      if U.assignableToTypeParam (if untyped then Default U x else x) P
      then (.ret true, some ((P, if untyped then Default U x else x) :: m))
      else (.ret false, some m) :=
  identical_of_unbound U n m x y c p (.ptr P) P o r untyped hxy hy (by simp [asTypeParam, hP])
    hm hx

theorem isUntyped_eq_none (U : Universe) (x : Ty) : isUntyped U x = none ↔ x = .nil := by
  constructor
  · intro h
    cases x with
    | nil => rfl
    | nilTuple => simp [isUntyped, basicHas, Underlying, asBasic] at h
    | ptr a =>
      exfalso
      unfold isUntyped basicHas at h
      cases hu : Underlying U (.ptr a) with
      | none =>
        simp only [Underlying] at hu
        repeat' split at hu
        all_goals simp at hu
      | some u =>
        simp only [hu] at h
        cases hb : asBasic U u <;> simp [hb] at h
  · rintro rfl
    rfl

/-- C7. Constraint failure is atomic for a present `x`, and the call aborts on Absence. `y`
has the type parameter `P` as underlying type, `P` is not bound in the map `m`, and `x` is
not `y`. For `x` other than Absence, let `x1` be `x`, or `Default(x)` when `x` is untyped: if
`x1` fails the constraint check of `P` the call returns false and leaves `m` as it was; if `x1`
passes, the call returns true and the map is `m` with the one binding `P = x1` added. For
`x` Absence the call does neither: it aborts in `isUntyped(x)` (line 161), with `m` as it
was. -/
theorem identical_constraint_atomic (U : Universe) (n : Nat) (m : Mapping) (x y : Ty) (c : Bool)
    (p : List ifacePair) (P o r : Nat)
    (hxy : x ≠ y) (hy : Underlying U y = some (.ptr P)) (hP : U.heap P = .TypeParam o r)
    (hm : m.lookup P = none) :
    (x = .nil → identical U (n + 1) (some m) x y c p = (.abort, some m)) ∧
    (x ≠ .nil → ∃ untyped, isUntyped U x = some untyped ∧
      (U.assignableToTypeParam (if untyped then Default U x else x) P = false →
        identical U (n + 1) (some m) x y c p = (.ret false, some m)) ∧
      (U.assignableToTypeParam (if untyped then Default U x else x) P = true →
        identical U (n + 1) (some m) x y c p =
          (.ret true, some ((P, if untyped then Default U x else x) :: m)))) := by
  constructor
  · intro hx
    exact identical_of_unclassified U n m x y c p (.ptr P) P o r hxy hy
      (by simp [asTypeParam, hP]) hm ((isUntyped_eq_none U x).2 hx)
  · intro hx
    cases hu : isUntyped U x with
    | none => exact absurd ((isUntyped_eq_none U x).1 hu) hx
    | some untyped =>
      refine ⟨untyped, rfl, ?_, ?_⟩ <;> intro hA <;>
        rw [identical_unbound U n m x y c p P o r untyped hxy hy hP hm hu, hA] <;> simp

/-! ## Comparable -/

theorem comparableFields_true (rec : Ty → Outcome) (fields : List Field) :
    comparableFields rec fields = .ret true ↔ ∀ f ∈ fields, rec f.typ = .ret true := by
  induction fields with
  | nil => simp [comparableFields]
  | cons f fs ih =>
    simp only [comparableFields, List.mem_cons, forall_eq_or_imp]
    cases h : rec f.typ with
    | ret b => cases b <;> simp [ih]
    | abort => simp
    | fuel => simp

/-! ## Comparisons without a unification map -/

theorem andThen_eq_true (r : Result) (k : Option Mapping → Result) (m : Option Mapping) :
    andThen r k = (.ret true, m) ↔ ∃ m1, r = (.ret true, m1) ∧ k m1 = (.ret true, m) := by
  rcases r with ⟨o, m1⟩
  cases o with
  | ret b => cases b <;> simp [andThen]
  | abort => simp [andThen]
  | fuel => simp [andThen]

theorem andThen_snd_none (r : Result) (k : Option Mapping → Result)
    (hr : r.2 = none) (hk : (k none).2 = none) : (andThen r k).2 = none := by
  rcases r with ⟨o, m1⟩
  simp only at hr
  subst hr
  cases o with
  | ret b => cases b <;> simp [andThen, hk]
  | abort => simp [andThen]
  | fuel => simp [andThen]

theorem identicalTypes_snd_none (rec : Option Mapping → Ty → Ty → Result)
    (hrec : ∀ s t, (rec none s t).2 = none) (vs ws : List Ty) :
    (identicalTypes rec vs ws none).2 = none := by
  induction vs generalizing ws with
  | nil => simp [identicalTypes]
  | cons v vs ih =>
    cases ws with
    | nil => simp [identicalTypes]
    | cons w ws =>
      simp only [identicalTypes]
      exact andThen_snd_none _ _ (hrec v w) (ih ws)

theorem identicalFields_snd_none (U : Universe) (rec : Option Mapping → Ty → Ty → Result)
    (hrec : ∀ s t, (rec none s t).2 = none) (c : Bool) (fs gs : List Field) :
    (identicalFields U rec c fs gs none).2 = none := by
  induction fs generalizing gs with
  | nil => simp [identicalFields]
  | cons f fs ih =>
    cases gs with
    | nil => simp [identicalFields]
    | cons g gs =>
      simp only [identicalFields]
      split
      · rfl
      · exact andThen_snd_none _ _ (hrec _ _) (ih gs)

theorem identicalMethods_snd_none (U : Universe) (rec : Option Mapping → Ty → Ty → Result)
    (hrec : ∀ s t, (rec none s t).2 = none) (fs gs : List Method) :
    (identicalMethods U rec fs gs none).2 = none := by
  induction fs generalizing gs with
  | nil => simp [identicalMethods]
  | cons f fs ih =>
    cases gs with
    | nil => simp [identicalMethods]
    | cons g gs =>
      simp only [identicalMethods]
      split
      · rfl
      · exact andThen_snd_none _ _ (hrec _ _) (ih gs)

theorem identicalSwitch_snd_none (U : Universe)
    (rec : Option Mapping → Ty → Ty → Bool → List ifacePair → Result)
    (hrec : ∀ s t c p, (rec none s t c p).2 = none) (x y : Ty) (c : Bool) (p : List ifacePair) :
    (identicalSwitch U rec none x y c p).2 = none := by
  unfold identicalSwitch
  dsimp only
  repeat' split
  all_goals first
    | rfl
    | exact hrec _ _ _ _
    | exact identicalFields_snd_none U _ (fun s t => hrec s t _ _) _ _ _
    | exact identicalTypes_snd_none _ (fun s t => hrec s t _ _) _ _
    | exact identicalMethods_snd_none U _ (fun s t => hrec s t _ _) _ _
    | exact andThen_snd_none _ _ (hrec _ _ _ _) (hrec _ _ _ _)
    | exact andThen_snd_none _ _ (hrec _ _ _ _) rfl
    | exact andThen_snd_none _ _ (hrec _ _ _ _)
        (identicalTypes_snd_none _ (fun s t => hrec s t _ _) _ _)

theorem identical_snd_none (U : Universe) (n : Nat) (x y : Ty) (c : Bool) (p : List ifacePair) :
    (identical U n none x y c p).2 = none := by
  induction n generalizing x y c p with
  | zero => rfl
  | succ n ih =>
    unfold identical
    repeat' split
    all_goals first
      | rfl
      | exact identicalSwitch_snd_none U _ ih _ _ _ _
      | simp_all

/-! ## Ignoring tags -/

theorem identicalTypes_congr_true (rec1 rec2 : Option Mapping → Ty → Ty → Result)
    (h : ∀ s t m1, rec1 none s t = (.ret true, m1) → m1 = none ∧ rec2 none s t = (.ret true, none))
    (vs ws : List Ty) (m1 : Option Mapping)
    (h1 : identicalTypes rec1 vs ws none = (.ret true, m1)) :
    m1 = none ∧ identicalTypes rec2 vs ws none = (.ret true, none) := by
  induction vs generalizing ws with
  | nil => simp_all [identicalTypes]
  | cons v vs ih =>
    cases ws with
    | nil => simp_all [identicalTypes]
    | cons w ws =>
      simp only [identicalTypes, andThen_eq_true] at h1 ⊢
      obtain ⟨m2, hr, hk⟩ := h1
      obtain ⟨rfl, hr2⟩ := h _ _ _ hr
      obtain ⟨rfl, hk2⟩ := ih ws hk
      exact ⟨rfl, none, hr2, hk2⟩

theorem identicalFields_ignoreTags (U : Universe) (rec1 rec2 : Option Mapping → Ty → Ty → Result)
    (h : ∀ s t m1, rec1 none s t = (.ret true, m1) → m1 = none ∧ rec2 none s t = (.ret true, none))
    (fs gs : List Field) (m1 : Option Mapping)
    (h1 : identicalFields U rec1 true fs gs none = (.ret true, m1)) :
    m1 = none ∧ identicalFields U rec2 false fs gs none = (.ret true, none) := by
  induction fs generalizing gs with
  | nil => simp_all [identicalFields]
  | cons f fs ih =>
    cases gs with
    | nil => simp_all [identicalFields]
    | cons g gs =>
      simp only [identicalFields] at h1 ⊢
      split at h1
      · simp at h1
      · rename_i hc
        simp only [andThen_eq_true] at h1
        obtain ⟨m2, hr, hk⟩ := h1
        obtain ⟨rfl, hr2⟩ := h _ _ _ hr
        obtain ⟨rfl, hk2⟩ := ih gs hk
        have hc2 : ¬ ((f.anonymous != g.anonymous || (false && f.tag != g.tag) || !sameId U f g)
            = true) := by
          intro hh
          apply hc
          simp only [Bool.or_eq_true, Bool.and_eq_true, Bool.false_and, Bool.or_false] at hh ⊢
          rcases hh with hh | hh
          · exact Or.inl (Or.inl hh)
          · exact Or.inr hh
        rw [if_neg hc2, andThen_eq_true]
        exact ⟨rfl, none, hr2, hk2⟩

theorem identicalMethods_congr_true (U : Universe) (rec1 rec2 : Option Mapping → Ty → Ty → Result)
    (h : ∀ s t m1, rec1 none s t = (.ret true, m1) → m1 = none ∧ rec2 none s t = (.ret true, none))
    (fs gs : List Method) (m1 : Option Mapping)
    (h1 : identicalMethods U rec1 fs gs none = (.ret true, m1)) :
    m1 = none ∧ identicalMethods U rec2 fs gs none = (.ret true, none) := by
  induction fs generalizing gs with
  | nil => simp_all [identicalMethods]
  | cons f fs ih =>
    cases gs with
    | nil => simp_all [identicalMethods]
    | cons g gs =>
      simp only [identicalMethods] at h1 ⊢
      split at h1
      · simp at h1
      · rename_i hc
        simp only [andThen_eq_true] at h1
        obtain ⟨m2, hr, hk⟩ := h1
        obtain ⟨rfl, hr2⟩ := h _ _ _ hr
        obtain ⟨rfl, hk2⟩ := ih gs hk
        rw [if_neg hc, andThen_eq_true]
        exact ⟨rfl, none, hr2, hk2⟩

theorem identicalSwitch_ignoreTags (U : Universe)
    (rec1 rec2 : Option Mapping → Ty → Ty → Bool → List ifacePair → Result)
    (h : ∀ s t p m1, rec1 none s t true p = (.ret true, m1) →
      m1 = none ∧ rec2 none s t false p = (.ret true, none))
    (x y : Ty) (p : List ifacePair) (m1 : Option Mapping)
    (h1 : identicalSwitch U rec1 none x y true p = (.ret true, m1)) :
    m1 = none ∧ identicalSwitch U rec2 none x y false p = (.ret true, none) := by
  unfold identicalSwitch at h1 ⊢
  dsimp only at h1 ⊢
  split at h1
  · simp at h1
  · split at h1 <;> simp_all
  · rename_i a
    cases hn : U.heap a <;> simp only [hn] at h1 ⊢
    case Basic => split at h1 <;> simp_all
    case Array =>
      split at h1
      · split at h1
        · rename_i hl; simp only [if_pos hl]; exact h _ _ _ _ h1
        · simp at h1
      · simp at h1
    case Slice => split at h1 <;> first | exact h _ _ _ _ h1 | simp at h1
    case Struct =>
      split at h1
      · split at h1
        · rename_i hl; simp only [if_pos hl]
          exact identicalFields_ignoreTags U _ _ (fun s t m1 => h s t p m1) _ _ _ h1
        · simp at h1
      · simp at h1
    case Pointer => split at h1 <;> first | exact h _ _ _ _ h1 | simp at h1
    case Tuple =>
      split at h1
      · split at h1
        · rename_i hl; simp only [if_pos hl]
          exact identicalTypes_congr_true _ _ (fun s t m1 => h s t p m1) _ _ _ h1
        · simp at h1
      · simp at h1
    case Signature =>
      split at h1
      · split at h1
        · rename_i hl; simp only [if_pos hl]
          simp only [andThen_eq_true] at h1 ⊢
          obtain ⟨m2, hr, hk⟩ := h1
          obtain ⟨rfl, hr2⟩ := h _ _ _ _ hr
          obtain ⟨rfl, hk2⟩ := h _ _ _ _ hk
          exact ⟨rfl, none, hr2, hk2⟩
        · simp at h1
      · simp at h1
    case Interface =>
      split at h1
      · split at h1
        · rename_i hl; simp only [if_pos hl]
          split at h1
          · rename_i hq; simp only [if_pos hq]; simp_all
          · rename_i hq; simp only [if_neg hq]
            exact identicalMethods_congr_true U _ _ (fun s t m1 => h s t _ m1) _ _ _ h1
        · simp at h1
      · simp at h1
    case Map =>
      split at h1
      · simp only [andThen_eq_true] at h1 ⊢
        obtain ⟨m2, hr, hk⟩ := h1
        obtain ⟨rfl, hr2⟩ := h _ _ _ _ hr
        obtain ⟨rfl, hk2⟩ := h _ _ _ _ hk
        exact ⟨rfl, none, hr2, hk2⟩
      · simp at h1
    case Chan =>
      split at h1
      · split at h1
        · rename_i hl; simp only [if_pos hl]; exact h _ _ _ _ h1
        · simp at h1
      · simp at h1
    case Named => split at h1 <;> simp_all
    case Instance =>
      split at h1
      · simp only [andThen_eq_true] at h1 ⊢
        obtain ⟨m2, hr, hk⟩ := h1
        obtain ⟨rfl, hr2⟩ := h _ _ _ _ hr
        split at hk
        · simp at hk
        · rename_i hl
          obtain ⟨rfl, hk2⟩ := identicalTypes_congr_true _ (fun m s t => rec2 m s t false p)
            (fun s t m1 => h s t p m1) _ _ _ hk
          exact ⟨rfl, none, hr2, by rw [if_neg hl]; exact hk2⟩
      · simp at h1
    case TypeParam => split at h1 <;> simp_all

/-- With no unification map, a comparison that succeeds with the tags compared succeeds with
the tags ignored, at the same depth. -/
theorem identical_ignoreTags (U : Universe) (n : Nat) (x y : Ty) (p : List ifacePair)
    (m1 : Option Mapping) (h1 : identical U n none x y true p = (.ret true, m1)) :
    m1 = none ∧ identical U n none x y false p = (.ret true, none) := by
  induction n generalizing x y p m1 with
  | zero => simp [identical] at h1
  | succ n ih =>
    unfold identical at h1 ⊢
    by_cases hxy : x = y
    · simp_all
    · simp only [if_neg hxy] at h1 ⊢
      cases hu : Underlying U y with
      | none => simp [hu] at h1
      | some uy =>
        simp only [hu] at h1 ⊢
        cases hp : asTypeParam U uy <;> simp only [hp] at h1 ⊢ <;>
          exact identicalSwitch_ignoreTags U _ _ ih _ _ _ _ h1

theorem identical_eq_of_fst (U : Universe) (n : Nat) (x y : Ty) (c : Bool) (p : List ifacePair)
    (o : Outcome) (h : (identical U n none x y c p).1 = o) :
    identical U n none x y c p = (o, none) := by
  have h2 := identical_snd_none U n x y c p
  exact Prod.ext h h2

theorem identicalFields_tags_ignored (U : Universe) (n : Nat) (fs gs : List Field)
    (hfields : List.Forall₂ (fun f g => f.anonymous = g.anonymous ∧ sameId U f g = true ∧
      Identical U n f.typ g.typ = .ret true) fs gs) :
    identicalFields U (fun m s t => identical U n m s t false []) false fs gs none =
      (.ret true, none) := by
  induction hfields with
  | nil => simp [identicalFields]
  | cons hfg _ ih =>
    obtain ⟨h1, h2, h3⟩ := hfg
    have h4 := (identical_ignoreTags U n _ _ [] none (identical_eq_of_fst U n _ _ true [] _ h3)).2
    simp [identicalFields, h1, h2, h4, andThen, ih]

theorem identicalFields_tags_differ (U : Universe) (n : Nat) (fs gs : List Field)
    (hfields : List.Forall₂ (fun f g => f.anonymous = g.anonymous ∧ sameId U f g = true ∧
      Identical U n f.typ g.typ = .ret true) fs gs)
    (htags : ¬ List.Forall₂ (fun f g => f.tag = g.tag) fs gs) :
    identicalFields U (fun m s t => identical U n m s t true []) true fs gs none =
      (.ret false, none) := by
  induction hfields with
  | nil => exact absurd List.Forall₂.nil htags
  | cons hfg _ ih =>
    obtain ⟨h1, h2, h3⟩ := hfg
    rename_i f g fs gs _
    by_cases ht : f.tag = g.tag
    · have h4 := identical_eq_of_fst U n _ _ true [] _ h3
      have hrest : ¬ List.Forall₂ (fun f g => f.tag = g.tag) fs gs :=
        fun hh => htags (List.Forall₂.cons ht hh)
      simp [identicalFields, h1, h2, ht, h4, andThen, ih hrest]
    · simp [identicalFields, h1, h2, ht]

/-- Tag sensitivity at a given depth: the field types are identical at depth `n`, the two
structs are compared at depth `n + 1`. -/
theorem Identical_tag_sensitive_at (U : Universe) (n a b : Nat) (fs gs : List Field)
    (ha : U.heap a = .Struct fs) (hb : U.heap b = .Struct gs)
    (hfields : List.Forall₂ (fun f g => f.anonymous = g.anonymous ∧ sameId U f g = true ∧
      Identical U n f.typ g.typ = .ret true) fs gs)
    (htags : ¬ List.Forall₂ (fun f g => f.tag = g.tag) fs gs) :
    Identical U (n + 1) (.ptr a) (.ptr b) = .ret false ∧
    IdenticalIgnoreTags U (n + 1) (.ptr a) (.ptr b) = .ret true := by
  have hab : a ≠ b := by
    rintro rfl
    rw [ha] at hb
    cases hb
    exact htags (List.forall₂_same.mpr (fun _ _ => rfl))
  have hne : Ty.ptr a ≠ Ty.ptr b := fun h => hab (by cases h; rfl)
  have hlen := hfields.length_eq
  constructor
  · simp only [Identical, identical, if_neg hne, Underlying, hb, asTypeParam, identicalSwitch, ha,
      asStruct, hlen, beq_self_eq_true, if_true]
    rw [identicalFields_tags_differ U n fs gs hfields htags]
  · simp only [IdenticalIgnoreTags, identical, if_neg hne, Underlying, hb, asTypeParam,
      identicalSwitch, ha, asStruct, hlen, beq_self_eq_true, if_true]
    rw [identicalFields_tags_ignored U n fs gs hfields]

/-! ## The unification map only grows -/

theorem Grows.refl (m : Mapping) (o : Outcome) : Grows m (o, some m) :=
  ⟨[], by simp⟩

theorem Grows.trans (m m1 : Mapping) (o : Outcome) (r : Result)
    (h1 : Grows m (o, some m1)) (h2 : Grows m1 r) : Grows m r := by
  obtain ⟨e1, he1, hn1, hu1⟩ := h1
  obtain ⟨e2, he2, hn2, hu2⟩ := h2
  simp only [Option.some.injEq] at he1
  subst he1
  refine ⟨e2 ++ e1, by simp [he2], ?_, ?_⟩
  · rw [List.map_append, List.nodup_append]
    refine ⟨hn2, hn1, ?_⟩
    intro k hk2 hk1
    have := hu2 k hk2
    rw [List.lookup_append] at this
    simp only [List.mem_map] at hk1
    obtain ⟨e, he, rfl⟩ := hk1
    cases hl : List.lookup e.1 e1 with
    | none =>
      rw [List.lookup_eq_none_iff] at hl
      have := hl e he
      simp at this
    | some v => simp [hl] at this
  · intro k hk
    rw [List.map_append, List.mem_append] at hk
    rcases hk with hk | hk
    · have := hu2 k hk
      rw [List.lookup_append] at this
      cases hl : List.lookup k e1 with
      | none => simpa [hl] using this
      | some v => simp [hl] at this
    · exact hu1 k hk

theorem Grows.andThen (m : Mapping) (r : Result) (k : Option Mapping → Result)
    (hr : Grows m r) (hk : ∀ m1, Grows m1 (k (some m1))) : Grows m (andThen r k) := by
  rcases r with ⟨o, mo⟩
  have hmo : ∃ m1, mo = some m1 := by
    obtain ⟨e, he, _⟩ := hr
    exact ⟨_, he⟩
  obtain ⟨m1, rfl⟩ := hmo
  cases o with
  | ret b =>
    cases b
    · exact hr
    · exact Grows.trans m m1 _ _ hr (hk m1)
  | abort => exact hr
  | fuel => exact hr

theorem Grows.lookup (m : Mapping) (r : Result) (h : Grows m r) :
    ∃ m1, r.2 = some m1 ∧ ∀ k v, m.lookup k = some v → m1.lookup k = some v := by
  obtain ⟨e, he, _, hu⟩ := h
  refine ⟨_, he, ?_⟩
  intro k v hkv
  rw [List.lookup_append]
  cases hl : List.lookup k e with
  | none => simpa using hkv
  | some w =>
    exfalso
    have hmem : k ∈ e.map Prod.fst := by
      by_contra hc
      have : List.lookup k e = none := by
        rw [List.lookup_eq_none_iff]
        intro q hq
        simp only [bne_iff_ne, ne_eq]
        intro hkq
        exact hc (List.mem_map.mpr ⟨q, hq, hkq.symm⟩)
      simp [this] at hl
    simp [hu k hmem] at hkv

theorem identicalTypes_grows (rec : Option Mapping → Ty → Ty → Result)
    (hrec : ∀ m s t, Grows m (rec (some m) s t)) (vs ws : List Ty) (m : Mapping) :
    Grows m (identicalTypes rec vs ws (some m)) := by
  induction vs generalizing ws m with
  | nil => exact Grows.refl m _
  | cons v vs ih =>
    cases ws with
    | nil => exact Grows.refl m _
    | cons w ws => exact Grows.andThen m _ _ (hrec m v w) (fun m1 => ih ws m1)

theorem identicalFields_grows (U : Universe) (rec : Option Mapping → Ty → Ty → Result)
    (hrec : ∀ m s t, Grows m (rec (some m) s t)) (c : Bool) (fs gs : List Field) (m : Mapping) :
    Grows m (identicalFields U rec c fs gs (some m)) := by
  induction fs generalizing gs m with
  | nil => exact Grows.refl m _
  | cons f fs ih =>
    cases gs with
    | nil => exact Grows.refl m _
    | cons g gs =>
      simp only [identicalFields]
      split
      · exact Grows.refl m _
      · exact Grows.andThen m _ _ (hrec m _ _) (fun m1 => ih gs m1)

theorem identicalMethods_grows (U : Universe) (rec : Option Mapping → Ty → Ty → Result)
    (hrec : ∀ m s t, Grows m (rec (some m) s t)) (fs gs : List Method) (m : Mapping) :
    Grows m (identicalMethods U rec fs gs (some m)) := by
  induction fs generalizing gs m with
  | nil => exact Grows.refl m _
  | cons f fs ih =>
    cases gs with
    | nil => exact Grows.refl m _
    | cons g gs =>
      simp only [identicalMethods]
      split
      · exact Grows.refl m _
      · exact Grows.andThen m _ _ (hrec m _ _) (fun m1 => ih gs m1)

theorem identicalSwitch_grows (U : Universe)
    (rec : Option Mapping → Ty → Ty → Bool → List ifacePair → Result)
    (hrec : ∀ m s t c p, Grows m (rec (some m) s t c p))
    (m : Mapping) (x y : Ty) (c : Bool) (p : List ifacePair) :
    Grows m (identicalSwitch U rec (some m) x y c p) := by
  unfold identicalSwitch
  dsimp only
  repeat' split
  all_goals first
    | exact Grows.refl m _
    | exact hrec _ _ _ _ _
    | exact identicalFields_grows U _ (fun m s t => hrec m s t _ _) _ _ _ _
    | exact identicalTypes_grows _ (fun m s t => hrec m s t _ _) _ _ _
    | exact identicalMethods_grows U _ (fun m s t => hrec m s t _ _) _ _ _
    | exact Grows.andThen m _ _ (hrec _ _ _ _ _) (fun m1 => hrec m1 _ _ _ _)
    | exact Grows.andThen m _ _ (hrec _ _ _ _ _) (fun m1 => Grows.refl m1 _)
    | exact Grows.andThen m _ _ (hrec _ _ _ _ _)
        (fun m1 => identicalTypes_grows _ (fun m s t => hrec m s t _ _) _ _ m1)

theorem identical_grows (U : Universe) (n : Nat) (m : Mapping) (x y : Ty) (c : Bool)
    (p : List ifacePair) : Grows m (identical U n (some m) x y c p) := by
  induction n generalizing m x y c p with
  | zero => exact Grows.refl m _
  | succ n ih =>
    by_cases hxy : x = y
    · rw [identical_of_eq U n _ x y c p hxy]; exact Grows.refl m _
    · cases hu : Underlying U y with
      | none => rw [identical_of_nil U n _ x y c p hxy hu]; exact Grows.refl m _
      | some uy =>
        cases hp : asTypeParam U uy with
        | none =>
          rw [identical_of_switch U n _ x y c p uy hxy hu (Or.inl hp)]
          exact identicalSwitch_grows U _ ih _ _ _ _ _
        | some tp =>
          obtain ⟨P, o, r⟩ := tp
          cases hl : List.lookup P m with
          | some typ =>
            rw [identical_of_bound U n m x y c p uy P o r typ hxy hu hp hl]
            exact identicalSwitch_grows U _ ih _ _ _ _ _
          | none =>
            cases hx : isUntyped U x with
            | none =>
              rw [identical_of_unclassified U n m x y c p uy P o r hxy hu hp hl hx]
              exact Grows.refl m _
            | some untyped =>
              rw [identical_of_unbound U n m x y c p uy P o r untyped hxy hu hp hl hx]
              by_cases hA : U.assignableToTypeParam (if untyped then Default U x else x) P = true
              · rw [if_pos hA]; exact ⟨[(P, _)], rfl, by simp, by simpa using hl⟩
              · rw [if_neg hA]; exact Grows.refl m _

/-- C8. A parameter is bound at most once: whatever a call of `identical` with a supplied map
`m` does (return, abort, run out of depth), the map it leaves is `ext ++ m`, where `ext`
binds distinct parameters, none of them bound in `m`; so every binding of `m` is still there
with its value. -/
theorem identical_binds_at_most_once (U : Universe) (n : Nat) (m : Mapping) (x y : Ty)
    (c : Bool) (p : List ifacePair) :
    ∃ ext : Mapping, (identical U n (some m) x y c p).2 = some (ext ++ m) ∧
      (ext.map Prod.fst).Nodup ∧ (∀ k ∈ ext.map Prod.fst, m.lookup k = none) ∧
      (∀ k v, m.lookup k = some v → (ext ++ m).lookup k = some v) := by
  have hg := identical_grows U n m x y c p
  obtain ⟨m1, hm1, hl⟩ := Grows.lookup m _ hg
  obtain ⟨ext, he, hn, hu⟩ := hg
  refine ⟨ext, he, hn, hu, ?_⟩
  rw [he] at hm1
  cases hm1
  exact hl

/-! ## Comparing a type with itself below the pointer comparison -/

theorem identicalTypes_self (rec : Option Mapping → Ty → Ty → Result)
    (hrec : ∀ m t, rec m t t = (.ret true, m)) (vs : List Ty) (m : Option Mapping) :
    identicalTypes rec vs vs m = (.ret true, m) := by
  induction vs with
  | nil => rfl
  | cons v vs ih => simp [identicalTypes, hrec, andThen, ih]

theorem identicalFields_self (U : Universe) (rec : Option Mapping → Ty → Ty → Result)
    (hrec : ∀ m t, rec m t t = (.ret true, m)) (c : Bool) (fs : List Field)
    (m : Option Mapping) : identicalFields U rec c fs fs m = (.ret true, m) := by
  induction fs with
  | nil => rfl
  | cons f fs ih => simp [identicalFields, sameId, hrec, andThen, ih]

theorem identicalMethods_self (U : Universe) (rec : Option Mapping → Ty → Ty → Result)
    (hrec : ∀ m t, rec m t t = (.ret true, m)) (fs : List Method) (m : Option Mapping) :
    identicalMethods U rec fs fs m = (.ret true, m) := by
  induction fs with
  | nil => rfl
  | cons f fs ih => simp [identicalMethods, hrec, andThen, ih]

/-- The type switch run on a present type against itself returns true and leaves the map as it
was, when the recursive calls do so on equal arguments. -/
theorem identicalSwitch_self (U : Universe)
    (rec : Option Mapping → Ty → Ty → Bool → List ifacePair → Result)
    (hrec : ∀ m t c p, rec m t t c p = (.ret true, m))
    (m : Option Mapping) (x : Ty) (c : Bool) (p : List ifacePair) (hx : x ≠ .nil) :
    identicalSwitch U rec m x x c p = (.ret true, m) := by
  cases x with
  | nil => exact absurd rfl hx
  | nilTuple => simp [identicalSwitch, asTuple]
  | ptr a =>
    cases hn : U.heap a <;>
      simp [identicalSwitch, hn, asBasic, asArray, asSlice, asStruct, asPointer, asTuple,
        asSignature, asInterface, asMap, asChan, asNamed, asInstance, asTypeParam, hrec, andThen,
        identicalTypes_self, identicalFields_self, identicalMethods_self]

/-! ## Unifying a repeated parameter -/

theorem isUntyped_of_isTyped (U : Universe) (A : Ty) (h : isTyped U A = some true) :
    isUntyped U A = some false ∧ A ≠ .nil := by
  constructor
  · unfold isTyped at h
    unfold isUntyped basicHas
    cases hu : Underlying U A with
    | none => simp [hu] at h
    | some u =>
      simp only [hu] at h ⊢
      cases hb : asBasic U u with
      | none => rfl
      | some ki =>
        simp only [hb, Option.some.injEq, beq_iff_eq] at h
        simp [h]
  · rintro rfl
    simp [isTyped, Underlying] at h

theorem andThen_ret_true (r : Result) (k : Option Mapping → Result)
    (hk : ∀ m, k m = (.ret true, m)) : andThen r k = r := by
  rcases r with ⟨o1, m1⟩
  cases o1 with
  | ret b => cases b <;> simp [andThen, hk]
  | abort => rfl
  | fuel => rfl

theorem heap_of_asTuple (U : Universe) (a : Nat) (ws : List Ty)
    (h : asTuple U (.ptr a) = some ws) : ∃ vs, U.heap a = .Tuple vs ∧ vs.map Var.typ = ws := by
  simp only [asTuple] at h
  split at h <;> simp only [Option.some.injEq, reduceCtorEq] at h
  exact ⟨_, by assumption, h⟩

theorem identicalSwitch_tuple (U : Universe)
    (rec : Option Mapping → Ty → Ty → Bool → List ifacePair → Result)
    (m : Option Mapping) (tx : Nat) (y : Ty) (c : Bool) (p : List ifacePair) (vs ws : List Ty)
    (hx : asTuple U (.ptr tx) = some vs) (hy : asTuple U y = some ws)
    (hlen : vs.length = ws.length) :
    identicalSwitch U rec m (.ptr tx) y c p =
      identicalTypes (fun m s t => rec m s t c p) vs ws m := by
  obtain ⟨tvs, hn, rfl⟩ := heap_of_asTuple U tx vs hx
  simp only [List.length_map] at hlen
  simp [identicalSwitch, hn, hy, hlen]

/-- The elements `(A, B)` compared with `(P, P)` from the empty map, `A` typed and passing the
constraint check of the unbound parameter `P`: the first pair binds `P = A`, the second pair
is the type switch on `B` against the binding `A`. -/
theorem identical_pair_against_param (U : Universe) (n tx ty P o r : Nat) (A B : Ty) (c : Bool)
    (p : List ifacePair)
    (hx : asTuple U (.ptr tx) = some [A, B]) (hy : asTuple U (.ptr ty) = some [.ptr P, .ptr P])
    (hP : U.heap P = .TypeParam o r) (hA : isTyped U A = some true)
    (hAP : A ≠ .ptr P) (hBP : B ≠ .ptr P) (hsat : U.assignableToTypeParam A P = true) :
    identical U (n + 2) (some []) (.ptr tx) (.ptr ty) c p =
      identicalSwitch U (identical U n) (some [(P, A)]) B A c p := by
  have hne : Ty.ptr tx ≠ Ty.ptr ty := by
    intro h
    cases h
    rw [hx] at hy
    cases hy
    exact hAP rfl
  have hUP : Underlying U (.ptr P) = some (.ptr P) := by simp [Underlying, hP]
  have hTP : asTypeParam U (.ptr P) = some (P, o, r) := by simp [asTypeParam, hP]
  have h1 : identical U (n + 1) (some []) A (.ptr P) c p = (.ret true, some [(P, A)]) := by
    rw [identical_unbound U n [] A (.ptr P) c p P o r false hAP hUP hP rfl
      (isUntyped_of_isTyped U A hA).1]
    simp [hsat]
  have h2 : identical U (n + 1) (some [(P, A)]) B (.ptr P) c p =
      identicalSwitch U (identical U n) (some [(P, A)]) B A c p :=
    identical_of_bound U n [(P, A)] B (.ptr P) c p (.ptr P) P o r A hBP hUP hTP (by simp)
  obtain ⟨yvs, hyn, -⟩ := heap_of_asTuple U ty _ hy
  rw [identical_of_switch U (n + 1) (some []) (.ptr tx) (.ptr ty) c p (.ptr ty) hne
    (by simp [Underlying, hyn]) (Or.inl (by simp [asTypeParam, hyn]))]
  rw [identicalSwitch_tuple U _ _ tx (.ptr ty) c p [A, B] [.ptr P, .ptr P] hx hy rfl]
  simp only [identicalTypes, h1, andThen, h2]
  generalize identicalSwitch U (identical U n) (some [(P, A)]) B A c p = res
  rcases res with ⟨o1, m1⟩
  cases o1 with
  | ret b => cases b <;> rfl
  | abort => rfl
  | fuel => rfl

/-- C5, as amended. Unification consistency (success): for an unbound type parameter `P` and a
typed type `A` other than `P` itself that passes the constraint check of `P`, `identical` run
from the empty map on the tuple `(A, A)` against the tuple `(P, P)` returns true and leaves the
map holding exactly the binding `P = A`. -/
theorem identical_tuple_binds (U : Universe) (n tx ty P o r : Nat) (A : Ty) (c : Bool)
    (p : List ifacePair)
    (hx : asTuple U (.ptr tx) = some [A, A]) (hy : asTuple U (.ptr ty) = some [.ptr P, .ptr P])
    (hP : U.heap P = .TypeParam o r) (hA : isTyped U A = some true)
    (hAP : A ≠ .ptr P) (hsat : U.assignableToTypeParam A P = true) :
    identical U (n + 3) (some []) (.ptr tx) (.ptr ty) c p = (.ret true, some [(P, A)]) := by
  rw [identical_pair_against_param U (n + 1) tx ty P o r A A c p hx hy hP hA hAP hAP hsat]
  exact identicalSwitch_self U _ (fun m t c p => identical_self U n m t c p) _ A c p
    (isUntyped_of_isTyped U A hA).2

/-! ## Cycle safety -/

theorem ifacePair_identical_refl (q : ifacePair) : q.identical q = true := by
  simp [ifacePair.identical]

theorem unmatched_push_lt (L p : List ifacePair) (q : ifacePair) (hq : q ∈ L)
    (hp : p.any (fun e => e.identical q) = false) :
    unmatched L (q :: p) < unmatched L p := by
  unfold unmatched
  have h1 : L.filter (fun l => !(q :: p).any (fun e => e.identical l)) =
      (L.filter (fun l => !p.any (fun e => e.identical l))).filter (fun l => !q.identical l) := by
    rw [List.filter_filter]
    apply List.filter_congr
    intro l _
    simp [List.any_cons, Bool.and_comm]
  rw [h1, List.length_filter_lt_length_iff_exists]
  refine ⟨q, ?_, by simp [ifacePair_identical_refl]⟩
  simp [List.mem_filter, hq, hp]

theorem unmatched_le (L p : List ifacePair) : unmatched L p ≤ L.length :=
  List.length_filter_le _ _

theorem identicalTypes_similar (rec : Option Mapping → Ty → Ty → Result) (R : Ty → Ty → Prop)
    (hrec : ∀ s t, R s t → rec none s t = (.ret true, none)) (vs ws : List Ty)
    (h : List.Forall₂ R vs ws) : identicalTypes rec vs ws none = (.ret true, none) := by
  induction h with
  | nil => rfl
  | cons hr _ ih => simp [identicalTypes, hrec _ _ hr, andThen, ih]

theorem identicalFields_similar (U : Universe) (rec : Option Mapping → Ty → Ty → Result)
    (R : Ty → Ty → Prop) (hrec : ∀ s t, R s t → rec none s t = (.ret true, none)) (c : Bool)
    (fs gs : List Field)
    (h : List.Forall₂ (fun f g => f.anonymous = g.anonymous ∧ f.tag = g.tag ∧
      sameId U f g = true ∧ R f.typ g.typ) fs gs) :
    identicalFields U rec c fs gs none = (.ret true, none) := by
  induction h with
  | nil => rfl
  | cons hr _ ih =>
    obtain ⟨h1, h2, h3, h4⟩ := hr
    simp [identicalFields, h1, h2, h3, hrec _ _ h4, andThen, ih]

theorem identicalMethods_similar (U : Universe) (rec : Option Mapping → Ty → Ty → Result)
    (R : Ty → Ty → Prop) (hrec : ∀ s t, R s t → rec none s t = (.ret true, none))
    (fs gs : List Method)
    (h : List.Forall₂ (fun f g => Id U f.pkg f.name = Id U g.pkg g.name ∧ R f.typ g.typ)
      fs gs) :
    identicalMethods U rec fs gs none = (.ret true, none) := by
  induction h with
  | nil => rfl
  | cons hr _ ih =>
    obtain ⟨h1, h2⟩ := hr
    simp [identicalMethods, h1, hrec _ _ h2, andThen, ih]

/-- The type switch on corresponding nodes, the first not an interface, returns true when the
recursive calls on the corresponding components do. -/
theorem identicalSwitch_similar (U : Universe)
    (rec : Option Mapping → Ty → Ty → Bool → List ifacePair → Result) (R : Ty → Ty → Prop)
    (a b : Nat) (c : Bool) (p : List ifacePair)
    (hsim : NodeSim U R (U.heap a) (U.heap b)) (hni : (U.heap a).isInterface = false)
    (hrec : ∀ s t, R s t → rec none s t c p = (.ret true, none)) :
    identicalSwitch U rec none (.ptr a) (.ptr b) c p = (.ret true, none) := by
  cases hn : U.heap a <;> simp only [hn, NodeSim, Node.isInterface] at hsim hni
  case Basic => obtain ⟨i, hb⟩ := hsim; simp [identicalSwitch, hn, asBasic, hb]
  case Array =>
    obtain ⟨e1, hb, hr⟩ := hsim
    simp [identicalSwitch, hn, asArray, hb, hrec _ _ hr]
  case Slice =>
    obtain ⟨e1, hb, hr⟩ := hsim
    simp [identicalSwitch, hn, asSlice, hb, hrec _ _ hr]
  case Struct =>
    obtain ⟨gs, hb, hr⟩ := hsim
    simp [identicalSwitch, hn, asStruct, hb, hr.length_eq,
      identicalFields_similar U (fun m s t => rec m s t c p) R hrec c _ _ hr]
  case Pointer =>
    obtain ⟨e1, hb, hr⟩ := hsim
    simp [identicalSwitch, hn, asPointer, hb, hrec _ _ hr]
  case Tuple =>
    obtain ⟨ws, hb, hr⟩ := hsim
    have hlen := hr.length_eq
    simp only [List.length_map] at hlen
    simp [identicalSwitch, hn, asTuple, hb, hlen,
      identicalTypes_similar (fun m s t => rec m s t c p) R hrec _ _ hr]
  case Signature =>
    obtain ⟨recv, ps1, rs1, hb, hr1, hr2⟩ := hsim
    simp [identicalSwitch, hn, asSignature, hb, hrec _ _ hr1, hrec _ _ hr2, andThen]
  case Map =>
    obtain ⟨k1, e1, hb, hr1, hr2⟩ := hsim
    simp [identicalSwitch, hn, asMap, hb, hrec _ _ hr1, hrec _ _ hr2, andThen]
  case Chan =>
    obtain ⟨e1, hb, hr⟩ := hsim
    simp [identicalSwitch, hn, asChan, hb, hrec _ _ hr]
  case Named => obtain ⟨u, hb⟩ := hsim; simp [identicalSwitch, hn, asNamed, hb]
  case Instance =>
    obtain ⟨n1, as1, hb, hr1, hr2⟩ := hsim
    simp [identicalSwitch, hn, asInstance, hb, hrec _ _ hr1, andThen, hr2.length_eq,
      identicalTypes_similar (fun m s t => rec m s t c p) R hrec _ _ hr2]
  case TypeParam => obtain ⟨r, hb⟩ := hsim; simp [identicalSwitch, hn, asTypeParam, hb]
  case Interface => cases hni

/-- The type switch on corresponding interfaces returns true: at once when the pair is on the
stack, and else when the recursive calls, made with the pair pushed, return true on the
corresponding method signatures. -/
theorem identicalSwitch_interface (U : Universe)
    (rec : Option Mapping → Ty → Ty → Bool → List ifacePair → Result) (R : Ty → Ty → Prop)
    (a b : Nat) (c : Bool) (p : List ifacePair)
    (hsim : NodeSim U R (U.heap a) (U.heap b)) (hi : (U.heap a).isInterface = true)
    (hrec : p.any (fun e => e.identical ⟨a, b⟩) = false →
      ∀ s t, R s t → rec none s t c (⟨a, b⟩ :: p) = (.ret true, none)) :
    identicalSwitch U rec none (.ptr a) (.ptr b) c p = (.ret true, none) := by
  cases hn : U.heap a <;> simp only [hn, NodeSim, Node.isInterface] at hsim hi
  all_goals try cases hi
  obtain ⟨ms1, hb, hr⟩ := hsim
  cases hp : p.any (fun e => e.identical ⟨a, b⟩)
  · simp [identicalSwitch, hn, asInterface, hb, hr.length_eq, hp,
      identicalMethods_similar U (fun m s t => rec m s t c (⟨a, b⟩ :: p)) R (hrec hp) _ _ hr]
  · simp [identicalSwitch, hn, asInterface, hb, hr.length_eq, hp]

theorem Underlying_ptr_isSome (U : Universe) (b : Nat) : ∃ uy, Underlying U (.ptr b) = some uy := by
  simp only [Underlying]
  repeat' split
  all_goals exact ⟨_, rfl⟩

/-- On corresponding type graphs `identical`, without a unification map, returns true once
the depth covers the unmatched interface pairs and the rank of `x`. -/
theorem identical_of_corresponds (U : Universe) (R : Ty → Ty → Prop) (L : List ifacePair)
    (rank : Ty → Nat) (D : Nat) (h : Corresponds U R L rank D) (c : Bool) (n : Nat) :
    ∀ (p : List ifacePair) (x y : Ty), R x y → unmatched L p * (D + 2) + rank x + 2 ≤ n →
      identical U n none x y c p = (.ret true, none) := by
  induction n with
  | zero => intro p x y _ hn; omega
  | succ n ih =>
    intro p x y hR hn
    rcases h.step x y hR with hxy | ⟨a, b, rfl, rfl, hsim, hL⟩
    · exact identical_of_eq U n none x y c p hxy
    · by_cases hab : Ty.ptr a = Ty.ptr b
      · exact identical_of_eq U n none _ _ c p hab
      · obtain ⟨uy, huy⟩ := Underlying_ptr_isSome U b
        rw [identical_of_switch U n none _ _ c p uy hab huy (Or.inr rfl)]
        have hpos : ∃ k, n = k + 1 := ⟨n - 1, by omega⟩
        cases hi : (U.heap a).isInterface
        · apply identicalSwitch_similar U _ _ a b c p hsim hi
          rintro s t (rfl | ⟨hst, hrank⟩)
          · obtain ⟨k, rfl⟩ := hpos
            exact identical_of_eq U k none _ _ c p rfl
          · have := hrank hi
            exact ih p s t hst (by omega)
        · apply identicalSwitch_interface U _ _ a b c p hsim hi
          rintro hp s t (rfl | ⟨hst, -⟩)
          · obtain ⟨k, rfl⟩ := hpos
            exact identical_of_eq U k none _ _ c _ rfl
          · have hlt := unmatched_push_lt L p ⟨a, b⟩ (hL hi) hp
            have hD := h.bound s t hst
            have hmul : (unmatched L (⟨a, b⟩ :: p) + 1) * (D + 2) ≤ unmatched L p * (D + 2) :=
              Nat.mul_le_mul_right _ hlt
            rw [Nat.add_mul, Nat.one_mul] at hmul
            apply ih _ s t hst
            generalize unmatched L (⟨a, b⟩ :: p) * (D + 2) = X at hmul ⊢
            generalize unmatched L p * (D + 2) = Y at hmul hn
            omega

/-- C9. Cycle safety. On two type graphs that correspond (same variants, same names and
payloads, corresponding components) and whose cycles pass through interfaces, as for two
interface nodes whose methods return an interface that contains the enclosing interface again,
`Identical` returns true at every depth from `(|L| + 1) * (D + 2)` on, `L` the list of the
corresponding interface pairs and `D` the nesting depth between them. The recursion ends
because an interface pair that is on the comparison stack, in either order, is answered true
at once, without descending. -/
theorem Identical_cycle_safe (U : Universe) (R : Ty → Ty → Prop) (L : List ifacePair)
    (rank : Ty → Nat) (D : Nat) (h : Corresponds U R L rank D) :
    (∀ x y n, R x y → (L.length + 1) * (D + 2) ≤ n → Identical U n x y = .ret true) ∧
    (∀ n m a b ms ms1 c p, U.heap a = .Interface ms → U.heap b = .Interface ms1 →
      ms.length = ms1.length →
      (∃ e ∈ p, (e.x = a ∧ e.y = b) ∨ (e.x = b ∧ e.y = a)) →
      identical U (n + 1) m (.ptr a) (.ptr b) c p = (.ret true, m)) := by
  constructor
  · intro x y n hR hn
    have hu := unmatched_le L []
    have hD := h.bound x y hR
    have hmul : unmatched L [] * (D + 2) ≤ L.length * (D + 2) := Nat.mul_le_mul_right _ hu
    rw [Nat.add_mul, Nat.one_mul] at hn
    have := identical_of_corresponds U R L rank D h true n [] x y hR (by
      generalize unmatched L [] * (D + 2) = X at hmul ⊢
      generalize L.length * (D + 2) = Y at hmul hn
      omega)
    simp [Identical, this]
  · intro n m a b ms ms1 c p ha hb hlen hp
    by_cases hab : Ty.ptr a = Ty.ptr b
    · exact identical_of_eq U n m _ _ c p hab
    · rw [identical_of_switch U n m _ _ c p (.ptr b) hab (by simp [Underlying, hb])
        (Or.inl (by simp [asTypeParam, hb]))]
      have hany : p.any (fun e => e.identical ⟨a, b⟩) = true := by
        obtain ⟨e, he, hor⟩ := hp
        rw [List.any_eq_true]
        exact ⟨e, he, by rcases hor with ⟨h1, h2⟩ | ⟨h1, h2⟩ <;> simp [ifacePair.identical, h1, h2]⟩
      simp [identicalSwitch, ha, asInterface, hb, hlen, hany]

/-! ## Symmetry without a unification map -/

theorem andThen_agree (r1 r2 : Result) (k1 k2 : Option Mapping → Result)
    (hr : AgreeOrAbort r1 r2) (hn : r1.2 = none) (hk : AgreeOrAbort (k1 none) (k2 none)) :
    AgreeOrAbort (andThen r1 k1) (andThen r2 k2) := by
  rcases r1 with ⟨o1, m1⟩
  simp only at hn
  subst hn
  rcases hr with hr | hr | hr
  · subst hr
    cases o1 with
    | ret b => cases b <;> first | exact Or.inl rfl | exact hk
    | abort => exact Or.inl rfl
    | fuel => exact Or.inl rfl
  · simp only at hr
    subst hr
    exact Or.inr (Or.inl rfl)
  · rcases r2 with ⟨o2, m2⟩
    simp only at hr
    subst hr
    exact Or.inr (Or.inr rfl)

theorem identicalTypes_symm (rec1 rec2 : Option Mapping → Ty → Ty → Result)
    (hn : ∀ s t, (rec1 none s t).2 = none)
    (h : ∀ s t, AgreeOrAbort (rec1 none s t) (rec2 none t s)) (vs ws : List Ty) :
    AgreeOrAbort (identicalTypes rec1 vs ws none) (identicalTypes rec2 ws vs none) := by
  induction vs generalizing ws with
  | nil => cases ws <;> exact Or.inl rfl
  | cons v vs ih =>
    cases ws with
    | nil => exact Or.inl rfl
    | cons w ws => exact andThen_agree _ _ _ _ (h v w) (hn v w) (ih ws)

theorem bne_swap {α : Type} [BEq α] [LawfulBEq α] (a b : α) : (a != b) = (b != a) := by
  rw [bne, bne, BEq.comm]

theorem sameId_comm (U : Universe) (f g : Field) : sameId U f g = sameId U g f := by
  simp only [sameId]
  exact decide_eq_decide.mpr ⟨fun h => h.symm, fun h => h.symm⟩

theorem identicalFields_symm (U : Universe) (rec1 rec2 : Option Mapping → Ty → Ty → Result)
    (hn : ∀ s t, (rec1 none s t).2 = none)
    (h : ∀ s t, AgreeOrAbort (rec1 none s t) (rec2 none t s)) (c : Bool) (fs gs : List Field) :
    AgreeOrAbort (identicalFields U rec1 c fs gs none) (identicalFields U rec2 c gs fs none) := by
  induction fs generalizing gs with
  | nil => cases gs <;> exact Or.inl rfl
  | cons f fs ih =>
    cases gs with
    | nil => exact Or.inl rfl
    | cons g gs =>
      simp only [identicalFields]
      have hc : (f.anonymous != g.anonymous || (c && f.tag != g.tag) || !sameId U f g) =
          (g.anonymous != f.anonymous || (c && g.tag != f.tag) || !sameId U g f) := by
        rw [sameId_comm U f g, bne_swap f.anonymous, bne_swap f.tag]
      rw [hc]
      split
      · exact Or.inl rfl
      · exact andThen_agree _ _ _ _ (h _ _) (hn _ _) (ih gs)

theorem identicalMethods_symm (U : Universe) (rec1 rec2 : Option Mapping → Ty → Ty → Result)
    (hn : ∀ s t, (rec1 none s t).2 = none)
    (h : ∀ s t, AgreeOrAbort (rec1 none s t) (rec2 none t s)) (fs gs : List Method) :
    AgreeOrAbort (identicalMethods U rec1 fs gs none) (identicalMethods U rec2 gs fs none) := by
  induction fs generalizing gs with
  | nil => cases gs <;> exact Or.inl rfl
  | cons f fs ih =>
    cases gs with
    | nil => exact Or.inl rfl
    | cons g gs =>
      simp only [identicalMethods]
      rw [bne_swap (Id U f.pkg f.name)]
      split
      · exact Or.inl rfl
      · exact andThen_agree _ _ _ _ (h _ _) (hn _ _) (ih gs)

theorem identicalSwitch_absent (U : Universe)
    (rec : Option Mapping → Ty → Ty → Bool → List ifacePair → Result)
    (m : Option Mapping) (x : Ty) (c : Bool) (p : List ifacePair) :
    identicalSwitch U rec m x .nil c p = (.ret false, m) := by
  cases x with
  | nil => rfl
  | nilTuple => rfl
  | ptr a =>
    cases hn : U.heap a <;>
      simp [identicalSwitch, hn, asBasic, asArray, asSlice, asStruct, asPointer, asTuple,
        asSignature, asInterface, asMap, asChan, asNamed, asInstance, asTypeParam]

theorem any_identical_swap (p : List ifacePair) (a b : Nat) :
    (p.map ifacePair.swap).any (fun e => e.identical ⟨b, a⟩) =
      p.any (fun e => e.identical ⟨a, b⟩) := by
  induction p with
  | nil => rfl
  | cons e p ih =>
    simp only [List.map_cons, List.any_cons, ih]
    congr 1
    simp only [ifacePair.identical, ifacePair.swap]
    cases h1 : e.x == a <;> cases h2 : e.y == b <;> cases h3 : e.x == b <;>
      cases h4 : e.y == a <;> rfl

theorem identicalTypes_nil_right (rec : Option Mapping → Ty → Ty → Result) (ws : List Ty)
    (m : Option Mapping) : identicalTypes rec ws [] m = (.ret true, m) := by
  cases ws <;> rfl

theorem beq_swap {α : Type} [BEq α] [LawfulBEq α] (a b : α) : (a == b) = (b == a) :=
  BEq.comm

/-- The type switch with its operands exchanged (and the stack entries with them) gives the
same result, unless one of the two runs aborts, when the recursive calls do. -/
theorem identicalSwitch_symm (U : Universe)
    (rec1 rec2 : Option Mapping → Ty → Ty → Bool → List ifacePair → Result)
    (hn : ∀ s t c p, (rec1 none s t c p).2 = none)
    (h : ∀ s t c p, AgreeOrAbort (rec1 none s t c p) (rec2 none t s c (p.map ifacePair.swap)))
    (x y : Ty) (c : Bool) (p : List ifacePair) :
    AgreeOrAbort (identicalSwitch U rec1 none x y c p)
      (identicalSwitch U rec2 none y x c (p.map ifacePair.swap)) := by
  cases y with
  | nil => rw [identicalSwitch_absent]; exact Or.inl rfl
  | nilTuple =>
    cases x with
    | nil => rw [identicalSwitch_absent]; exact Or.inl rfl
    | nilTuple => exact Or.inl rfl
    | ptr a =>
      cases ha : U.heap a <;>
        simp only [identicalSwitch, ha, asBasic, asArray, asSlice, asStruct, asPointer, asTuple,
          asSignature, asInterface, asMap, asChan, asNamed, asInstance, asTypeParam,
          identicalTypes_nil_right] <;>
        try exact Or.inl rfl
      rename_i vars
      cases vars <;> exact Or.inl rfl
  | ptr b =>
    cases x with
    | nil => rw [identicalSwitch_absent]; exact Or.inl rfl
    | nilTuple =>
      cases hb : U.heap b <;>
        simp only [identicalSwitch, hb, asBasic, asArray, asSlice, asStruct, asPointer, asTuple,
          asSignature, asInterface, asMap, asChan, asNamed, asInstance, asTypeParam,
          identicalTypes_nil_right] <;>
        try exact Or.inl rfl
      rename_i vars
      cases vars <;> exact Or.inl rfl
    | ptr a =>
      cases ha : U.heap a <;> cases hb : U.heap b <;>
        simp only [identicalSwitch, ha, hb, asBasic, asArray, asSlice, asStruct, asPointer,
          asTuple, asSignature, asInterface, asMap, asChan, asNamed, asInstance, asTypeParam] <;>
        try exact Or.inl rfl
      case Basic.Basic k1 _ k2 _ => rw [beq_swap k1 k2]; exact Or.inl rfl
      case Array.Array l1 _ l2 _ =>
        rw [beq_swap l1 l2]
        split
        · exact h _ _ _ _
        · exact Or.inl rfl
      case Slice.Slice => exact h _ _ _ _
      case Struct.Struct fs gs =>
        rw [beq_swap fs.length gs.length]
        split
        · exact identicalFields_symm U _ _ (fun s t => hn s t c p) (fun s t => h s t c p) c fs gs
        · exact Or.inl rfl
      case Pointer.Pointer => exact h _ _ _ _
      case Tuple.Tuple vs ws =>
        simp only [List.length_map]
        rw [beq_swap vs.length ws.length]
        split
        · exact identicalTypes_symm _ _ (fun s t => hn s t c p) (fun s t => h s t c p) _ _
        · exact Or.inl rfl
      case Signature.Signature _ _ _ v1 _ _ _ v2 =>
        rw [beq_swap v1 v2]
        split
        · exact andThen_agree _ _ _ _ (h _ _ _ _) (hn _ _ _ _) (h _ _ _ _)
        · exact Or.inl rfl
      case Interface.Interface ms1 ms2 =>
        rw [beq_swap ms1.length ms2.length, any_identical_swap]
        split
        · split
          · exact Or.inl rfl
          · exact identicalMethods_symm U _ _ (fun s t => hn s t c _)
              (fun s t => h s t c (⟨a, b⟩ :: p)) ms1 ms2
        · exact Or.inl rfl
      case Map.Map => exact andThen_agree _ _ _ _ (h _ _ _ _) (hn _ _ _ _) (h _ _ _ _)
      case Chan.Chan d1 _ d2 _ =>
        rw [beq_swap d1 d2]
        split
        · exact h _ _ _ _
        · exact Or.inl rfl
      case Named.Named o1 _ o2 _ => rw [beq_swap o1 o2]; exact Or.inl rfl
      case Instance.Instance n1 as1 n2 as2 =>
        apply andThen_agree _ _ _ _ (h _ _ _ _) (hn _ _ _ _)
        rw [bne_swap as1.length as2.length]
        split
        · exact Or.inl rfl
        · exact identicalTypes_symm _ _ (fun s t => hn s t c p) (fun s t => h s t c p) as1 as2
      case TypeParam.TypeParam o1 _ o2 _ => rw [beq_swap o1 o2]; exact Or.inl rfl

/-- Symmetry without a unification map, up to aborts: `identical` with its operands exchanged
(and the pairs on the stack with them) gives the same result, unless one of the two calls
aborts. -/
theorem identical_symm (U : Universe) (n : Nat) (x y : Ty) (c : Bool) (p : List ifacePair) :
    AgreeOrAbort (identical U n none x y c p) (identical U n none y x c (p.map ifacePair.swap)) := by
  induction n generalizing x y c p with
  | zero => exact Or.inl rfl
  | succ n ih =>
    by_cases hxy : x = y
    · rw [identical_of_eq U n none x y c p hxy, identical_of_eq U n none y x c _ hxy.symm]
      exact Or.inl rfl
    · have hyx : y ≠ x := fun e => hxy e.symm
      cases hy : Underlying U y with
      | none =>
        rw [identical_of_nil U n none x y c p hxy hy]
        exact Or.inr (Or.inl rfl)
      | some uy =>
        cases hx : Underlying U x with
        | none =>
          rw [identical_of_nil U n none y x c _ hyx hx]
          exact Or.inr (Or.inr rfl)
        | some ux =>
          rw [identical_of_switch U n none x y c p uy hxy hy (Or.inr rfl),
            identical_of_switch U n none y x c _ ux hyx hx (Or.inr rfl)]
          exact identicalSwitch_symm U _ _ (fun s t c p => identical_snd_none U n s t c p) ih
            x y c p

/-- Symmetry of `Identical` up to aborts: the two orders return the same boolean (and run out
of depth together), unless one of the two calls aborts. -/
theorem Identical_symm_or_abort (U : Universe) (n : Nat) (T V : Ty) :
    Identical U n T V = Identical U n V T ∨ Identical U n T V = .abort ∨
      Identical U n V T = .abort := by
  rcases identical_symm U n T V true [] with h | h | h
  · exact Or.inl (by simp only [Identical]; rw [h]; rfl)
  · exact Or.inr (Or.inl h)
  · exact Or.inr (Or.inr h)

/-! ## More depth does not change a result -/

theorem settles_refl (r : Result) : Settles r r := fun _ => rfl

theorem settles_andThen (r1 r2 : Result) (k1 k2 : Option Mapping → Result)
    (hr : Settles r1 r2) (hk : ∀ m, Settles (k1 m) (k2 m)) :
    Settles (andThen r1 k1) (andThen r2 k2) := by
  intro h
  rcases r1 with ⟨o, m⟩
  cases o with
  | ret b =>
    rw [hr (by simp)]
    cases b
    · rfl
    · exact hk m h
  | abort => rw [hr (by simp)]; rfl
  | fuel => exact absurd rfl h

theorem identicalTypes_settles (rec1 rec2 : Option Mapping → Ty → Ty → Result)
    (hrec : ∀ m s t, Settles (rec1 m s t) (rec2 m s t))
    (vs ws : List Ty) (m : Option Mapping) :
    Settles (identicalTypes rec1 vs ws m) (identicalTypes rec2 vs ws m) := by
  induction vs generalizing ws m with
  | nil => exact settles_refl _
  | cons v vs ih =>
    cases ws with
    | nil => exact settles_refl _
    | cons w ws => exact settles_andThen _ _ _ _ (hrec m v w) (fun m1 => ih ws m1)

theorem identicalFields_settles (U : Universe) (rec1 rec2 : Option Mapping → Ty → Ty → Result)
    (hrec : ∀ m s t, Settles (rec1 m s t) (rec2 m s t)) (c : Bool)
    (fs gs : List Field) (m : Option Mapping) :
    Settles (identicalFields U rec1 c fs gs m) (identicalFields U rec2 c fs gs m) := by
  induction fs generalizing gs m with
  | nil => exact settles_refl _
  | cons f fs ih =>
    cases gs with
    | nil => exact settles_refl _
    | cons g gs =>
      simp only [identicalFields]
      split
      · exact settles_refl _
      · exact settles_andThen _ _ _ _ (hrec m _ _) (fun m1 => ih gs m1)

theorem identicalMethods_settles (U : Universe) (rec1 rec2 : Option Mapping → Ty → Ty → Result)
    (hrec : ∀ m s t, Settles (rec1 m s t) (rec2 m s t))
    (fs gs : List Method) (m : Option Mapping) :
    Settles (identicalMethods U rec1 fs gs m) (identicalMethods U rec2 fs gs m) := by
  induction fs generalizing gs m with
  | nil => exact settles_refl _
  | cons f fs ih =>
    cases gs with
    | nil => exact settles_refl _
    | cons g gs =>
      simp only [identicalMethods]
      split
      · exact settles_refl _
      · exact settles_andThen _ _ _ _ (hrec m _ _) (fun m1 => ih gs m1)

theorem identicalSwitch_settles (U : Universe)
    (rec1 rec2 : Option Mapping → Ty → Ty → Bool → List ifacePair → Result)
    (hrec : ∀ m s t c p, Settles (rec1 m s t c p) (rec2 m s t c p))
    (m : Option Mapping) (x y : Ty) (c : Bool) (p : List ifacePair) :
    Settles (identicalSwitch U rec1 m x y c p) (identicalSwitch U rec2 m x y c p) := by
  unfold identicalSwitch
  dsimp only
  repeat' split
  all_goals first
    | exact settles_refl _
    | exact hrec _ _ _ _ _
    | exact identicalFields_settles U _ _ (fun m s t => hrec m s t _ _) _ _ _ _
    | exact identicalTypes_settles _ _ (fun m s t => hrec m s t _ _) _ _ _
    | exact identicalMethods_settles U _ _ (fun m s t => hrec m s t _ _) _ _ _
    | exact settles_andThen _ _ _ _ (hrec _ _ _ _ _) (fun m1 => hrec m1 _ _ _ _)
    | exact settles_andThen _ _ _ _ (hrec _ _ _ _ _) (fun m1 => settles_refl _)
    | exact settles_andThen _ _ _ _ (hrec _ _ _ _ _)
        (fun m1 => identicalTypes_settles _ _ (fun m s t => hrec m s t _ _) _ _ m1)

/-- One more level of depth does not change a result of `identical`. -/
theorem identical_settles (U : Universe) (n : Nat) (m : Option Mapping) (x y : Ty) (c : Bool)
    (p : List ifacePair) :
    Settles (identical U n m x y c p) (identical U (n + 1) m x y c p) := by
  induction n generalizing m x y c p with
  | zero => intro h; exact absurd rfl h
  | succ n ih =>
    unfold identical
    repeat' split
    all_goals first
      | exact settles_refl _
      | exact identicalSwitch_settles U _ _ ih _ _ _ _ _

/-- A result of `identical` other than the exhaustion of the depth is its result at every
greater depth. -/
theorem identical_mono (U : Universe) (n k : Nat) (m : Option Mapping) (x y : Ty) (c : Bool)
    (p : List ifacePair) (h : (identical U n m x y c p).1 ≠ .fuel) :
    identical U (n + k) m x y c p = identical U n m x y c p := by
  induction k with
  | zero => rfl
  | succ k ih =>
    have := identical_settles U (n + k) m x y c p (by rw [ih]; exact h)
    rw [← Nat.add_assoc, this, ih]

/-- A boolean that `Identical` returns at some depth, it returns at every greater depth. -/
theorem Identical_mono (U : Universe) (n k : Nat) (x y : Ty) (b : Bool)
    (h : Identical U n x y = .ret b) : Identical U (n + k) x y = .ret b := by
  unfold Identical at h ⊢
  rw [identical_mono U n k none x y true [] (by rw [h]; simp), h]

theorem comparableFields_settles (rec1 rec2 : Ty → Outcome)
    (hrec : ∀ t, rec1 t ≠ .fuel → rec2 t = rec1 t) (fs : List Field)
    (h : comparableFields rec1 fs ≠ .fuel) : comparableFields rec2 fs = comparableFields rec1 fs := by
  induction fs with
  | nil => rfl
  | cons f fs ih =>
    simp only [comparableFields] at h ⊢
    cases hr : rec1 f.typ with
    | ret b =>
      rw [hrec f.typ (by rw [hr]; simp), hr]
      cases b
      · rfl
      · simp only [hr] at h
        exact ih h
    | abort => rw [hrec f.typ (by rw [hr]; simp), hr]
    | fuel => simp [hr] at h

/-- One more level of depth does not change a result of `Comparable`. -/
theorem Comparable_settles (U : Universe) (n : Nat) (T : Ty) (h : Comparable U n T ≠ .fuel) :
    Comparable U (n + 1) T = Comparable U n T := by
  induction n generalizing T with
  | zero => exact absurd rfl h
  | succ n ih =>
    unfold Comparable at h ⊢
    repeat' split
    all_goals first
      | rfl
      | exact ih _ (by simp_all)
      | exact comparableFields_settles _ _ ih _ (by simp_all)

/-- A boolean that `Comparable` returns at some depth, it returns at every greater depth. -/
theorem Comparable_mono (U : Universe) (n k : Nat) (T : Ty) (b : Bool)
    (h : Comparable U n T = .ret b) : Comparable U (n + k) T = .ret b := by
  induction k with
  | zero => exact h
  | succ k ih =>
    rw [← Nat.add_assoc, Comparable_settles U (n + k) T (by rw [ih]; simp), ih]

/-! ## Tag sensitivity and comparability, at every sufficient depth -/

theorem fields_common_depth (U : Universe) (fs gs : List Field)
    (h : List.Forall₂ (fun f g => f.anonymous = g.anonymous ∧ sameId U f g = true ∧
      ∃ k, Identical U k f.typ g.typ = .ret true) fs gs) :
    ∃ N, ∀ n, N ≤ n → List.Forall₂ (fun f g => f.anonymous = g.anonymous ∧
      sameId U f g = true ∧ Identical U n f.typ g.typ = .ret true) fs gs := by
  induction h with
  | nil => exact ⟨0, fun _ _ => List.Forall₂.nil⟩
  | cons hfg _ ih =>
    obtain ⟨h1, h2, k, hk⟩ := hfg
    obtain ⟨N, hN⟩ := ih
    refine ⟨max k N, fun n hn => List.Forall₂.cons ⟨h1, h2, ?_⟩ (hN n (le_of_max_le_right hn))⟩
    have hkn : k ≤ n := le_of_max_le_left hn
    have := Identical_mono U k (n - k) _ _ true hk
    rwa [Nat.add_sub_cancel' hkn] at this

/-- C3. Tag sensitivity: two struct types whose fields agree pairwise in the anonymous flag
and in field identity and have identical types (so also the same field count), but whose tags
are not pairwise equal: at every sufficient depth `Identical` returns false and
`IdenticalIgnoreTags` returns true. -/
theorem Identical_tag_sensitive (U : Universe) (a b : Nat) (fs gs : List Field)
    (ha : U.heap a = .Struct fs) (hb : U.heap b = .Struct gs)
    (hfields : List.Forall₂ (fun f g => f.anonymous = g.anonymous ∧ sameId U f g = true ∧
      ∃ k, Identical U k f.typ g.typ = .ret true) fs gs)
    (htags : ¬ List.Forall₂ (fun f g => f.tag = g.tag) fs gs) :
    ∃ N, ∀ n, N ≤ n →
      Identical U n (.ptr a) (.ptr b) = .ret false ∧
      IdenticalIgnoreTags U n (.ptr a) (.ptr b) = .ret true := by
  obtain ⟨N, hN⟩ := fields_common_depth U fs gs hfields
  refine ⟨N + 1, fun n hn => ?_⟩
  obtain ⟨k, rfl⟩ : ∃ k, n = k + 1 := ⟨n - 1, by omega⟩
  exact Identical_tag_sensitive_at U k a b fs gs ha hb (hN k (by omega)) htags

theorem comparable_common_depth (U : Universe) (fields : List Field)
    (h : ∀ f ∈ fields, ∃ n, Comparable U n f.typ = .ret true) :
    ∃ N, ∀ f ∈ fields, Comparable U N f.typ = .ret true := by
  induction fields with
  | nil => exact ⟨0, fun _ hf => by cases hf⟩
  | cons f fs ih =>
    obtain ⟨k, hk⟩ := h f (List.mem_cons_self _ _)
    obtain ⟨N, hN⟩ := ih (fun g hg => h g (List.mem_cons_of_mem _ hg))
    refine ⟨max k N, fun g hg => ?_⟩
    rcases List.mem_cons.mp hg with rfl | hg
    · have := Comparable_mono U k (max k N - k) _ true hk
      rwa [Nat.add_sub_cancel' (le_max_left k N)] at this
    · have := Comparable_mono U N (max k N - N) _ true (hN g hg)
      rwa [Nat.add_sub_cancel' (le_max_right k N)] at this

/-- C10. Comparability composition, for a type `T` whose underlying type is the node at `a`.
If that is a struct, `Comparable(T)` returns true exactly when `Comparable` returns true for
every field type, both over all depths and depth by depth; for a single field `Comparable`
of the struct is `Comparable` of the field type, and the empty struct is comparable. If it is
an array, `Comparable(T)` is `Comparable` of the element type, whatever the length. If it is
a map, `Comparable(T)` is false. If it is a channel, `Comparable(T)` is true, whatever the
element type. -/
theorem Comparable_composition (U : Universe) (T : Ty) (a : Nat)
    (hT : Underlying U T = some (.ptr a)) :
    (∀ fields, U.heap a = .Struct fields →
      ((∃ n, Comparable U n T = .ret true) ↔
        ∀ f ∈ fields, ∃ n, Comparable U n f.typ = .ret true)) ∧
    (∀ fields n, U.heap a = .Struct fields →
      (Comparable U (n + 1) T = .ret true ↔ ∀ f ∈ fields, Comparable U n f.typ = .ret true)) ∧
    (∀ f n, U.heap a = .Struct [f] → Comparable U (n + 1) T = Comparable U n f.typ) ∧
    (∀ n, U.heap a = .Struct [] → Comparable U (n + 1) T = .ret true) ∧
    (∀ len elem n, U.heap a = .Array len elem →
      Comparable U (n + 1) T = Comparable U n elem) ∧
    (∀ key elem n, U.heap a = .Map key elem → Comparable U (n + 1) T = .ret false) ∧
    (∀ dir elem n, U.heap a = .Chan dir elem → Comparable U (n + 1) T = .ret true) := by
  have hstep : ∀ fields n, U.heap a = .Struct fields →
      (Comparable U (n + 1) T = .ret true ↔
        ∀ f ∈ fields, Comparable U n f.typ = .ret true) := by
    intro fields n h
    simp only [Comparable, hT, h]
    exact comparableFields_true _ _
  refine ⟨?_, hstep, ?_, ?_, ?_, ?_, ?_⟩
  · intro fields h
    constructor
    · rintro ⟨n, hn⟩ f hf
      cases n with
      | zero => simp [Comparable] at hn
      | succ n => exact ⟨n, (hstep fields n h).mp hn f hf⟩
    · intro hall
      obtain ⟨N, hN⟩ := comparable_common_depth U fields hall
      exact ⟨N + 1, (hstep fields N h).mpr hN⟩
  · intro f n h
    simp only [Comparable, hT, h, comparableFields]
    cases hf : Comparable U n f.typ with
    | ret b => cases b <;> rfl
    | abort => rfl
    | fuel => rfl
  · intro n h
    simp [Comparable, hT, h, comparableFields]
  · intro len elem n h
    simp [Comparable, hT, h]
  · intro key elem n h
    simp [Comparable, hT, h]
  · intro dir elem n h
    simp [Comparable, hT, h]

/-! ## Comparable on every variant -/

theorem comparableFields_ret (rec : Ty → Outcome) (fields : List Field)
    (h : ∀ f ∈ fields, ∃ b, rec f.typ = .ret b) : ∃ b, comparableFields rec fields = .ret b := by
  induction fields with
  | nil => exact ⟨true, rfl⟩
  | cons f fs ih =>
    obtain ⟨b, hb⟩ := h f (List.mem_cons_self _ _)
    simp only [comparableFields, hb]
    cases b
    · exact ⟨false, rfl⟩
    · exact ih (fun g hg => h g (List.mem_cons_of_mem _ hg))

/-- On a well-founded nesting without absent components `Comparable` returns a boolean for
every present type, at every depth above the rank of the type. -/
theorem Comparable_returns (U : Universe) (rank : Ty → Nat) (hwf : ComparableWF U rank)
    (T : Ty) (hT : T ≠ .nil) : ∃ b, ∀ n, rank T < n → Comparable U n T = .ret b := by
  suffices h : ∀ r T, rank T = r → T ≠ .nil → ∃ b, Comparable U (rank T + 1) T = .ret b by
    obtain ⟨b, hb⟩ := h (rank T) T rfl hT
    refine ⟨b, fun n hn => ?_⟩
    have := Comparable_mono U (rank T + 1) (n - (rank T + 1)) T b hb
    rwa [Nat.add_sub_cancel' hn] at this
  intro r
  induction r using Nat.strong_induction_on with
  | _ r ih =>
    intro T hr hT
    have deeper : ∀ S, S ≠ .nil → rank S < rank T → ∃ b, Comparable U (rank T) S = .ret b := by
      intro S hS hlt
      obtain ⟨b, hb⟩ := ih (rank S) (hr ▸ hlt) S rfl hS
      refine ⟨b, ?_⟩
      have := Comparable_mono U (rank S + 1) (rank T - (rank S + 1)) S b hb
      rwa [Nat.add_sub_cancel' hlt] at this
    cases hu : Underlying U T with
    | none =>
      cases T with
      | nil => exact absurd rfl hT
      | nilTuple => simp [Underlying] at hu
      | ptr a =>
        obtain ⟨uy, huy⟩ := Underlying_ptr_isSome U a
        rw [huy] at hu
        cases hu
    | some u =>
      cases u with
      | nil => exact ⟨false, by simp [Comparable, hu]⟩
      | nilTuple => exact ⟨false, by simp [Comparable, hu]⟩
      | ptr a =>
        obtain ⟨hs, ha⟩ := hwf T a hu
        cases hn : U.heap a with
        | Struct fields =>
          simp only [Comparable, hu, hn]
          exact comparableFields_ret _ _ (fun f hf => deeper f.typ (hs fields hn f hf).1
            (hs fields hn f hf).2)
        | Array len elem =>
          simp only [Comparable, hu, hn]
          exact deeper elem (ha len elem hn).1 (ha len elem hn).2
        | _ => simp [Comparable, hu, hn]

/-- C11, as amended. `Comparable` returns false for every type whose underlying variant is
Slice, Map, Signature or Tuple, and for a declared type whose underlying type is absent; for a
Primitive it returns true unless the kind is the untyped nil kind; for a TypeParameter it
returns true exactly when the constraint bitset has the equality bit. It returns a boolean
for every present type of a graph whose struct and array nesting is well founded and without
absent components. (On the Absence value itself the call aborts.) -/
theorem Comparable_cases (U : Universe) (T : Ty) (n : Nat) :
    (∀ a, Underlying U T = some (.ptr a) →
      (∀ elem, U.heap a = .Slice elem → Comparable U (n + 1) T = .ret false) ∧
      (∀ key elem, U.heap a = .Map key elem → Comparable U (n + 1) T = .ret false) ∧
      (∀ recv ps rs v, U.heap a = .Signature recv ps rs v →
        Comparable U (n + 1) T = .ret false) ∧
      (∀ vars, U.heap a = .Tuple vars → Comparable U (n + 1) T = .ret false) ∧
      (∀ kind info, U.heap a = .Basic kind info →
        Comparable U (n + 1) T = .ret (kind != .UntypedNil)) ∧
      (∀ obj r, U.heap a = .TypeParam obj r →
        Comparable U (n + 1) T = .ret (r &&& RestrictionEq != 0))) ∧
    (Underlying U T = some .nilTuple → Comparable U (n + 1) T = .ret false) ∧
    (Underlying U T = some .nil → Comparable U (n + 1) T = .ret false) ∧
    (∀ rank, ComparableWF U rank → T ≠ .nil →
      ∃ b, ∀ k, rank T < k → Comparable U k T = .ret b) := by
  refine ⟨fun a hu => ⟨?_, ?_, ?_, ?_, ?_, ?_⟩, ?_, ?_, ?_⟩
  · intro elem h; simp [Comparable, hu, h]
  · intro key elem h; simp [Comparable, hu, h]
  · intro recv ps rs v h; simp [Comparable, hu, h]
  · intro vars h; simp [Comparable, hu, h]
  · intro kind info h; simp [Comparable, hu, h]
  · intro obj r h; simp [Comparable, hu, h]
  · intro hu; simp [Comparable, hu]
  · intro hu; simp [Comparable, hu]
  · intro rank hwf hT; exact Comparable_returns U rank hwf T hT

/-! ## Default -/

theorem Default_of_not_basic (U : Universe) (T : Ty) (h : asBasic U T = none) :
    Default U T = T := by
  simp [Default, h]

theorem asBasic_Typ (U : Universe) (h : PredeclaredTable U) (k : BasicKind) :
    ∃ info, asBasic U (.ptr (U.Typ k)) = some (k, info) := by
  obtain ⟨info, hi⟩ := h.1 k
  exact ⟨info, by simp [asBasic, hi]⟩

theorem asBasic_universeRune (U : Universe) (h : PredeclaredTable U) :
    ∃ info, asBasic U (.ptr U.universeRune) = some (.Int32, info) := by
  obtain ⟨info, hi⟩ := h.2
  exact ⟨info, by simp [asBasic, hi]⟩

/-- The default type of a Primitive: for the untyped kinds other than nil a predeclared typed
Primitive, for every other kind the type itself. -/
theorem Default_basic (U : Universe) (h : PredeclaredTable U) (T : Ty) (k : BasicKind)
    (info : Nat) (hT : asBasic U T = some (k, info)) :
    ∃ k1 info1, asBasic U (Default U T) = some (k1, info1) ∧ Default U (Default U T) = Default U T ∧
      (Default U T = T ∨ (k1 ≠ k ∧
        (Default U T = .ptr (U.Typ k1) ∨ Default U T = .ptr U.universeRune) ∧
        (k1 = .Bool ∨ k1 = .Int ∨ k1 = .Int32 ∨ k1 = .Float64 ∨ k1 = .Complex128 ∨
          k1 = .String))) := by
  obtain ⟨i1, h1⟩ := asBasic_Typ U h .Bool
  obtain ⟨i2, h2⟩ := asBasic_Typ U h .Int
  obtain ⟨i3, h3⟩ := asBasic_universeRune U h
  obtain ⟨i4, h4⟩ := asBasic_Typ U h .Float64
  obtain ⟨i5, h5⟩ := asBasic_Typ U h .Complex128
  obtain ⟨i6, h6⟩ := asBasic_Typ U h .String
  cases k
  case UntypedBool =>
    exact ⟨.Bool, i1, by simp [Default, hT, h1], by simp [Default, hT, h1],
      Or.inr ⟨by decide, Or.inl (by simp [Default, hT]), by simp⟩⟩
  case UntypedInt =>
    exact ⟨.Int, i2, by simp [Default, hT, h2], by simp [Default, hT, h2],
      Or.inr ⟨by decide, Or.inl (by simp [Default, hT]), by simp⟩⟩
  case UntypedRune =>
    exact ⟨.Int32, i3, by simp [Default, hT, h3], by simp [Default, hT, h3],
      Or.inr ⟨by decide, Or.inr (by simp [Default, hT]), by simp⟩⟩
  case UntypedFloat =>
    exact ⟨.Float64, i4, by simp [Default, hT, h4], by simp [Default, hT, h4],
      Or.inr ⟨by decide, Or.inl (by simp [Default, hT]), by simp⟩⟩
  case UntypedComplex =>
    exact ⟨.Complex128, i5, by simp [Default, hT, h5], by simp [Default, hT, h5],
      Or.inr ⟨by decide, Or.inl (by simp [Default, hT]), by simp⟩⟩
  case UntypedString =>
    exact ⟨.String, i6, by simp [Default, hT, h6], by simp [Default, hT, h6],
      Or.inr ⟨by decide, Or.inl (by simp [Default, hT]), by simp⟩⟩
  all_goals
    have hD : Default U T = T := by simp [Default, hT]
    exact ⟨_, info, by rw [hD]; exact hT, by rw [hD, hD], Or.inl hD⟩

/-- C12. Default idempotence: for every type value `T` (a Primitive, any other variant, or
Absence), `Default(Default(T)) = Default(T)`, the predeclared types being the Primitives of
their kinds. -/
theorem Default_idempotent (U : Universe) (h : PredeclaredTable U) (T : Ty) :
    Default U (Default U T) = Default U T := by
  cases hT : asBasic U T with
  | none => rw [Default_of_not_basic U T hT, Default_of_not_basic U T hT]
  | some ki =>
    obtain ⟨k, info⟩ := ki
    obtain ⟨k1, info1, -, hidem, -⟩ := Default_basic U h T k info hT
    exact hidem

theorem asBasic_heap (U : Universe) (T : Ty) (k : BasicKind) (info : Nat)
    (h : asBasic U T = some (k, info)) : ∃ a, T = .ptr a ∧ U.heap a = .Basic k info := by
  cases T with
  | nil => simp [asBasic] at h
  | nilTuple => simp [asBasic] at h
  | ptr a =>
    refine ⟨a, rfl, ?_⟩
    cases hn : U.heap a <;> simp [asBasic, hn] at h
    rw [h.1, h.2]

theorem Underlying_of_asBasic (U : Universe) (T : Ty) (k : BasicKind) (info : Nat)
    (h : asBasic U T = some (k, info)) : Underlying U T = some T := by
  obtain ⟨a, rfl, hn⟩ := asBasic_heap U T k info h
  simp [Underlying, hn]

theorem isTyped_of_asBasic (U : Universe) (T : Ty) (k : BasicKind) (info : Nat)
    (h : asBasic U T = some (k, info)) : isTyped U T = some (info &&& IsUntyped == 0) := by
  simp [isTyped, Underlying_of_asBasic U T k info h, h]

theorem basicInfo_typed (k : BasicKind) :
    basicInfo k &&& IsUntyped = 0 ↔
      (k ≠ .UntypedBool ∧ k ≠ .UntypedInt ∧ k ≠ .UntypedRune ∧ k ≠ .UntypedFloat ∧
        k ≠ .UntypedComplex ∧ k ≠ .UntypedString ∧ k ≠ .UntypedNil) := by
  cases k <;> decide

/-- C13. Default leaves typed input unchanged: `Default(T) = T` for every `T` with
`isTyped(T)`, and for every `T` that is not an untyped Primitive (a typed Primitive, any
other variant, Absence); the untyped nil Primitive is returned unchanged; for every other
untyped Primitive `Default(T)` is a typed Primitive and `isTyped(Default(T))` holds. The
predeclared types are the Primitives of their kinds and every Primitive carries the
capability bitset of its kind. -/
theorem Default_typed (U : Universe) (hT : PredeclaredTable U) (hB : BasicsWellFormed U)
    (T : Ty) :
    (isTyped U T = some true → Default U T = T) ∧
    ((∀ k info, asBasic U T = some (k, info) → info &&& IsUntyped = 0) → Default U T = T) ∧
    (∀ info, asBasic U T = some (.UntypedNil, info) → Default U T = T) ∧
    (∀ k info, asBasic U T = some (k, info) → info &&& IsUntyped ≠ 0 → k ≠ .UntypedNil →
      isTyped U (Default U T) = some true ∧
      ∃ k1 info1, asBasic U (Default U T) = some (k1, info1) ∧ info1 &&& IsUntyped = 0) := by
  have typed : (∀ k info, asBasic U T = some (k, info) → info &&& IsUntyped = 0) →
      Default U T = T := by
    intro h
    cases hb : asBasic U T with
    | none => exact Default_of_not_basic U T hb
    | some ki =>
      obtain ⟨k, info⟩ := ki
      obtain ⟨a, rfl, hn⟩ := asBasic_heap U T k info hb
      have h0 := h k info hb
      rw [hB a k info hn] at h0
      have hk := (basicInfo_typed k).1 h0
      simp only [Default, hb]
      split <;> simp_all
  refine ⟨?_, typed, ?_, ?_⟩
  · intro ht
    apply typed
    intro k info hb
    rw [isTyped_of_asBasic U T k info hb] at ht
    simpa using ht
  · intro info hb
    simp [Default, hb]
  · intro k info hb hu hk
    obtain ⟨a, rfl, hn⟩ := asBasic_heap U T k info hb
    have hik : info = basicInfo k := hB a k info hn
    subst hik
    have table : ∀ k1, ∃ info1, asBasic U (.ptr (U.Typ k1)) = some (k1, info1) ∧
        info1 = basicInfo k1 := by
      intro k1
      obtain ⟨info1, h1⟩ := asBasic_Typ U hT k1
      obtain ⟨b, hb1, hn1⟩ := asBasic_heap U _ k1 info1 h1
      exact ⟨info1, h1, hB b k1 info1 hn1⟩
    obtain ⟨i1, h1, hi1⟩ := table .Bool
    obtain ⟨i2, h2, hi2⟩ := table .Int
    obtain ⟨i3, h3⟩ := asBasic_universeRune U hT
    have hi3 : i3 = basicInfo .Int32 := by
      obtain ⟨b, -, hn3⟩ := asBasic_heap U _ _ _ h3
      exact hB b _ _ hn3
    obtain ⟨i4, h4, hi4⟩ := table .Float64
    obtain ⟨i5, h5, hi5⟩ := table .Complex128
    obtain ⟨i6, h6, hi6⟩ := table .String
    have key : ∃ k1 info1, asBasic U (Default U (.ptr a)) = some (k1, info1) ∧
        info1 &&& IsUntyped = 0 := by
      cases k
      case UntypedBool => exact ⟨.Bool, i1, by simp [Default, hb, h1], by rw [hi1]; decide⟩
      case UntypedInt => exact ⟨.Int, i2, by simp [Default, hb, h2], by rw [hi2]; decide⟩
      case UntypedRune => exact ⟨.Int32, i3, by simp [Default, hb, h3], by rw [hi3]; decide⟩
      case UntypedFloat => exact ⟨.Float64, i4, by simp [Default, hb, h4], by rw [hi4]; decide⟩
      case UntypedComplex =>
        exact ⟨.Complex128, i5, by simp [Default, hb, h5], by rw [hi5]; decide⟩
      case UntypedString => exact ⟨.String, i6, by simp [Default, hb, h6], by rw [hi6]; decide⟩
      case UntypedNil => exact absurd rfl hk
      all_goals exact absurd (by decide) hu
    obtain ⟨k1, info1, hd, hz⟩ := key
    refine ⟨?_, k1, info1, hd, hz⟩
    rw [isTyped_of_asBasic U _ k1 info1 hd]
    simp [hz]

/-! ## hasNil -/

/-- C14. Nullability: `hasNil(T)` is true if and only if the underlying variant of `T` is
Slice, Pointer, Signature, Interface, Map or Chan, or the Primitive of the unsafe-pointer
kind; it is false when the underlying variant is a struct, an array, a tuple, a type
parameter or a Primitive of any other kind. -/
theorem hasNil_iff (U : Universe) (T : Ty) :
    (hasNil U T = some true ↔ ∃ a, Underlying U T = some (.ptr a) ∧
      ((∃ elem, U.heap a = .Slice elem) ∨ (∃ base, U.heap a = .Pointer base) ∨
       (∃ recv ps rs v, U.heap a = .Signature recv ps rs v) ∨
       (∃ ms, U.heap a = .Interface ms) ∨ (∃ key elem, U.heap a = .Map key elem) ∨
       (∃ dir elem, U.heap a = .Chan dir elem) ∨
       (∃ info, U.heap a = .Basic .UnsafePointer info))) ∧
    (Underlying U T = some .nilTuple → hasNil U T = some false) ∧
    (∀ a, Underlying U T = some (.ptr a) →
      ((∃ fields, U.heap a = .Struct fields) ∨ (∃ len elem, U.heap a = .Array len elem) ∨
       (∃ vars, U.heap a = .Tuple vars) ∨ (∃ obj r, U.heap a = .TypeParam obj r) ∨
       (∃ kind info, U.heap a = .Basic kind info ∧ kind ≠ .UnsafePointer)) →
      hasNil U T = some false) := by
  refine ⟨?_, ?_, ?_⟩
  · cases hu : Underlying U T with
    | none => simp [hasNil, hu]
    | some u =>
      cases u with
      | nil => simp [hasNil, hu]
      | nilTuple => simp [hasNil, hu]
      | ptr a =>
        cases hn : U.heap a
        case Signature recv ps rs v =>
          simp only [hasNil, hu, hn, true_iff]
          exact ⟨a, rfl, Or.inr (Or.inr (Or.inl ⟨recv, ps, rs, v, hn⟩))⟩
        all_goals simp [hasNil, hu, hn]
  · intro hu
    simp [hasNil, hu]
  · intro a hu h
    rcases h with ⟨fs, hn⟩ | ⟨len, elem, hn⟩ | ⟨vs, hn⟩ | ⟨obj, r, hn⟩ | ⟨kind, info, hn, hk⟩
    · simp [hasNil, hu, hn]
    · simp [hasNil, hu, hn]
    · simp [hasNil, hu, hn]
    · simp [hasNil, hu, hn]
    · simp [hasNil, hu, hn, hk]

/-! ## Absence as an operand -/

/-- C15. Absence against a present type: with Absence as the first operand `Identical`
returns false (the `case nil` of the switch), with Absence as the second operand the call
aborts at `y.Underlying()` on line 157, for every present type (a pointer to any node of any
heap, or the nil tuple); `Identical(Absence, Absence)` returns true. -/
theorem Identical_absence_aborts (U : Universe) (n a : Nat) :
    Identical U (n + 1) (.ptr a) .nil = .abort ∧
    Identical U (n + 1) .nilTuple .nil = .abort ∧
    Identical U (n + 1) .nil (.ptr a) = .ret false ∧
    Identical U (n + 1) .nil .nilTuple = .ret false ∧
    Identical U (n + 1) .nil .nil = .ret true := by
  refine ⟨?_, ?_, ?_, ?_, ?_⟩
  · simp [Identical, identical, Underlying]
  · simp [Identical, identical, Underlying]
  · obtain ⟨uy, h⟩ := Underlying_ptr_isSome U a
    rw [Identical, identical_of_switch U n none .nil _ true [] uy (by simp) h (Or.inr rfl)]
    rfl
  · rw [Identical, identical_of_switch U n none .nil .nilTuple true [] .nilTuple (by simp) rfl
      (Or.inr rfl)]
    rfl
  · simp [Identical, identical]

/-! ## The call of the resolver -/

/-- With a type parameter as `x` and a type that is neither that parameter nor has a type
parameter as underlying type as `y`, `identical` returns false and binds nothing: the
unification step of lines 157 to 169 looks at `y` only. -/
theorem identical_param_first (U : Universe) (n P o r : Nat) (m : Mapping) (A uA : Ty)
    (c : Bool) (p : List ifacePair) (hP : U.heap P = .TypeParam o r)
    (hu : Underlying U A = some uA) (hA : asTypeParam U uA = none)
    (hA2 : asTypeParam U A = none) :
    identical U (n + 1) (some m) (.ptr P) A c p = (.ret false, some m) := by
  have hne : Ty.ptr P ≠ A := by
    intro h
    subst h
    simp [asTypeParam, hP] at hA2
  rw [identical_of_switch U n (some m) (.ptr P) A c p uA hne hu (Or.inl hA)]
  simp [identicalSwitch, hP, hA2]

/-- C17, as amended. Resolver call shape: called with an empty map, the argument type `A`
as `x` and the parameter type, an unbound type parameter `P`, as `y`, where `A` is typed, is
not `P` itself and satisfies the constraints of `P`, `identical` returns true and the map
holds the one binding `P = A`. -/
theorem identical_resolver_call (U : Universe) (n P o r : Nat) (A : Ty) (p : List ifacePair)
    (hP : U.heap P = .TypeParam o r) (hA : isTyped U A = some true) (hAP : A ≠ .ptr P)
    (hsat : U.assignableToTypeParam A P = true) :
    identical U (n + 1) (some []) A (.ptr P) true p = (.ret true, some [(P, A)]) := by
  have hUP : Underlying U (.ptr P) = some (.ptr P) := by simp [Underlying, hP]
  rw [identical_unbound U n [] A (.ptr P) true p P o r false hAP hUP hP rfl
    (isUntyped_of_isTyped U A hA).1]
  simp [hsat]

/-! ## Receivers and variable names are ignored -/

theorem eraseNames_idem (node : Node) : node.eraseNames.eraseNames = node.eraseNames := by
  cases node <;> simp [Node.eraseNames, Function.comp_def]

theorem Underlying_erase (U : Universe) (t : Ty) :
    Underlying (withHeap U (fun a => (U.heap a).eraseNames)) t = Underlying U t := by
  cases t with
  | nil => rfl
  | nilTuple => rfl
  | ptr a =>
    simp only [Underlying, withHeap]
    cases hn : U.heap a <;> simp only [Node.eraseNames]
    rename_i named args
    cases hm : U.heap named <;> simp only [Node.eraseNames]

theorem asBasic_erase (U : Universe) (t : Ty) :
    asBasic (withHeap U (fun a => (U.heap a).eraseNames)) t = asBasic U t := by
  cases t with
  | nil => rfl
  | nilTuple => rfl
  | ptr a => simp only [asBasic, withHeap]; cases hn : U.heap a <;> simp only [Node.eraseNames]

theorem asTypeParam_erase (U : Universe) (t : Ty) :
    asTypeParam (withHeap U (fun a => (U.heap a).eraseNames)) t = asTypeParam U t := by
  cases t with
  | nil => rfl
  | nilTuple => rfl
  | ptr a =>
    simp only [asTypeParam, withHeap]; cases hn : U.heap a <;> simp only [Node.eraseNames]

theorem asArray_erase (U : Universe) (t : Ty) :
    asArray (withHeap U (fun a => (U.heap a).eraseNames)) t = asArray U t := by
  cases t with
  | nil => rfl
  | nilTuple => rfl
  | ptr a => simp only [asArray, withHeap]; cases hn : U.heap a <;> simp only [Node.eraseNames]

theorem asSlice_erase (U : Universe) (t : Ty) :
    asSlice (withHeap U (fun a => (U.heap a).eraseNames)) t = asSlice U t := by
  cases t with
  | nil => rfl
  | nilTuple => rfl
  | ptr a => simp only [asSlice, withHeap]; cases hn : U.heap a <;> simp only [Node.eraseNames]

theorem asStruct_erase (U : Universe) (t : Ty) :
    asStruct (withHeap U (fun a => (U.heap a).eraseNames)) t = asStruct U t := by
  cases t with
  | nil => rfl
  | nilTuple => rfl
  | ptr a => simp only [asStruct, withHeap]; cases hn : U.heap a <;> simp only [Node.eraseNames]

theorem asPointer_erase (U : Universe) (t : Ty) :
    asPointer (withHeap U (fun a => (U.heap a).eraseNames)) t = asPointer U t := by
  cases t with
  | nil => rfl
  | nilTuple => rfl
  | ptr a =>
    simp only [asPointer, withHeap]; cases hn : U.heap a <;> simp only [Node.eraseNames]

theorem asTuple_erase (U : Universe) (t : Ty) :
    asTuple (withHeap U (fun a => (U.heap a).eraseNames)) t = asTuple U t := by
  cases t with
  | nil => rfl
  | nilTuple => rfl
  | ptr a =>
    simp only [asTuple, withHeap]
    cases hn : U.heap a <;> simp only [Node.eraseNames, List.map_map, Function.comp_def]

theorem asSignature_erase (U : Universe) (t : Ty) :
    asSignature (withHeap U (fun a => (U.heap a).eraseNames)) t = asSignature U t := by
  cases t with
  | nil => rfl
  | nilTuple => rfl
  | ptr a =>
    simp only [asSignature, withHeap]; cases hn : U.heap a <;> simp only [Node.eraseNames]

theorem asInterface_erase (U : Universe) (t : Ty) :
    asInterface (withHeap U (fun a => (U.heap a).eraseNames)) t = asInterface U t := by
  cases t with
  | nil => rfl
  | nilTuple => rfl
  | ptr a =>
    simp only [asInterface, withHeap]; cases hn : U.heap a <;> simp only [Node.eraseNames]

theorem asMap_erase (U : Universe) (t : Ty) :
    asMap (withHeap U (fun a => (U.heap a).eraseNames)) t = asMap U t := by
  cases t with
  | nil => rfl
  | nilTuple => rfl
  | ptr a => simp only [asMap, withHeap]; cases hn : U.heap a <;> simp only [Node.eraseNames]

theorem asChan_erase (U : Universe) (t : Ty) :
    asChan (withHeap U (fun a => (U.heap a).eraseNames)) t = asChan U t := by
  cases t with
  | nil => rfl
  | nilTuple => rfl
  | ptr a => simp only [asChan, withHeap]; cases hn : U.heap a <;> simp only [Node.eraseNames]

theorem asNamed_erase (U : Universe) (t : Ty) :
    asNamed (withHeap U (fun a => (U.heap a).eraseNames)) t = asNamed U t := by
  cases t with
  | nil => rfl
  | nilTuple => rfl
  | ptr a => simp only [asNamed, withHeap]; cases hn : U.heap a <;> simp only [Node.eraseNames]

theorem asInstance_erase (U : Universe) (t : Ty) :
    asInstance (withHeap U (fun a => (U.heap a).eraseNames)) t = asInstance U t := by
  cases t with
  | nil => rfl
  | nilTuple => rfl
  | ptr a =>
    simp only [asInstance, withHeap]; cases hn : U.heap a <;> simp only [Node.eraseNames]

theorem identicalFields_withHeap (U : Universe) (heap : Nat → Node)
    (rec : Option Mapping → Ty → Ty → Result) (c : Bool) (fs gs : List Field)
    (m : Option Mapping) :
    identicalFields (withHeap U heap) rec c fs gs m = identicalFields U rec c fs gs m := by
  induction fs generalizing gs m with
  | nil => cases gs <;> rfl
  | cons f fs ih =>
    cases gs with
    | nil => rfl
    | cons g gs =>
      simp only [identicalFields]
      have hs : sameId (withHeap U heap) f g = sameId U f g := rfl
      rw [hs, funext (ih gs)]

theorem identicalMethods_withHeap (U : Universe) (heap : Nat → Node)
    (rec : Option Mapping → Ty → Ty → Result) (fs gs : List Method) (m : Option Mapping) :
    identicalMethods (withHeap U heap) rec fs gs m = identicalMethods U rec fs gs m := by
  induction fs generalizing gs m with
  | nil => cases gs <;> rfl
  | cons f fs ih =>
    cases gs with
    | nil => rfl
    | cons g gs =>
      simp only [identicalMethods]
      have hs : ∀ pkg name, Id (withHeap U heap) pkg name = Id U pkg name := fun _ _ => rfl
      rw [hs, hs, funext (ih gs)]

/-- The type switch does not look at receivers or variable names. -/
theorem identicalSwitch_erase (U : Universe)
    (rec : Option Mapping → Ty → Ty → Bool → List ifacePair → Result)
    (m : Option Mapping) (x y : Ty) (c : Bool) (p : List ifacePair) :
    identicalSwitch (withHeap U (fun a => (U.heap a).eraseNames)) rec m x y c p =
      identicalSwitch U rec m x y c p := by
  cases x with
  | nil => rfl
  | nilTuple => simp only [identicalSwitch, asTuple_erase]
  | ptr a =>
    simp only [identicalSwitch, asBasic_erase, asArray_erase, asSlice_erase, asStruct_erase,
      asPointer_erase, asTuple_erase, asSignature_erase, asInterface_erase, asMap_erase,
      asChan_erase, asNamed_erase, asInstance_erase, asTypeParam_erase,
      identicalFields_withHeap, identicalMethods_withHeap]
    have hh : (withHeap U (fun a => (U.heap a).eraseNames)).heap a = (U.heap a).eraseNames := rfl
    rw [hh]
    cases hn : U.heap a <;>
      simp only [Node.eraseNames, List.length_map, List.map_map, Function.comp_def]

theorem isUntyped_erase (U : Universe) (t : Ty) :
    isUntyped (withHeap U (fun a => (U.heap a).eraseNames)) t = isUntyped U t := by
  simp only [isUntyped, basicHas, Underlying_erase, asBasic_erase]

theorem Default_erase (U : Universe) (t : Ty) :
    Default (withHeap U (fun a => (U.heap a).eraseNames)) t = Default U t := by
  simp only [Default, asBasic_erase]
  rfl

/-- The call `identical` does not look at receivers or variable names. -/
theorem identical_erase (U : Universe) (n : Nat) :
    identical (withHeap U (fun a => (U.heap a).eraseNames)) n = identical U n := by
  induction n with
  | zero => rfl
  | succ n ih =>
    funext m x y c p
    have ha : (withHeap U (fun a => (U.heap a).eraseNames)).assignableToTypeParam =
      U.assignableToTypeParam := rfl
    simp only [identical, Underlying_erase, asTypeParam_erase, isUntyped_erase, Default_erase,
      identicalSwitch_erase, ih, ha]

theorem identical_heap_congr (U : Universe) (heap : Nat → Node)
    (h : ∀ a, (heap a).eraseNames = (U.heap a).eraseNames) (n : Nat) :
    identical (withHeap U heap) n = identical U n := by
  have h1 := identical_erase (withHeap U heap) n
  have h2 := identical_erase U n
  have he : withHeap (withHeap U heap) (fun a => ((withHeap U heap).heap a).eraseNames) =
      withHeap U (fun a => (U.heap a).eraseNames) := by
    simp only [withHeap]
    congr 1
    funext a
    exact h a
  rw [← h1, he, h2]

/-- C16. Receivers of Signature types are ignored. For two Signature nodes `Identical`
returns true (at some depth) if and only if the variadic flags are the same, the parameter
tuples are identical and the result tuples are identical; and over a heap that differs only
in receivers of Signature nodes and in the names of Tuple variables, `Identical` and
`IdenticalIgnoreTags` give the result they give over the heap of `U`, for all operands and
every depth. -/
theorem Identical_signature (U : Universe) (a b : Nat) (r1 r2 : Ty) (ps1 ps2 rs1 rs2 : Option Nat)
    (v1 v2 : Bool) (ha : U.heap a = .Signature r1 ps1 rs1 v1)
    (hb : U.heap b = .Signature r2 ps2 rs2 v2) :
    ((∃ n, Identical U n (.ptr a) (.ptr b) = .ret true) ↔
      v1 = v2 ∧ (∃ n, Identical U n (tupleTy ps1) (tupleTy ps2) = .ret true) ∧
        (∃ n, Identical U n (tupleTy rs1) (tupleTy rs2) = .ret true)) ∧
    (∀ heap : Nat → Node, (∀ c, (heap c).eraseNames = (U.heap c).eraseNames) →
      ∀ n x y, Identical (withHeap U heap) n x y = Identical U n x y ∧
        IdenticalIgnoreTags (withHeap U heap) n x y = IdenticalIgnoreTags U n x y) := by
  have hub : Underlying U (.ptr b) = some (.ptr b) := by simp [Underlying, hb]
  have hsw : ∀ n, a ≠ b → identical U (n + 1) none (.ptr a) (.ptr b) true [] =
      if v1 == v2 then
        andThen (identical U n none (tupleTy ps1) (tupleTy ps2) true [])
          (fun m => identical U n m (tupleTy rs1) (tupleTy rs2) true [])
      else (.ret false, none) := by
    intro n hab
    rw [identical_of_switch U n none (.ptr a) (.ptr b) true [] _ (by simpa using hab) hub
      (Or.inr rfl)]
    simp only [identicalSwitch, ha, asSignature, hb]
  refine ⟨⟨?_, ?_⟩, ?_⟩
  · rintro ⟨n, hn⟩
    by_cases hab : a = b
    · subst hab
      rw [ha] at hb
      cases hb
      exact ⟨rfl, ⟨1, by simp [Identical, identical]⟩, ⟨1, by simp [Identical, identical]⟩⟩
    · cases n with
      | zero => simp [Identical, identical] at hn
      | succ n =>
        have h1 := identical_eq_of_fst U _ _ _ _ _ _ hn
        rw [hsw n hab] at h1
        split at h1
        · rename_i hv
          obtain ⟨m1, hp, hr⟩ := (andThen_eq_true _ _ _).1 h1
          have hm1 : m1 = none := by
            have := identical_snd_none U n (tupleTy ps1) (tupleTy ps2) true []
            rw [hp] at this
            exact this
          subst hm1
          exact ⟨by simpa using hv, ⟨n, by rw [Identical, hp]⟩, ⟨n, by rw [Identical, hr]⟩⟩
        · simp at h1
  · rintro ⟨hv, ⟨n1, h1⟩, ⟨n2, h2⟩⟩
    by_cases hab : a = b
    · exact ⟨1, by rw [hab]; simp [Identical, identical]⟩
    · refine ⟨max n1 n2 + 1, ?_⟩
      have e1 : Identical U (max n1 n2) (tupleTy ps1) (tupleTy ps2) = .ret true := by
        have := Identical_mono U n1 (max n1 n2 - n1) _ _ _ h1
        rwa [Nat.add_sub_cancel' (Nat.le_max_left _ _)] at this
      have e2 : Identical U (max n1 n2) (tupleTy rs1) (tupleTy rs2) = .ret true := by
        have := Identical_mono U n2 (max n1 n2 - n2) _ _ _ h2
        rwa [Nat.add_sub_cancel' (Nat.le_max_right _ _)] at this
      rw [Identical, hsw _ hab, identical_eq_of_fst U _ _ _ _ _ _ e1]
      simp only [hv, beq_self_eq_true, if_true, andThen]
      exact e2
  · intro heap h n x y
    simp only [Identical, IdenticalIgnoreTags, identical_heap_congr U heap h n, and_self]

/-! ## Containment -/

theorem contains_refl (U : Universe) (x : Ty) : Contains U x x := Relation.ReflTransGen.refl

theorem contains_child (U : Universe) (x t c : Ty) (h : Contains U x t)
    (hc : c ∈ children U t) : Contains U x c := Relation.ReflTransGen.tail h hc

theorem contains_trans (U : Universe) (x t c : Ty) (h : Contains U x t)
    (hc : Contains U t c) : Contains U x c := Relation.ReflTransGen.trans h hc

/-- What a type contains lies in every list that holds the type and, with each of its
members, the components of the member. -/
theorem contains_subset (U : Universe) (L : List Ty)
    (hclosed : ∀ t ∈ L, ∀ c ∈ children U t, c ∈ L) (x t : Ty) (hx : x ∈ L)
    (h : Contains U x t) : t ∈ L := by
  induction h with
  | refl => exact hx
  | tail _ hc ih => exact hclosed _ ih _ hc

theorem tagFree_child (U : Universe) (x c : Ty) (h : TagFree U x) (hc : c ∈ children U x) :
    TagFree U c :=
  fun a fields hcon => h a fields (contains_trans U x c _ (contains_child U x x c
    (contains_refl U x) hc) hcon)

theorem acyclic_child (U : Universe) (rank : Ty → Nat) (x c : Ty) (h : Acyclic U rank x)
    (hc : c ∈ children U x) : Acyclic U rank c :=
  fun t hcon => h t (contains_trans U x c _ (contains_child U x x c (contains_refl U x) hc) hcon)

/-! ### The components that the type assertions give -/

theorem children_asArray (U : Universe) (y : Ty) (l : Int) (e : Ty)
    (h : asArray U y = some (l, e)) : e ∈ children U y := by
  cases y with
  | nil => simp [asArray] at h
  | nilTuple => simp [asArray] at h
  | ptr b => cases hb : U.heap b <;> simp_all [asArray, children]

theorem children_asSlice (U : Universe) (y : Ty) (e : Ty)
    (h : asSlice U y = some e) : e ∈ children U y := by
  cases y with
  | nil => simp [asSlice] at h
  | nilTuple => simp [asSlice] at h
  | ptr b => cases hb : U.heap b <;> simp_all [asSlice, children]

theorem children_asStruct (U : Universe) (y : Ty) (gs : List Field)
    (h : asStruct U y = some gs) : ∀ g ∈ gs, g.typ ∈ children U y := by
  cases y with
  | nil => simp [asStruct] at h
  | nilTuple => simp [asStruct] at h
  | ptr b =>
    cases hb : U.heap b <;> simp_all [asStruct, children]
    intro g hg
    exact ⟨g, h ▸ hg, rfl⟩

theorem heap_of_asStruct (U : Universe) (y : Ty) (gs : List Field)
    (h : asStruct U y = some gs) : ∃ b, y = .ptr b ∧ U.heap b = .Struct gs := by
  cases y with
  | nil => simp [asStruct] at h
  | nilTuple => simp [asStruct] at h
  | ptr b => cases hb : U.heap b <;> simp_all [asStruct]

theorem children_asPointer (U : Universe) (y : Ty) (e : Ty)
    (h : asPointer U y = some e) : e ∈ children U y := by
  cases y with
  | nil => simp [asPointer] at h
  | nilTuple => simp [asPointer] at h
  | ptr b => cases hb : U.heap b <;> simp_all [asPointer, children]

theorem children_asTuple (U : Universe) (y : Ty) (ws : List Ty)
    (h : asTuple U y = some ws) : ∀ w ∈ ws, w ∈ children U y := by
  cases y with
  | nil => simp [asTuple] at h
  | nilTuple => simp [asTuple] at h; subst h; simp
  | ptr b =>
    cases hb : U.heap b <;> simp_all [asTuple, children]

theorem children_asSignature (U : Universe) (y : Ty) (ps rs : Option Nat) (v : Bool)
    (h : asSignature U y = some (ps, rs, v)) :
    tupleTy ps ∈ children U y ∧ tupleTy rs ∈ children U y := by
  cases y with
  | nil => simp [asSignature] at h
  | nilTuple => simp [asSignature] at h
  | ptr b => cases hb : U.heap b <;> simp_all [asSignature, children]

theorem children_asInterface (U : Universe) (y : Ty) (b : Nat) (ms : List Method)
    (h : asInterface U y = some (b, ms)) : y = .ptr b ∧ ∀ g ∈ ms, g.typ ∈ children U y := by
  cases y with
  | nil => simp [asInterface] at h
  | nilTuple => simp [asInterface] at h
  | ptr b1 =>
    cases hb : U.heap b1 <;> simp_all [asInterface, children]
    intro g hg
    exact ⟨g, h.2 ▸ hg, rfl⟩

theorem children_asMap (U : Universe) (y : Ty) (k e : Ty)
    (h : asMap U y = some (k, e)) : k ∈ children U y ∧ e ∈ children U y := by
  cases y with
  | nil => simp [asMap] at h
  | nilTuple => simp [asMap] at h
  | ptr b => cases hb : U.heap b <;> simp_all [asMap, children]

theorem children_asChan (U : Universe) (y : Ty) (d : ChanDir) (e : Ty)
    (h : asChan U y = some (d, e)) : e ∈ children U y := by
  cases y with
  | nil => simp [asChan] at h
  | nilTuple => simp [asChan] at h
  | ptr b => cases hb : U.heap b <;> simp_all [asChan, children]

theorem children_asInstance (U : Universe) (y : Ty) (n : Nat) (args : List Ty)
    (h : asInstance U y = some (n, args)) :
    .ptr n ∈ children U y ∧ ∀ t ∈ args, t ∈ children U y := by
  cases y with
  | nil => simp [asInstance] at h
  | nilTuple => simp [asInstance] at h
  | ptr b =>
    cases hb : U.heap b <;> simp_all [asInstance, children]

/-! ## Identity without tags -/

theorem andThen_congr (r1 r2 : Result) (k1 k2 : Option Mapping → Result) (hr : r1 = r2)
    (hn : r1.2 = none) (hk : k1 none = k2 none) : andThen r1 k1 = andThen r2 k2 := by
  subst hr
  rcases r1 with ⟨o, m⟩
  simp only at hn
  subst hn
  cases o with
  | ret b => cases b <;> first | rfl | exact hk
  | abort => rfl
  | fuel => rfl

theorem identicalTypes_congr (rec1 rec2 : Option Mapping → Ty → Ty → Result)
    (hn : ∀ s t, (rec1 none s t).2 = none) (vs ws : List Ty)
    (h : ∀ s ∈ vs, ∀ t ∈ ws, rec1 none s t = rec2 none s t) :
    identicalTypes rec1 vs ws none = identicalTypes rec2 vs ws none := by
  induction vs generalizing ws with
  | nil => cases ws <;> rfl
  | cons v vs ih =>
    cases ws with
    | nil => rfl
    | cons w ws =>
      simp only [identicalTypes]
      exact andThen_congr _ _ _ _ (h v (List.mem_cons_self _ _) w (List.mem_cons_self _ _))
        (hn v w) (ih ws (fun s hs t ht => h s (List.mem_cons_of_mem _ hs) t
          (List.mem_cons_of_mem _ ht)))

theorem identicalMethods_congr (U : Universe) (rec1 rec2 : Option Mapping → Ty → Ty → Result)
    (hn : ∀ s t, (rec1 none s t).2 = none) (fs gs : List Method)
    (h : ∀ f ∈ fs, ∀ g ∈ gs, rec1 none f.typ g.typ = rec2 none f.typ g.typ) :
    identicalMethods U rec1 fs gs none = identicalMethods U rec2 fs gs none := by
  induction fs generalizing gs with
  | nil => cases gs <;> rfl
  | cons f fs ih =>
    cases gs with
    | nil => rfl
    | cons g gs =>
      simp only [identicalMethods]
      split
      · rfl
      · exact andThen_congr _ _ _ _ (h f (List.mem_cons_self _ _) g (List.mem_cons_self _ _))
          (hn _ _) (ih gs (fun s hs t ht => h s (List.mem_cons_of_mem _ hs) t
            (List.mem_cons_of_mem _ ht)))

/-- On fields without tags the loop over the fields does not depend on `cmpTags`. -/
theorem identicalFields_tagfree (U : Universe) (rec1 rec2 : Option Mapping → Ty → Ty → Result)
    (hn : ∀ s t, (rec1 none s t).2 = none) (c1 c2 : Bool) (fs gs : List Field)
    (hf : ∀ f ∈ fs, f.tag = "") (hg : ∀ g ∈ gs, g.tag = "")
    (h : ∀ f ∈ fs, ∀ g ∈ gs, rec1 none f.typ g.typ = rec2 none f.typ g.typ) :
    identicalFields U rec1 c1 fs gs none = identicalFields U rec2 c2 fs gs none := by
  induction fs generalizing gs with
  | nil => cases gs <;> rfl
  | cons f fs ih =>
    cases gs with
    | nil => rfl
    | cons g gs =>
      simp only [identicalFields, hf f (List.mem_cons_self _ _), hg g (List.mem_cons_self _ _),
        bne_self_eq_false, Bool.and_false, Bool.or_false]
      split
      · rfl
      · exact andThen_congr _ _ _ _ (h f (List.mem_cons_self _ _) g (List.mem_cons_self _ _))
          (hn _ _) (ih gs (fun s hs => hf s (List.mem_cons_of_mem _ hs))
            (fun s hs => hg s (List.mem_cons_of_mem _ hs))
            (fun s hs t ht => h s (List.mem_cons_of_mem _ hs) t (List.mem_cons_of_mem _ ht)))

/-- The type switch on operands whose struct nodes have no tags: when the recursive calls do
not depend on `cmpTags` on the components, the switch does not. -/
theorem identicalSwitch_tagfree (U : Universe)
    (rec1 rec2 : Option Mapping → Ty → Ty → Bool → List ifacePair → Result)
    (hn : ∀ s t c p, (rec1 none s t c p).2 = none) (x y : Ty) (p : List ifacePair)
    (hx : ∀ a fs, x = .ptr a → U.heap a = .Struct fs → ∀ f ∈ fs, f.tag = "")
    (hy : ∀ b gs, y = .ptr b → U.heap b = .Struct gs → ∀ g ∈ gs, g.tag = "")
    (h : ∀ s ∈ children U x, ∀ t ∈ children U y, ∀ q,
      rec1 none s t true q = rec2 none s t false q) :
    identicalSwitch U rec1 none x y true p = identicalSwitch U rec2 none x y false p := by
  cases x with
  | nil => rfl
  | nilTuple => rfl
  | ptr a =>
    cases ha : U.heap a <;> simp only [identicalSwitch, ha] <;>
      simp only [children, ha] at h
    case Array l e =>
      cases hb : asArray U y with
      | none => rfl
      | some le =>
        simp only
        split
        · exact h e (by simp) _ (children_asArray U y _ _ hb) p
        · rfl
    case Slice e =>
      cases hb : asSlice U y with
      | none => rfl
      | some e1 => exact h e (by simp) _ (children_asSlice U y _ hb) p
    case Struct fs =>
      cases hb : asStruct U y with
      | none => rfl
      | some gs =>
        simp only
        split
        · obtain ⟨b, hyb, hbn⟩ := heap_of_asStruct U y gs hb
          exact identicalFields_tagfree U _ _ (fun s t => hn s t true p) true false fs gs
            (hx a fs rfl ha) (hy b gs hyb hbn)
            (fun f hf g hg => h f.typ (List.mem_map_of_mem _ hf) g.typ
              (children_asStruct U y gs hb g hg) p)
        · rfl
    case Pointer e =>
      cases hb : asPointer U y with
      | none => rfl
      | some e1 => exact h e (by simp) _ (children_asPointer U y _ hb) p
    case Tuple vs =>
      cases hb : asTuple U y with
      | none => rfl
      | some ws =>
        simp only
        split
        · exact identicalTypes_congr _ _ (fun s t => hn s t true p) _ _
            (fun s hs t ht => h s hs t (children_asTuple U y ws hb t ht) p)
        · rfl
    case Signature r ps rs v =>
      cases hb : asSignature U y with
      | none => rfl
      | some sg =>
        obtain ⟨ps1, rs1, v1⟩ := sg
        obtain ⟨h1, h2⟩ := children_asSignature U y ps1 rs1 v1 hb
        simp only
        split
        · exact andThen_congr _ _ _ _ (h _ (by simp) _ h1 p) (hn _ _ _ _) (h _ (by simp) _ h2 p)
        · rfl
    case Interface ms =>
      cases hb : asInterface U y with
      | none => rfl
      | some bm =>
        obtain ⟨b, ms1⟩ := bm
        obtain ⟨-, h1⟩ := children_asInterface U y b ms1 hb
        simp only
        split
        · split
          · rfl
          · exact identicalMethods_congr U _ _ (fun s t => hn s t true _) ms ms1
              (fun f hf g hg => h f.typ (List.mem_map_of_mem _ hf) g.typ (h1 g hg) _)
        · rfl
    case Map k e =>
      cases hb : asMap U y with
      | none => rfl
      | some ke =>
        obtain ⟨k1, e1⟩ := ke
        obtain ⟨h1, h2⟩ := children_asMap U y k1 e1 hb
        exact andThen_congr _ _ _ _ (h _ (by simp) _ h1 p) (hn _ _ _ _) (h _ (by simp) _ h2 p)
    case Chan d e =>
      cases hb : asChan U y with
      | none => rfl
      | some de =>
        simp only
        split
        · exact h e (by simp) _ (children_asChan U y _ _ hb) p
        · rfl
    case Instance n args =>
      cases hb : asInstance U y with
      | none => rfl
      | some na =>
        obtain ⟨n1, args1⟩ := na
        obtain ⟨h1, h2⟩ := children_asInstance U y n1 args1 hb
        apply andThen_congr _ _ _ _ (h _ (by simp) _ h1 p) (hn _ _ _ _)
        split
        · rfl
        · exact identicalTypes_congr _ _ (fun s t => hn s t true p) _ _
            (fun s hs t ht => h s (List.mem_cons_of_mem _ hs) t (h2 t ht) p)

/-- Without struct tags below the operands, `identical` without a unification map does not
depend on `cmpTags`. -/
theorem identical_tagfree (U : Universe) (n : Nat) (x y : Ty) (p : List ifacePair)
    (hx : TagFree U x) (hy : TagFree U y) :
    identical U n none x y true p = identical U n none x y false p := by
  induction n generalizing x y p with
  | zero => rfl
  | succ n ih =>
    by_cases hxy : x = y
    · rw [identical_of_eq U n none x y _ p hxy, identical_of_eq U n none x y _ p hxy]
    · cases hu : Underlying U y with
      | none =>
        rw [identical_of_nil U n none x y _ p hxy hu, identical_of_nil U n none x y _ p hxy hu]
      | some uy =>
        rw [identical_of_switch U n none x y _ p uy hxy hu (Or.inr rfl),
          identical_of_switch U n none x y _ p uy hxy hu (Or.inr rfl)]
        exact identicalSwitch_tagfree U _ _ (fun s t c p => identical_snd_none U n s t c p) x y p
          (fun a fs hxa => by subst hxa; exact hx a fs (contains_refl U _))
          (fun b gs hyb => by subst hyb; exact hy b gs (contains_refl U _))
          (fun s hs t ht q => ih s t q (tagFree_child U x s hx hs) (tagFree_child U y t hy ht))

/-- C18. Ignoring tags only weakens identity: when `Identical(x, y)` returns true, so does
`IdenticalIgnoreTags(x, y)`; and when neither `x` nor `y` contains a struct field with a
non-empty tag, the two functions give the same result. -/
theorem IdenticalIgnoreTags_weakens (U : Universe) (n : Nat) (x y : Ty) :
    (Identical U n x y = .ret true → IdenticalIgnoreTags U n x y = .ret true) ∧
    (TagFree U x → TagFree U y → IdenticalIgnoreTags U n x y = Identical U n x y) := by
  constructor
  · intro h
    have h1 := identical_eq_of_fst U n x y true [] _ h
    rw [IdenticalIgnoreTags, (identical_ignoreTags U n x y [] none h1).2]
  · intro hx hy
    rw [IdenticalIgnoreTags, Identical, identical_tagfree U n x y [] hx hy]

/-! ## What a true result of the type switch says about the operands -/

theorem forall₂_mem {α β : Type} (R : α → β → Prop) (l1 : List α) (l2 : List β)
    (h : List.Forall₂ R l1 l2) : List.Forall₂ (fun a b => a ∈ l1 ∧ b ∈ l2 ∧ R a b) l1 l2 := by
  induction h with
  | nil => exact List.Forall₂.nil
  | cons hr _ ih =>
    exact List.Forall₂.cons ⟨List.mem_cons_self _ _, List.mem_cons_self _ _, hr⟩
      (ih.imp (fun _ _ h => ⟨List.mem_cons_of_mem _ h.1, List.mem_cons_of_mem _ h.2.1, h.2.2⟩))

theorem forall₂_map_typ {α β : Type} (f : α → Ty) (g : β → Ty) (R : Ty → Ty → Prop)
    (l1 : List α) (l2 : List β) :
    List.Forall₂ R (l1.map f) (l2.map g) ↔ List.Forall₂ (fun a b => R (f a) (g b)) l1 l2 := by
  rw [List.forall₂_map_left_iff, List.forall₂_map_right_iff]

theorem identicalTypes_true_inv (rec : Option Mapping → Ty → Ty → Result)
    (le : Option Mapping → Option Mapping → Prop) (hrefl : ∀ m, le m m)
    (htrans : ∀ a b c, le a b → le b c → le a c)
    (vs ws : List Ty) (hle : ∀ m1 s t m2, s ∈ vs → rec m1 s t = (.ret true, m2) → le m1 m2)
    (m m1 : Option Mapping) (hlen : vs.length = ws.length)
    (h : identicalTypes rec vs ws m = (.ret true, m1)) :
    le m m1 ∧ List.Forall₂ (Visits rec le m m1) vs ws := by
  induction vs generalizing ws m with
  | nil =>
    cases ws with
    | nil =>
      simp only [identicalTypes, Prod.mk.injEq, true_and] at h
      subst h
      exact ⟨hrefl _, List.Forall₂.nil⟩
    | cons w ws => simp at hlen
  | cons v vs ih =>
    cases ws with
    | nil => simp at hlen
    | cons w ws =>
      simp only [identicalTypes, andThen_eq_true] at h
      obtain ⟨mid, h1, h2⟩ := h
      obtain ⟨hl, hf⟩ := ih ws (fun m1 s t m2 hs => hle m1 s t m2 (List.mem_cons_of_mem _ hs))
        mid (by simpa using hlen) h2
      have hm := hle _ _ _ _ (List.mem_cons_self _ _) h1
      refine ⟨htrans _ _ _ hm hl, List.Forall₂.cons ⟨m, mid, hrefl _, h1, hl⟩ ?_⟩
      exact hf.imp (fun s t ⟨m2, m3, ha, hb, hc⟩ => ⟨m2, m3, htrans _ _ _ hm ha, hb, hc⟩)

theorem identicalFields_true_inv (U : Universe) (rec : Option Mapping → Ty → Ty → Result)
    (le : Option Mapping → Option Mapping → Prop) (hrefl : ∀ m, le m m)
    (htrans : ∀ a b c, le a b → le b c → le a c)
    (fs gs : List Field)
    (hle : ∀ m1 s t m2, s ∈ fs.map Field.typ → rec m1 s t = (.ret true, m2) → le m1 m2)
    (m m1 : Option Mapping) (hlen : fs.length = gs.length)
    (h : identicalFields U rec true fs gs m = (.ret true, m1)) :
    le m m1 ∧ List.Forall₂ (fun f g => f.anonymous = g.anonymous ∧ f.tag = g.tag ∧
      sameId U f g = true ∧ Visits rec le m m1 f.typ g.typ) fs gs := by
  induction fs generalizing gs m with
  | nil =>
    cases gs with
    | nil =>
      simp only [identicalFields, Prod.mk.injEq, true_and] at h
      subst h
      exact ⟨hrefl _, List.Forall₂.nil⟩
    | cons w ws => simp at hlen
  | cons f fs ih =>
    cases gs with
    | nil => simp at hlen
    | cons g gs =>
      simp only [identicalFields] at h
      split at h
      · simp at h
      · rename_i hc
        simp only [Bool.true_and, Bool.or_eq_true, bne_iff_ne, ne_eq, Bool.not_eq_true',
          not_or, Decidable.not_not, Bool.not_eq_false] at hc
        simp only [andThen_eq_true] at h
        obtain ⟨mid, h1, h2⟩ := h
        obtain ⟨hl, hf⟩ := ih gs
          (fun m1 s t m2 hs => hle m1 s t m2 (by
            rw [List.map_cons]; exact List.mem_cons_of_mem _ hs))
          mid (by simpa using hlen) h2
        have hm := hle _ _ _ _ (by rw [List.map_cons]; exact List.mem_cons_self _ _) h1
        refine ⟨htrans _ _ _ hm hl,
          List.Forall₂.cons ⟨hc.1.1, hc.1.2, hc.2, m, mid, hrefl _, h1, hl⟩ ?_⟩
        exact hf.imp (fun s t ⟨e1, e2, e3, m2, m3, ha, hb, hc⟩ =>
          ⟨e1, e2, e3, m2, m3, htrans _ _ _ hm ha, hb, hc⟩)

theorem identicalMethods_true_inv (U : Universe) (rec : Option Mapping → Ty → Ty → Result)
    (le : Option Mapping → Option Mapping → Prop) (hrefl : ∀ m, le m m)
    (htrans : ∀ a b c, le a b → le b c → le a c)
    (fs gs : List Method)
    (hle : ∀ m1 s t m2, s ∈ fs.map Method.typ → rec m1 s t = (.ret true, m2) → le m1 m2)
    (m m1 : Option Mapping) (hlen : fs.length = gs.length)
    (h : identicalMethods U rec fs gs m = (.ret true, m1)) :
    le m m1 ∧ List.Forall₂ (fun f g => Id U f.pkg f.name = Id U g.pkg g.name ∧
      Visits rec le m m1 f.typ g.typ) fs gs := by
  induction fs generalizing gs m with
  | nil =>
    cases gs with
    | nil =>
      simp only [identicalMethods, Prod.mk.injEq, true_and] at h
      subst h
      exact ⟨hrefl _, List.Forall₂.nil⟩
    | cons w ws => simp at hlen
  | cons f fs ih =>
    cases gs with
    | nil => simp at hlen
    | cons g gs =>
      simp only [identicalMethods] at h
      split at h
      · simp at h
      · rename_i hc
        simp only [bne_iff_ne, ne_eq, Decidable.not_not] at hc
        simp only [andThen_eq_true] at h
        obtain ⟨mid, h1, h2⟩ := h
        obtain ⟨hl, hf⟩ := ih gs
          (fun m1 s t m2 hs => hle m1 s t m2 (by
            rw [List.map_cons]; exact List.mem_cons_of_mem _ hs))
          mid (by simpa using hlen) h2
        have hm := hle _ _ _ _ (by rw [List.map_cons]; exact List.mem_cons_self _ _) h1
        refine ⟨htrans _ _ _ hm hl, List.Forall₂.cons ⟨hc, m, mid, hrefl _, h1, hl⟩ ?_⟩
        exact hf.imp (fun s t ⟨e1, m2, m3, ha, hb, hc⟩ =>
          ⟨e1, m2, m3, htrans _ _ _ hm ha, hb, hc⟩)

theorem heap_of_asArray (U : Universe) (y : Ty) (l : Int) (e : Ty)
    (h : asArray U y = some (l, e)) : ∃ b, y = .ptr b ∧ U.heap b = .Array l e := by
  cases y with
  | nil => simp [asArray] at h
  | nilTuple => simp [asArray] at h
  | ptr b => cases hb : U.heap b <;> simp_all [asArray]

theorem heap_of_asSlice (U : Universe) (y : Ty) (e : Ty)
    (h : asSlice U y = some e) : ∃ b, y = .ptr b ∧ U.heap b = .Slice e := by
  cases y with
  | nil => simp [asSlice] at h
  | nilTuple => simp [asSlice] at h
  | ptr b => cases hb : U.heap b <;> simp_all [asSlice]

theorem heap_of_asPointer (U : Universe) (y : Ty) (e : Ty)
    (h : asPointer U y = some e) : ∃ b, y = .ptr b ∧ U.heap b = .Pointer e := by
  cases y with
  | nil => simp [asPointer] at h
  | nilTuple => simp [asPointer] at h
  | ptr b => cases hb : U.heap b <;> simp_all [asPointer]

theorem nodeAt_of_asTuple (U : Universe) (y : Ty) (ws : List Ty)
    (h : asTuple U y = some ws) :
    ∃ vars, nodeAt U y = some (.Tuple vars) ∧ vars.map Var.typ = ws := by
  cases y with
  | nil => simp [asTuple] at h
  | nilTuple =>
    simp only [asTuple, Option.some.injEq] at h
    exact ⟨[], rfl, h⟩
  | ptr b => cases hb : U.heap b <;> simp_all [asTuple, nodeAt]

theorem heap_of_asSignature (U : Universe) (y : Ty) (ps rs : Option Nat) (v : Bool)
    (h : asSignature U y = some (ps, rs, v)) :
    ∃ b recv, y = .ptr b ∧ U.heap b = .Signature recv ps rs v := by
  cases y with
  | nil => simp [asSignature] at h
  | nilTuple => simp [asSignature] at h
  | ptr b => cases hb : U.heap b <;> simp_all [asSignature]

theorem heap_of_asInterface (U : Universe) (y : Ty) (b : Nat) (ms : List Method)
    (h : asInterface U y = some (b, ms)) : y = .ptr b ∧ U.heap b = .Interface ms := by
  cases y with
  | nil => simp [asInterface] at h
  | nilTuple => simp [asInterface] at h
  | ptr b1 =>
    cases hb : U.heap b1 <;> simp_all [asInterface]

theorem heap_of_asMap (U : Universe) (y : Ty) (k e : Ty)
    (h : asMap U y = some (k, e)) : ∃ b, y = .ptr b ∧ U.heap b = .Map k e := by
  cases y with
  | nil => simp [asMap] at h
  | nilTuple => simp [asMap] at h
  | ptr b => cases hb : U.heap b <;> simp_all [asMap]

theorem heap_of_asChan (U : Universe) (y : Ty) (d : ChanDir) (e : Ty)
    (h : asChan U y = some (d, e)) : ∃ b, y = .ptr b ∧ U.heap b = .Chan d e := by
  cases y with
  | nil => simp [asChan] at h
  | nilTuple => simp [asChan] at h
  | ptr b => cases hb : U.heap b <;> simp_all [asChan]

theorem heap_of_asNamed (U : Universe) (y : Ty) (o : Nat)
    (h : asNamed U y = some o) : ∃ b u, y = .ptr b ∧ U.heap b = .Named o u := by
  cases y with
  | nil => simp [asNamed] at h
  | nilTuple => simp [asNamed] at h
  | ptr b => cases hb : U.heap b <;> simp_all [asNamed]

theorem heap_of_asInstance (U : Universe) (y : Ty) (n : Nat) (args : List Ty)
    (h : asInstance U y = some (n, args)) : ∃ b, y = .ptr b ∧ U.heap b = .Instance n args := by
  cases y with
  | nil => simp [asInstance] at h
  | nilTuple => simp [asInstance] at h
  | ptr b => cases hb : U.heap b <;> simp_all [asInstance]

theorem heap_of_asTypeParam (U : Universe) (y : Ty) (b o r : Nat)
    (h : asTypeParam U y = some (b, o, r)) : y = .ptr b ∧ U.heap b = .TypeParam o r := by
  cases y with
  | nil => simp [asTypeParam] at h
  | nilTuple => simp [asTypeParam] at h
  | ptr b1 =>
    cases hb : U.heap b1 <;> simp_all [asTypeParam]

theorem Visits.weaken (rec : Option Mapping → Ty → Ty → Result)
    (le : Option Mapping → Option Mapping → Prop) (htrans : ∀ a b c, le a b → le b c → le a c)
    (m m0 m1 m2 : Option Mapping) (s t : Ty) (h : Visits rec le m0 m1 s t) (h0 : le m m0)
    (h1 : le m1 m2) : Visits rec le m m2 s t := by
  obtain ⟨a, b, ha, hr, hb⟩ := h
  exact ⟨a, b, htrans _ _ _ h0 ha, hr, htrans _ _ _ hb h1⟩

theorem pushed_of_not_interface (U : Universe) (x y : Ty) (p : List ifacePair)
    (h : asInterface U x = none) : pushed U x y p = p := by
  simp [pushed, h]

/-- A true result of the type switch (tags compared): either the operands are two interfaces
with as many methods whose pair is on the stack, or their nodes correspond, and the recursive
calls on the corresponding components returned true, one after the other. -/
theorem identicalSwitch_true_inv (U : Universe)
    (rec : Option Mapping → Ty → Ty → Bool → List ifacePair → Result)
    (le : Option Mapping → Option Mapping → Prop) (hrefl : ∀ m, le m m)
    (htrans : ∀ a b c, le a b → le b c → le a c)
    (m m1 : Option Mapping) (x y : Ty) (p : List ifacePair)
    (hle : ∀ m1 s t q m2, s ∈ children U x → rec m1 s t true q = (.ret true, m2) → le m1 m2)
    (h : identicalSwitch U rec m x y true p = (.ret true, m1)) :
    le m m1 ∧
    ((∃ a b ms ms1, x = .ptr a ∧ y = .ptr b ∧ U.heap a = .Interface ms ∧
        U.heap b = .Interface ms1 ∧ ms.length = ms1.length ∧
        p.any (fun e => e.identical ⟨a, b⟩) = true) ∨
     ∃ nx ny, nodeAt U x = some nx ∧ nodeAt U y = some ny ∧
       NodeSim U (fun s t => s ∈ children U x ∧ t ∈ children U y ∧
         Visits (fun m s t => rec m s t true (pushed U x y p)) le m m1 s t) nx ny) := by
  cases x with
  | nil => simp [identicalSwitch] at h
  | nilTuple =>
    simp only [identicalSwitch] at h
    cases hb : asTuple U y with
    | none => simp [hb] at h
    | some ws =>
      simp only [hb, Prod.mk.injEq, Outcome.ret.injEq, beq_iff_eq] at h
      obtain ⟨hl, rfl⟩ := h
      obtain ⟨vars, hny, hv⟩ := nodeAt_of_asTuple U y ws hb
      have hws : ws = [] := List.length_eq_zero.1 hl.symm
      subst hws
      have hvars : vars = [] := by simpa using hv
      subst hvars
      refine ⟨hrefl _, Or.inr ⟨.Tuple [], .Tuple [], rfl, hny, ?_⟩⟩
      simp only [NodeSim]
      exact ⟨[], rfl, List.Forall₂.nil⟩
  | ptr a =>
    have hpi : asInterface U (.ptr a) = none → ∀ y1, pushed U (.ptr a) y1 p = p :=
      fun hi y1 => pushed_of_not_interface U _ y1 p hi
    cases ha : U.heap a <;> simp only [identicalSwitch, ha] at h <;>
      simp only [children, ha] at hle
    case Basic k i =>
      cases hb : asBasic U y with
      | none => simp [hb] at h
      | some ki =>
        obtain ⟨k1, i1⟩ := ki
        simp only [hb, Prod.mk.injEq, Outcome.ret.injEq, beq_iff_eq] at h
        obtain ⟨rfl, rfl⟩ := h
        obtain ⟨b, rfl, hbn⟩ := asBasic_heap U y _ _ hb
        refine ⟨hrefl _, Or.inr ⟨U.heap a, U.heap b, rfl, rfl, ?_⟩⟩
        rw [ha, hbn]
        simp only [NodeSim]
        exact ⟨i1, rfl⟩
    case Array l e =>
      cases hb : asArray U y with
      | none => simp [hb] at h
      | some le1 =>
        obtain ⟨l1, e1⟩ := le1
        simp only [hb] at h
        split at h
        · rename_i hl
          obtain ⟨b, rfl, hbn⟩ := heap_of_asArray U y _ _ hb
          have hl1 : l = l1 := by simpa using hl
          subst hl1
          refine ⟨hle _ _ _ _ _ (by simp) h, Or.inr ⟨U.heap a, U.heap b, rfl, rfl, ?_⟩⟩
          rw [ha, hbn, hpi (by simp [asInterface, ha])]
          simp only [NodeSim]
          exact ⟨e1, rfl, by simp [children, ha], by simp [children, hbn], m, m1, hrefl _, h,
            hrefl _⟩
        · simp at h
    case Slice e =>
      cases hb : asSlice U y with
      | none => simp [hb] at h
      | some e1 =>
        simp only [hb] at h
        obtain ⟨b, rfl, hbn⟩ := heap_of_asSlice U y _ hb
        refine ⟨hle _ _ _ _ _ (by simp) h, Or.inr ⟨U.heap a, U.heap b, rfl, rfl, ?_⟩⟩
        rw [ha, hbn, hpi (by simp [asInterface, ha])]
        simp only [NodeSim]
        exact ⟨e1, rfl, by simp [children, ha], by simp [children, hbn], m, m1, hrefl _, h,
          hrefl _⟩
    case Struct fs =>
      cases hb : asStruct U y with
      | none => simp [hb] at h
      | some gs =>
        simp only [hb] at h
        split at h
        · rename_i hl
          obtain ⟨b, rfl, hbn⟩ := heap_of_asStruct U y _ hb
          obtain ⟨h1, h2⟩ := identicalFields_true_inv U _ le hrefl htrans fs gs
            (fun m1 s t m2 hs => hle m1 s t p m2 hs) m m1 (by simpa using hl) h
          refine ⟨h1, Or.inr ⟨U.heap a, U.heap b, rfl, rfl, ?_⟩⟩
          rw [ha, hbn, hpi (by simp [asInterface, ha])]
          simp only [NodeSim]
          refine ⟨gs, rfl, ?_⟩
          exact (forall₂_mem _ _ _ h2).imp (fun f g ⟨hf, hg, e1, e2, e3, hv⟩ =>
            ⟨e1, e2, e3, by simp only [children, ha]; exact List.mem_map_of_mem _ hf,
              by simp only [children, hbn]; exact List.mem_map_of_mem _ hg, hv⟩)
        · simp at h
    case Pointer e =>
      cases hb : asPointer U y with
      | none => simp [hb] at h
      | some e1 =>
        simp only [hb] at h
        obtain ⟨b, rfl, hbn⟩ := heap_of_asPointer U y _ hb
        refine ⟨hle _ _ _ _ _ (by simp) h, Or.inr ⟨U.heap a, U.heap b, rfl, rfl, ?_⟩⟩
        rw [ha, hbn, hpi (by simp [asInterface, ha])]
        simp only [NodeSim]
        exact ⟨e1, rfl, by simp [children, ha], by simp [children, hbn], m, m1, hrefl _, h,
          hrefl _⟩
    case Tuple vs =>
      cases hb : asTuple U y with
      | none => simp [hb] at h
      | some ws =>
        simp only [hb] at h
        split at h
        · rename_i hl
          obtain ⟨vars, hny, hv⟩ := nodeAt_of_asTuple U y ws hb
          subst hv
          obtain ⟨h1, h2⟩ := identicalTypes_true_inv _ le hrefl htrans _ _
            (fun m1 s t m2 hs => hle m1 s t p m2 hs) m m1 (by simpa using hl) h
          refine ⟨h1, Or.inr ⟨U.heap a, .Tuple vars, rfl, hny, ?_⟩⟩
          rw [ha, hpi (by simp [asInterface, ha])]
          simp only [NodeSim]
          refine ⟨vars, rfl, ?_⟩
          exact (forall₂_mem _ _ _ h2).imp (fun s t ⟨hs, ht, hv⟩ =>
            ⟨by simp only [children, ha]; exact hs, children_asTuple U y _ hb t ht, hv⟩)
        · simp at h
    case Signature r ps rs v =>
      cases hb : asSignature U y with
      | none => simp [hb] at h
      | some sg =>
        obtain ⟨ps1, rs1, v1⟩ := sg
        simp only [hb] at h
        split at h
        · rename_i hv
          have hv1 : v = v1 := by simpa using hv
          subst hv1
          obtain ⟨b, recv, rfl, hbn⟩ := heap_of_asSignature U y _ _ _ hb
          obtain ⟨mid, h1, h2⟩ := (andThen_eq_true _ _ _).1 h
          have l1 := hle _ _ _ _ _ (by simp) h1
          have l2 := hle _ _ _ _ _ (by simp) h2
          refine ⟨htrans _ _ _ l1 l2, Or.inr ⟨U.heap a, U.heap b, rfl, rfl, ?_⟩⟩
          rw [ha, hbn, hpi (by simp [asInterface, ha])]
          simp only [NodeSim]
          exact ⟨recv, ps1, rs1, rfl,
            ⟨by simp [children, ha], by simp [children, hbn], m, mid, hrefl _, h1, l2⟩,
            ⟨by simp [children, ha], by simp [children, hbn], mid, m1, l1, h2, hrefl _⟩⟩
        · simp at h
    case Interface ms =>
      cases hb : asInterface U y with
      | none => simp [hb] at h
      | some bm =>
        obtain ⟨b, ms1⟩ := bm
        simp only [hb] at h
        obtain ⟨rfl, hbn⟩ := heap_of_asInterface U y b ms1 hb
        split at h
        · rename_i hl
          have hl1 : ms.length = ms1.length := by simpa using hl
          split at h
          · rename_i hg
            simp only [Prod.mk.injEq, true_and] at h
            subst h
            exact ⟨hrefl _, Or.inl ⟨a, b, ms, ms1, rfl, rfl, ha, hbn, hl1, hg⟩⟩
          · obtain ⟨h1, h2⟩ := identicalMethods_true_inv U _ le hrefl htrans ms ms1
              (fun m1 s t m2 hs => hle m1 s t _ m2 hs) m m1 hl1 h
            refine ⟨h1, Or.inr ⟨U.heap a, U.heap b, rfl, rfl, ?_⟩⟩
            have hp : pushed U (.ptr a) (.ptr b) p = ⟨a, b⟩ :: p := by
              simp [pushed, asInterface, ha, hbn]
            rw [ha, hbn, hp]
            simp only [NodeSim]
            refine ⟨ms1, rfl, ?_⟩
            exact (forall₂_mem _ _ _ h2).imp (fun f g ⟨hf, hg, e1, hv⟩ =>
              ⟨e1, by simp only [children, ha]; exact List.mem_map_of_mem _ hf,
                by simp only [children, hbn]; exact List.mem_map_of_mem _ hg, hv⟩)
        · simp at h
    case Map k e =>
      cases hb : asMap U y with
      | none => simp [hb] at h
      | some ke =>
        obtain ⟨k1, e1⟩ := ke
        simp only [hb] at h
        obtain ⟨b, rfl, hbn⟩ := heap_of_asMap U y _ _ hb
        obtain ⟨mid, h1, h2⟩ := (andThen_eq_true _ _ _).1 h
        have l1 := hle _ _ _ _ _ (by simp) h1
        have l2 := hle _ _ _ _ _ (by simp) h2
        refine ⟨htrans _ _ _ l1 l2, Or.inr ⟨U.heap a, U.heap b, rfl, rfl, ?_⟩⟩
        rw [ha, hbn, hpi (by simp [asInterface, ha])]
        simp only [NodeSim]
        exact ⟨k1, e1, rfl,
          ⟨by simp [children, ha], by simp [children, hbn], m, mid, hrefl _, h1, l2⟩,
          ⟨by simp [children, ha], by simp [children, hbn], mid, m1, l1, h2, hrefl _⟩⟩
    case Chan d e =>
      cases hb : asChan U y with
      | none => simp [hb] at h
      | some de =>
        obtain ⟨d1, e1⟩ := de
        simp only [hb] at h
        split at h
        · rename_i hd
          have hd1 : d = d1 := by simpa using hd
          subst hd1
          obtain ⟨b, rfl, hbn⟩ := heap_of_asChan U y _ _ hb
          refine ⟨hle _ _ _ _ _ (by simp) h, Or.inr ⟨U.heap a, U.heap b, rfl, rfl, ?_⟩⟩
          rw [ha, hbn, hpi (by simp [asInterface, ha])]
          simp only [NodeSim]
          exact ⟨e1, rfl, by simp [children, ha], by simp [children, hbn], m, m1, hrefl _, h,
            hrefl _⟩
        · simp at h
    case Named o u =>
      cases hb : asNamed U y with
      | none => simp [hb] at h
      | some o1 =>
        simp only [hb, Prod.mk.injEq, Outcome.ret.injEq, beq_iff_eq] at h
        obtain ⟨rfl, rfl⟩ := h
        obtain ⟨b, u1, rfl, hbn⟩ := heap_of_asNamed U y _ hb
        refine ⟨hrefl _, Or.inr ⟨U.heap a, U.heap b, rfl, rfl, ?_⟩⟩
        rw [ha, hbn]
        simp only [NodeSim]
        exact ⟨u1, rfl⟩
    case Instance n args =>
      cases hb : asInstance U y with
      | none => simp [hb] at h
      | some na =>
        obtain ⟨n1, args1⟩ := na
        simp only [hb] at h
        obtain ⟨b, rfl, hbn⟩ := heap_of_asInstance U y _ _ hb
        obtain ⟨mid, h1, h2⟩ := (andThen_eq_true _ _ _).1 h
        have l1 := hle _ _ _ _ _ (by simp) h1
        split at h2
        · simp at h2
        · rename_i hl
          have hl1 : args.length = args1.length := by simpa using hl
          obtain ⟨l2, h3⟩ := identicalTypes_true_inv _ le hrefl htrans _ _
            (fun m1 s t m2 hs => hle m1 s t p m2 (List.mem_cons_of_mem _ hs)) mid m1 hl1 h2
          refine ⟨htrans _ _ _ l1 l2, Or.inr ⟨U.heap a, U.heap b, rfl, rfl, ?_⟩⟩
          rw [ha, hbn, hpi (by simp [asInterface, ha])]
          simp only [NodeSim]
          refine ⟨n1, args1, rfl,
            ⟨by simp [children, ha], by simp [children, hbn], m, mid, hrefl _, h1, l2⟩, ?_⟩
          exact (forall₂_mem _ _ _ h3).imp (fun s t ⟨hs, ht, hv⟩ =>
            ⟨by simp only [children, ha]; exact List.mem_cons_of_mem _ hs,
              by simp only [children, hbn]; exact List.mem_cons_of_mem _ ht,
              Visits.weaken _ le htrans _ _ _ _ s t hv l1 (hrefl _)⟩)
    case TypeParam o r =>
      cases hb : asTypeParam U y with
      | none => simp [hb] at h
      | some tp =>
        obtain ⟨b, o1, r1⟩ := tp
        simp only [hb, Prod.mk.injEq, Outcome.ret.injEq, beq_iff_eq] at h
        obtain ⟨rfl, rfl⟩ := h
        obtain ⟨rfl, hbn⟩ := heap_of_asTypeParam U y _ _ _ hb
        refine ⟨hrefl _, Or.inr ⟨U.heap a, U.heap b, rfl, rfl, ?_⟩⟩
        rw [ha, hbn]
        simp only [NodeSim]
        exact ⟨r1, rfl⟩

/-! ## Corresponding nodes -/

theorem forall₂_comp {α β γ : Type} (R1 : α → β → Prop) (R2 : β → γ → Prop) (l1 : List α)
    (l2 : List β) (l3 : List γ) (h1 : List.Forall₂ R1 l1 l2) (h2 : List.Forall₂ R2 l2 l3) :
    List.Forall₂ (fun a c => ∃ b, R1 a b ∧ R2 b c) l1 l3 := by
  induction h1 generalizing l3 with
  | nil => cases h2; exact List.Forall₂.nil
  | cons hr _ ih =>
    cases h2 with
    | cons hr2 ht2 => exact List.Forall₂.cons ⟨_, hr, hr2⟩ (ih _ ht2)

theorem NodeSim.mono (U : Universe) (R1 R2 : Ty → Ty → Prop) (nx ny : Node)
    (h : NodeSim U R1 nx ny) (hR : ∀ s t, R1 s t → R2 s t) : NodeSim U R2 nx ny := by
  cases nx <;> simp only [NodeSim] at h ⊢
  case Basic => exact h
  case Array => obtain ⟨e1, hb, hr⟩ := h; exact ⟨e1, hb, hR _ _ hr⟩
  case Slice => obtain ⟨e1, hb, hr⟩ := h; exact ⟨e1, hb, hR _ _ hr⟩
  case Struct =>
    obtain ⟨gs, hb, hr⟩ := h
    exact ⟨gs, hb, hr.imp (fun f g ⟨e1, e2, e3, e4⟩ => ⟨e1, e2, e3, hR _ _ e4⟩)⟩
  case Pointer => obtain ⟨e1, hb, hr⟩ := h; exact ⟨e1, hb, hR _ _ hr⟩
  case Tuple => obtain ⟨ws, hb, hr⟩ := h; exact ⟨ws, hb, hr.imp hR⟩
  case Signature =>
    obtain ⟨recv, ps1, rs1, hb, hr1, hr2⟩ := h
    exact ⟨recv, ps1, rs1, hb, hR _ _ hr1, hR _ _ hr2⟩
  case Interface =>
    obtain ⟨ms1, hb, hr⟩ := h
    exact ⟨ms1, hb, hr.imp (fun f g ⟨e1, e2⟩ => ⟨e1, hR _ _ e2⟩)⟩
  case Map => obtain ⟨k1, e1, hb, hr1, hr2⟩ := h; exact ⟨k1, e1, hb, hR _ _ hr1, hR _ _ hr2⟩
  case Chan => obtain ⟨e1, hb, hr⟩ := h; exact ⟨e1, hb, hR _ _ hr⟩
  case Named => exact h
  case Instance =>
    obtain ⟨n1, as1, hb, hr1, hr2⟩ := h
    exact ⟨n1, as1, hb, hR _ _ hr1, hr2.imp hR⟩
  case TypeParam => exact h

theorem NodeSim.flip (U : Universe) (R : Ty → Ty → Prop) (nx ny : Node)
    (h : NodeSim U R nx ny) : NodeSim U (fun t s => R s t) ny nx := by
  cases nx <;> simp only [NodeSim] at h
  case Basic => obtain ⟨i, rfl⟩ := h; exact ⟨_, rfl⟩
  case Array => obtain ⟨e1, rfl, hr⟩ := h; exact ⟨_, rfl, hr⟩
  case Slice => obtain ⟨e1, rfl, hr⟩ := h; exact ⟨_, rfl, hr⟩
  case Struct =>
    obtain ⟨gs, rfl, hr⟩ := h
    refine ⟨_, rfl, ?_⟩
    exact hr.flip.imp (fun g f ⟨e1, e2, e3, e4⟩ =>
      ⟨e1.symm, e2.symm, by rw [sameId_comm]; exact e3, e4⟩)
  case Pointer => obtain ⟨e1, rfl, hr⟩ := h; exact ⟨_, rfl, hr⟩
  case Tuple => obtain ⟨ws, rfl, hr⟩ := h; exact ⟨_, rfl, hr.flip⟩
  case Signature =>
    obtain ⟨recv, ps1, rs1, rfl, hr1, hr2⟩ := h
    exact ⟨_, _, _, rfl, hr1, hr2⟩
  case Interface =>
    obtain ⟨ms1, rfl, hr⟩ := h
    exact ⟨_, rfl, hr.flip.imp (fun g f ⟨e1, e2⟩ => ⟨e1.symm, e2⟩)⟩
  case Map => obtain ⟨k1, e1, rfl, hr1, hr2⟩ := h; exact ⟨_, _, rfl, hr1, hr2⟩
  case Chan => obtain ⟨e1, rfl, hr⟩ := h; exact ⟨_, rfl, hr⟩
  case Named => obtain ⟨u, rfl⟩ := h; exact ⟨_, rfl⟩
  case Instance =>
    obtain ⟨n1, as1, rfl, hr1, hr2⟩ := h
    exact ⟨_, _, rfl, hr1, hr2.flip⟩
  case TypeParam => obtain ⟨r, rfl⟩ := h; exact ⟨_, rfl⟩

theorem sameId_trans (U : Universe) (f g k : Field) (h1 : sameId U f g = true)
    (h2 : sameId U g k = true) : sameId U f k = true := by
  simp only [sameId, decide_eq_true_eq] at h1 h2 ⊢
  exact h1.trans h2

theorem NodeSim.comp (U : Universe) (R1 R2 : Ty → Ty → Prop) (nx ny nz : Node)
    (h1 : NodeSim U R1 nx ny) (h2 : NodeSim U R2 ny nz) :
    NodeSim U (fun s u => ∃ t, R1 s t ∧ R2 t u) nx nz := by
  cases nx <;> simp only [NodeSim] at h1
  case Basic => obtain ⟨i, rfl⟩ := h1; exact h2
  case Array =>
    obtain ⟨e1, rfl, hr⟩ := h1
    obtain ⟨e2, rfl, hr2⟩ := h2
    exact ⟨_, rfl, _, hr, hr2⟩
  case Slice =>
    obtain ⟨e1, rfl, hr⟩ := h1
    obtain ⟨e2, rfl, hr2⟩ := h2
    exact ⟨_, rfl, _, hr, hr2⟩
  case Struct =>
    obtain ⟨gs, rfl, hr⟩ := h1
    obtain ⟨ks, rfl, hr2⟩ := h2
    refine ⟨_, rfl, ?_⟩
    exact (forall₂_comp _ _ _ _ _ hr hr2).imp (fun f k ⟨g, ⟨a1, a2, a3, a4⟩, ⟨b1, b2, b3, b4⟩⟩ =>
      ⟨a1.trans b1, a2.trans b2, sameId_trans U f g k a3 b3, _, a4, b4⟩)
  case Pointer =>
    obtain ⟨e1, rfl, hr⟩ := h1
    obtain ⟨e2, rfl, hr2⟩ := h2
    exact ⟨_, rfl, _, hr, hr2⟩
  case Tuple =>
    obtain ⟨ws, rfl, hr⟩ := h1
    obtain ⟨us, rfl, hr2⟩ := h2
    exact ⟨_, rfl, forall₂_comp _ _ _ _ _ hr hr2⟩
  case Signature =>
    obtain ⟨recv, ps1, rs1, rfl, hr1, hr2⟩ := h1
    obtain ⟨recv2, ps2, rs2, rfl, hs1, hs2⟩ := h2
    exact ⟨_, _, _, rfl, ⟨_, hr1, hs1⟩, ⟨_, hr2, hs2⟩⟩
  case Interface =>
    obtain ⟨ms1, rfl, hr⟩ := h1
    obtain ⟨ms2, rfl, hr2⟩ := h2
    refine ⟨_, rfl, ?_⟩
    exact (forall₂_comp _ _ _ _ _ hr hr2).imp (fun f k ⟨g, ⟨a1, a2⟩, ⟨b1, b2⟩⟩ =>
      ⟨a1.trans b1, _, a2, b2⟩)
  case Map =>
    obtain ⟨k1, e1, rfl, hr1, hr2⟩ := h1
    obtain ⟨k2, e2, rfl, hs1, hs2⟩ := h2
    exact ⟨_, _, rfl, ⟨_, hr1, hs1⟩, ⟨_, hr2, hs2⟩⟩
  case Chan =>
    obtain ⟨e1, rfl, hr⟩ := h1
    obtain ⟨e2, rfl, hr2⟩ := h2
    exact ⟨_, rfl, _, hr, hr2⟩
  case Named => obtain ⟨u, rfl⟩ := h1; exact h2
  case Instance =>
    obtain ⟨n1, as1, rfl, hr1, hr2⟩ := h1
    obtain ⟨n2, as2, rfl, hs1, hs2⟩ := h2
    exact ⟨_, _, rfl, ⟨_, hr1, hs1⟩, forall₂_comp _ _ _ _ _ hr2 hs2⟩
  case TypeParam => obtain ⟨r, rfl⟩ := h1; exact h2

/-- The type switch on operands whose nodes correspond returns true, when the recursive calls
on the corresponding components do. -/
theorem identicalSwitch_of_sim (U : Universe)
    (rec : Option Mapping → Ty → Ty → Bool → List ifacePair → Result) (R : Ty → Ty → Prop)
    (x y : Ty) (c : Bool) (p : List ifacePair) (nx ny : Node)
    (hx : nodeAt U x = some nx) (hy : nodeAt U y = some ny) (hsim : NodeSim U R nx ny)
    (hrec : ∀ s t, R s t → rec none s t c (pushed U x y p) = (.ret true, none)) :
    identicalSwitch U rec none x y c p = (.ret true, none) := by
  cases x with
  | nil => simp [nodeAt] at hx
  | nilTuple =>
    simp only [nodeAt, Option.some.injEq] at hx
    subst hx
    simp only [NodeSim] at hsim
    obtain ⟨ws, rfl, hr⟩ := hsim
    have hws : ws = [] := by
      cases ws with
      | nil => rfl
      | cons w ws => simp at hr
    subst hws
    cases y with
    | nil => simp [nodeAt] at hy
    | nilTuple => rfl
    | ptr b =>
      simp only [nodeAt, Option.some.injEq] at hy
      simp [identicalSwitch, asTuple, hy]
  | ptr a =>
    simp only [nodeAt, Option.some.injEq] at hx
    subst hx
    cases y with
    | nil => simp [nodeAt] at hy
    | nilTuple =>
      simp only [nodeAt, Option.some.injEq] at hy
      subst hy
      cases ha : U.heap a <;> simp only [ha, NodeSim] at hsim
      case Tuple vs =>
        obtain ⟨ws, hw, hr⟩ := hsim
        simp only [Node.Tuple.injEq] at hw
        subst hw
        have hvs : vs = [] := by
          cases vs with
          | nil => rfl
          | cons v vs => simp at hr
        subst hvs
        simp [identicalSwitch, ha, asTuple, identicalTypes]
      all_goals simp at hsim
    | ptr b =>
      simp only [nodeAt, Option.some.injEq] at hy
      subst hy
      cases hi : (U.heap a).isInterface
      · apply identicalSwitch_similar U rec R a b c p hsim hi
        have hp : pushed U (.ptr a) (.ptr b) p = p := by
          apply pushed_of_not_interface
          cases ha : U.heap a <;> simp_all [asInterface, Node.isInterface]
        rw [hp] at hrec
        exact hrec
      · apply identicalSwitch_interface U rec R a b c p hsim hi
        intro _
        have hp : pushed U (.ptr a) (.ptr b) p = ⟨a, b⟩ :: p := by
          cases ha : U.heap a <;> simp only [ha, Node.isInterface] at hi <;> try cases hi
          simp only [ha, NodeSim] at hsim
          obtain ⟨ms1, hb, -⟩ := hsim
          simp [pushed, asInterface, ha, hb]
        rw [hp] at hrec
        exact hrec

/-! ## The stack on an acyclic graph -/

theorem above_guard (rank : Ty → Nat) (p : List ifacePair) (a b : Nat)
    (h : Above rank p (.ptr a) (.ptr b)) : p.any (fun e => e.identical ⟨a, b⟩) = false := by
  rw [Bool.eq_false_iff]
  intro hany
  rw [List.any_eq_true] at hany
  obtain ⟨e, he, hid⟩ := hany
  obtain ⟨h1, h2⟩ := h e he
  simp only [ifacePair.identical, Bool.or_eq_true, Bool.and_eq_true, beq_iff_eq] at hid
  rcases hid with ⟨e1, e2⟩ | ⟨e1, e2⟩
  · rw [e1] at h1
    exact Nat.lt_irrefl _ h1
  · rw [e1] at h1
    rw [e2] at h2
    exact Nat.lt_irrefl _ (Nat.lt_trans h1 h2)

theorem above_pushed (U : Universe) (rank : Ty → Nat) (p : List ifacePair) (x y s t : Ty)
    (h : Above rank p x y) (hs : rank s < rank x) (ht : rank t < rank y) :
    Above rank (pushed U x y p) s t := by
  have hp : Above rank p s t :=
    fun e he => ⟨Nat.lt_trans hs (h e he).1, Nat.lt_trans ht (h e he).2⟩
  unfold pushed
  cases hx : asInterface U x with
  | none => exact hp
  | some am =>
    cases hy : asInterface U y with
    | none => exact hp
    | some bm =>
      obtain ⟨a, ms⟩ := am
      obtain ⟨b, ms1⟩ := bm
      obtain ⟨rfl, -⟩ := heap_of_asInterface U x a ms hx
      obtain ⟨rfl, -⟩ := heap_of_asInterface U y b ms1 hy
      intro e he
      rcases List.mem_cons.1 he with rfl | he
      · exact ⟨hs, ht⟩
      · exact hp e he

theorem pushed_swap (U : Universe) (x y : Ty) (p : List ifacePair) :
    (pushed U x y p).map ifacePair.swap = pushed U y x (p.map ifacePair.swap) := by
  unfold pushed
  cases hx : asInterface U x <;> cases hy : asInterface U y <;> rfl

/-- The order on the maps of a call without a unification map: there is none, before and
after. -/
theorem identical_none_le (U : Universe) (n : Nat) (m1 : Option Mapping) (s t : Ty) (c : Bool)
    (p : List ifacePair) (m2 : Option Mapping) (h : identical U n m1 s t c p = (.ret true, m2)) :
    m1 = none → m2 = none := by
  intro hm
  subst hm
  have := identical_snd_none U n s t c p
  rw [h] at this
  exact this

theorem visits_none (U : Universe) (n : Nat) (s t : Ty) (q : List ifacePair)
    (m1 : Option Mapping)
    (h : Visits (fun m s t => identical U n m s t true q) (fun a b => a = none → b = none)
      none m1 s t) : identical U n none s t true q = (.ret true, none) := by
  obtain ⟨m2, m3, h1, h2, -⟩ := h
  have hm2 : m2 = none := h1 rfl
  subst hm2
  have := identical_none_le U n none s t true q m3 h2 rfl
  subst this
  exact h2

/-! ## Transitivity on acyclic graphs -/

theorem identical_true_operands (U : Universe) (n : Nat) (x y : Ty) (c : Bool)
    (p : List ifacePair) (hxy : x ≠ y) (h : identical U (n + 1) none x y c p = (.ret true, none)) :
    ∃ uy, Underlying U y = some uy ∧
      identicalSwitch U (identical U n) none x y c p = (.ret true, none) := by
  cases hu : Underlying U y with
  | none =>
    rw [identical_of_nil U n none x y c p hxy hu] at h
    simp at h
  | some uy =>
    rw [identical_of_switch U n none x y c p uy hxy hu (Or.inr rfl)] at h
    exact ⟨uy, rfl, h⟩

/-- On an acyclic graph a true result does not depend on the stack. -/
theorem identical_any_stack (U : Universe) (rank : Ty → Nat) (n : Nat) (x y : Ty)
    (p q : List ifacePair) (hx : Acyclic U rank x) (hy : Acyclic U rank y)
    (hp : Above rank p x y) (h : identical U n none x y true p = (.ret true, none)) :
    identical U n none x y true q = (.ret true, none) := by
  induction n generalizing x y p q with
  | zero => simp [identical] at h
  | succ n ih =>
    by_cases hxy : x = y
    · exact identical_of_eq U n none x y true q hxy
    · obtain ⟨uy, hu, hs⟩ := identical_true_operands U n x y true p hxy h
      rw [identical_of_switch U n none x y true q uy hxy hu (Or.inr rfl)]
      obtain ⟨-, hcase⟩ := identicalSwitch_true_inv U (identical U n)
        (fun a b => a = none → b = none) (fun _ h => h) (fun _ _ _ h1 h2 h => h2 (h1 h))
        none none x y p (fun m1 s t q m2 _ => identical_none_le U n m1 s t true q m2) hs
      rcases hcase with ⟨a, b, ms, ms1, rfl, rfl, -, -, -, hg⟩ | ⟨nx, ny, hnx, hny, hsim⟩
      · rw [above_guard rank p a b hp] at hg
        cases hg
      · apply identicalSwitch_of_sim U _ _ x y true q nx ny hnx hny hsim
        rintro s t ⟨hs1, ht1, hv⟩
        have hrs := hx x (contains_refl U x) s hs1
        have hrt := hy y (contains_refl U y) t ht1
        exact ih s t _ _ (acyclic_child U rank x s hx hs1) (acyclic_child U rank y t hy ht1)
          (above_pushed U rank p x y s t hp hrs hrt) (visits_none U n s t _ none hv)

/-- A true result for two operands is a true result for the operands exchanged, the pairs on
the stack with them. -/
theorem identical_symm_true (U : Universe) (n : Nat) (x y : Ty) (p : List ifacePair)
    (h : identical U n none x y true p = (.ret true, none)) :
    identical U n none y x true (p.map ifacePair.swap) = (.ret true, none) := by
  induction n generalizing x y p with
  | zero => simp [identical] at h
  | succ n ih =>
    by_cases hxy : x = y
    · exact identical_of_eq U n none y x true _ hxy.symm
    · obtain ⟨uy, hu, hs⟩ := identical_true_operands U n x y true p hxy h
      have hyx : y ≠ x := fun e => hxy e.symm
      obtain ⟨-, hcase⟩ := identicalSwitch_true_inv U (identical U n)
        (fun a b => a = none → b = none) (fun _ h => h) (fun _ _ _ h1 h2 h => h2 (h1 h))
        none none x y p (fun m1 s t q m2 _ => identical_none_le U n m1 s t true q m2) hs
      rcases hcase with ⟨a, b, ms, ms1, rfl, rfl, ha, hb, hl, hg⟩ | ⟨nx, ny, hnx, hny, hsim⟩
      · rw [identical_of_switch U n none _ _ true _ (.ptr a) hyx (by simp [Underlying, ha])
          (Or.inr rfl)]
        simp only [identicalSwitch, hb, asInterface, ha]
        rw [any_identical_swap, hg]
        simp [hl]
      · have hxn : ∃ ux, Underlying U x = some ux := by
          cases x with
          | nil => simp [nodeAt] at hnx
          | nilTuple => exact ⟨_, rfl⟩
          | ptr a => exact Underlying_ptr_isSome U a
        obtain ⟨ux, hux⟩ := hxn
        rw [identical_of_switch U n none y x true _ ux hyx hux (Or.inr rfl)]
        apply identicalSwitch_of_sim U _ _ y x true _ ny nx hny hnx (hsim.flip U _ nx ny)
        rintro t s ⟨-, -, hv⟩
        rw [← pushed_swap]
        exact ih s t _ (visits_none U n s t _ none hv)

/-- Transitivity of true results on an acyclic graph, whatever the stacks. -/
theorem identical_trans_stacks (U : Universe) (rank : Ty → Nat) (n : Nat) :
    ∀ (k : Nat) (x y z : Ty) (p1 p2 p3 : List ifacePair), Acyclic U rank x → Acyclic U rank y →
      Acyclic U rank z → Above rank p1 x y → Above rank p2 y z →
      identical U n none x y true p1 = (.ret true, none) →
      identical U k none y z true p2 = (.ret true, none) →
      identical U (max n k) none x z true p3 = (.ret true, none) := by
  induction n with
  | zero => intro k x y z p1 p2 p3 _ _ _ _ _ h1; simp [identical] at h1
  | succ n ih =>
    intro k x y z p1 p2 p3 hx hy hz hp1 hp2 h1 h2
    cases k with
    | zero => simp [identical] at h2
    | succ k =>
      rw [Nat.succ_max_succ]
      by_cases hxz : x = z
      · exact identical_of_eq U _ none x z true p3 hxz
      · by_cases hxy : x = y
        · subst hxy
          have h3 := identical_any_stack U rank (k + 1) x z p2 p3 hx hz hp2 h2
          have := identical_mono U (k + 1) (max n k - k) none x z true p3 (by rw [h3]; simp)
          rw [h3] at this
          rw [← this]
          congr 1
          have := Nat.le_max_right n k
          omega
        · by_cases hyz : y = z
          · subst hyz
            have h3 := identical_any_stack U rank (n + 1) x y p1 p3 hx hy hp1 h1
            have := identical_mono U (n + 1) (max n k - n) none x y true p3 (by rw [h3]; simp)
            rw [h3] at this
            rw [← this]
            congr 1
            have := Nat.le_max_left n k
            omega
          · obtain ⟨uy, -, hs1⟩ := identical_true_operands U n x y true p1 hxy h1
            obtain ⟨uz, huz, hs2⟩ := identical_true_operands U k y z true p2 hyz h2
            rw [identical_of_switch U _ none x z true p3 uz hxz huz (Or.inr rfl)]
            obtain ⟨-, hc1⟩ := identicalSwitch_true_inv U (identical U n)
              (fun a b => a = none → b = none) (fun _ h => h) (fun _ _ _ h1 h2 h => h2 (h1 h))
              none none x y p1 (fun m1 s t q m2 _ => identical_none_le U n m1 s t true q m2) hs1
            obtain ⟨-, hc2⟩ := identicalSwitch_true_inv U (identical U k)
              (fun a b => a = none → b = none) (fun _ h => h) (fun _ _ _ h1 h2 h => h2 (h1 h))
              none none y z p2 (fun m1 s t q m2 _ => identical_none_le U k m1 s t true q m2) hs2
            rcases hc1 with ⟨a, b, ms, ms1, rfl, rfl, -, -, -, hg⟩ | ⟨nx, ny, hnx, hny, hsim1⟩
            · rw [above_guard rank p1 a b hp1] at hg
              cases hg
            · rcases hc2 with ⟨a, b, ms, ms1, rfl, rfl, -, -, -, hg⟩ | ⟨ny1, nz, hny1, hnz, hsim2⟩
              · rw [above_guard rank p2 a b hp2] at hg
                cases hg
              · rw [hny] at hny1
                cases hny1
                apply identicalSwitch_of_sim U _ _ x z true p3 nx nz hnx hnz
                  (hsim1.comp U _ _ nx ny nz hsim2)
                rintro s u ⟨t, ⟨hs, ht, hv1⟩, ⟨-, hu, hv2⟩⟩
                have hrs := hx x (contains_refl U x) s hs
                have hrt := hy y (contains_refl U y) t ht
                have hru := hz z (contains_refl U z) u hu
                exact ih k s t u _ _ _ (acyclic_child U rank x s hx hs) (acyclic_child U rank y t hy ht)
                  (acyclic_child U rank z u hz hu) (above_pushed U rank p1 x y s t hp1 hrs hrt)
                  (above_pushed U rank p2 y z t u hp2 hrt hru)
                  (visits_none U n s t _ none hv1) (visits_none U k t u _ none hv2)

/-- C19. Transitivity without unification: on an acyclic type graph, when `Identical(x, y)`
and `Identical(y, z)` return true, at the depths `n` and `k`, `Identical(x, z)` returns true
at the greater of the two depths; and with reflexivity and symmetry of the true results,
"Identical returns true at some depth" is an equivalence relation on the types of an
acyclic graph. -/
theorem Identical_trans (U : Universe) (rank : Ty → Nat) :
    (∀ n k x y z, Acyclic U rank x → Acyclic U rank y → Acyclic U rank z →
      Identical U n x y = .ret true → Identical U k y z = .ret true →
      Identical U (max n k) x z = .ret true) ∧
    Equivalence (fun (s t : { t : Ty // Acyclic U rank t }) =>
      ∃ n, Identical U n s.1 t.1 = .ret true) := by
  have trans : ∀ n k x y z, Acyclic U rank x → Acyclic U rank y → Acyclic U rank z →
      Identical U n x y = .ret true → Identical U k y z = .ret true →
      Identical U (max n k) x z = .ret true := by
    intro n k x y z hx hy hz h1 h2
    have e1 := identical_eq_of_fst U n x y true [] _ h1
    have e2 := identical_eq_of_fst U k y z true [] _ h2
    have := identical_trans_stacks U rank n k x y z [] [] [] hx hy hz (fun _ he => by cases he)
      (fun _ he => by cases he) e1 e2
    rw [Identical, this]
  refine ⟨trans, ⟨?_, ?_, ?_⟩⟩
  · intro s
    exact ⟨1, by simp [Identical, identical]⟩
  · rintro s t ⟨n, h⟩
    have e1 := identical_eq_of_fst U n s.1 t.1 true [] _ h
    have := identical_symm_true U n s.1 t.1 [] e1
    exact ⟨n, by rw [Identical]; exact congrArg Prod.fst this⟩
  · rintro s t u ⟨n, h1⟩ ⟨k, h2⟩
    exact ⟨max n k, trans n k s.1 t.1 u.1 s.2 t.2 u.2 h1 h2⟩

/-! ## Soundness of unification -/

theorem extends_refl (G : Ty → Prop) (a : Option Mapping) : Extends G a a :=
  fun ma h => ⟨ma, h, fun _ _ h => h, fun _ _ h => Or.inl h⟩

theorem extends_trans (G : Ty → Prop) (a b c : Option Mapping) (h1 : Extends G a b)
    (h2 : Extends G b c) : Extends G a c := by
  intro ma ha
  obtain ⟨mb, hb, k1, g1⟩ := h1 ma ha
  obtain ⟨mc, hc, k2, g2⟩ := h2 mb hb
  refine ⟨mc, hc, fun P t h => k2 P t (k1 P t h), fun P t h => ?_⟩
  rcases g2 P t h with h | h
  · exact g1 P t h
  · exact Or.inr h

theorem sameId_subst (U : Universe) (f g : Field) (t : Ty) :
    sameId U f ⟨g.pkg, g.name, t, g.tag, g.anonymous⟩ = sameId U f g := rfl

/-- Corresponding nodes stay corresponding when the components of the second are replaced. -/
theorem NodeSim.subst (U : Universe) (R : Ty → Ty → Prop) (sub : Ty → Ty) (nx ny nz : Node)
    (h : NodeSim U R nx ny) (hs : SubstNode sub ny nz) :
    NodeSim U (fun s u => ∃ t, u = sub t ∧ R s t) nx nz := by
  cases nx <;> simp only [NodeSim] at h
  case Basic =>
    obtain ⟨i, rfl⟩ := h
    simp only [SubstNode] at hs
    subst hs
    exact ⟨_, rfl⟩
  case Array =>
    obtain ⟨e1, rfl, hr⟩ := h
    simp only [SubstNode] at hs
    subst hs
    exact ⟨_, rfl, _, rfl, hr⟩
  case Slice =>
    obtain ⟨e1, rfl, hr⟩ := h
    simp only [SubstNode] at hs
    subst hs
    exact ⟨_, rfl, _, rfl, hr⟩
  case Struct =>
    obtain ⟨gs, rfl, hr⟩ := h
    simp only [SubstNode] at hs
    subst hs
    refine ⟨_, rfl, ?_⟩
    rw [List.forall₂_map_right_iff]
    exact hr.imp (fun f g ⟨e1, e2, e3, e4⟩ => ⟨e1, e2, e3, _, rfl, e4⟩)
  case Pointer =>
    obtain ⟨e1, rfl, hr⟩ := h
    simp only [SubstNode] at hs
    subst hs
    exact ⟨_, rfl, _, rfl, hr⟩
  case Tuple =>
    obtain ⟨ws, rfl, hr⟩ := h
    simp only [SubstNode] at hs
    subst hs
    refine ⟨_, rfl, ?_⟩
    rw [List.map_map, List.forall₂_map_right_iff]
    rw [List.forall₂_map_right_iff] at hr
    exact hr.imp (fun s w hw => ⟨_, rfl, hw⟩)
  case Signature =>
    obtain ⟨recv, ps1, rs1, rfl, hr1, hr2⟩ := h
    simp only [SubstNode] at hs
    obtain ⟨ps2, rs2, rfl, hp, hq⟩ := hs
    exact ⟨_, _, _, rfl, ⟨_, hp, hr1⟩, ⟨_, hq, hr2⟩⟩
  case Interface =>
    obtain ⟨ms1, rfl, hr⟩ := h
    simp only [SubstNode] at hs
    subst hs
    refine ⟨_, rfl, ?_⟩
    rw [List.forall₂_map_right_iff]
    exact hr.imp (fun f g ⟨e1, e2⟩ => ⟨e1, _, rfl, e2⟩)
  case Map =>
    obtain ⟨k1, e1, rfl, hr1, hr2⟩ := h
    simp only [SubstNode] at hs
    subst hs
    exact ⟨_, _, rfl, ⟨_, rfl, hr1⟩, ⟨_, rfl, hr2⟩⟩
  case Chan =>
    obtain ⟨e1, rfl, hr⟩ := h
    simp only [SubstNode] at hs
    subst hs
    exact ⟨_, rfl, _, rfl, hr⟩
  case Named =>
    obtain ⟨u, rfl⟩ := h
    simp only [SubstNode] at hs
    obtain ⟨u1, rfl⟩ := hs
    exact ⟨_, rfl⟩
  case Instance =>
    obtain ⟨n1, as1, rfl, hr1, hr2⟩ := h
    simp only [SubstNode] at hs
    obtain ⟨n2, rfl, hn⟩ := hs
    refine ⟨_, _, rfl, ⟨_, hn, hr1⟩, ?_⟩
    rw [List.forall₂_map_right_iff]
    exact hr2.imp (fun s w hw => ⟨_, rfl, hw⟩)
  case TypeParam =>
    obtain ⟨r, rfl⟩ := h
    simp only [SubstNode] at hs
    subst hs
    exact ⟨_, rfl⟩

/-- A node whose components `sub` leaves as they are is its own replacement. -/
theorem SubstNode.self (U : Universe) (sub : Ty → Ty) (b : Nat)
    (h : ∀ c ∈ children U (.ptr b), sub c = c) : SubstNode sub (U.heap b) (U.heap b) := by
  cases hb : U.heap b <;> simp only [children, hb] at h <;> simp only [SubstNode]
  case Array => rw [h _ (by simp)]
  case Slice => rw [h _ (by simp)]
  case Struct fs =>
    congr 1
    conv_lhs => rw [← List.map_id fs]
    apply List.map_congr_left
    intro f hf
    rw [h f.typ (List.mem_map_of_mem _ hf)]
    rfl
  case Pointer => rw [h _ (by simp)]
  case Tuple vs =>
    congr 1
    conv_lhs => rw [← List.map_id vs]
    apply List.map_congr_left
    intro v hv
    rw [h v.typ (List.mem_map_of_mem _ hv)]
    rfl
  case Signature recv ps rs v =>
    exact ⟨ps, rs, rfl, (h _ (by simp)).symm, (h _ (by simp)).symm⟩
  case Interface ms =>
    congr 1
    conv_lhs => rw [← List.map_id ms]
    apply List.map_congr_left
    intro f hf
    rw [h f.typ (List.mem_map_of_mem _ hf)]
    rfl
  case Map => rw [h _ (by simp), h _ (by simp)]
  case Chan => rw [h _ (by simp)]
  case Named o u => exact ⟨u, rfl⟩
  case Instance n args =>
    refine ⟨n, ?_, (h _ (by simp)).symm⟩
    congr 1
    conv_lhs => rw [← List.map_id args]
    apply List.map_congr_left
    intro t ht
    rw [h t (List.mem_cons_of_mem _ ht)]
    rfl

theorem guard_subst (sub : Ty → Ty) (p : List ifacePair) (a b b1 : Nat)
    (ha : sub (.ptr a) = .ptr a) (hb : sub (.ptr b) = .ptr b1)
    (hfix : ∀ e ∈ p, e.x = b → b1 = b)
    (h : p.any (fun e => e.identical ⟨a, b⟩) = true) :
    (p.map (subPair sub)).any (fun e => e.identical ⟨a, b1⟩) = true := by
  rw [List.any_eq_true] at h ⊢
  obtain ⟨e, he, hid⟩ := h
  refine ⟨subPair sub e, List.mem_map_of_mem _ he, ?_⟩
  simp only [ifacePair.identical, Bool.or_eq_true, Bool.and_eq_true, beq_iff_eq] at hid ⊢
  rcases hid with ⟨e1, e2⟩ | ⟨e1, e2⟩
  · left
    simp [subPair, subAddr, e1, e2, hb]
  · right
    have := hfix e he e1
    subst this
    simp [subPair, subAddr, e1, e2, ha]

theorem pushed_subst (U : Universe) (sub : Ty → Ty) (s : Ty) (b b1 : Nat) (p : List ifacePair)
    (hb : sub (.ptr b) = .ptr b1) (hs : SubstNode sub (U.heap b) (U.heap b1)) :
    (pushed U s (.ptr b) p).map (subPair sub) = pushed U s (.ptr b1) (p.map (subPair sub)) := by
  unfold pushed
  cases hsi : asInterface U s with
  | none => rfl
  | some am =>
    obtain ⟨a, ms⟩ := am
    cases hn : U.heap b <;> simp only [hn, SubstNode] at hs
    case Signature => obtain ⟨ps1, rs1, hs, -, -⟩ := hs; simp [asInterface, hn, hs]
    case Named => obtain ⟨u, hs⟩ := hs; simp [asInterface, hn, hs]
    case Instance => obtain ⟨n1, hs, -⟩ := hs; simp [asInterface, hn, hs]
    case Interface => simp [asInterface, hn, hs, subPair, subAddr, hb]
    all_goals simp [asInterface, hn, hs]

theorem pushed_inv (U : Universe) (G : Ty → Prop) (s t : Ty) (p : List ifacePair)
    (hp : ∀ e ∈ p, G (.ptr e.x)) (hs : G s) : ∀ e ∈ pushed U s t p, G (.ptr e.x) := by
  unfold pushed
  cases hsi : asInterface U s with
  | none => exact hp
  | some am =>
    cases hti : asInterface U t with
    | none => exact hp
    | some bm =>
      obtain ⟨a, ms⟩ := am
      obtain ⟨rfl, -⟩ := heap_of_asInterface U s a ms hsi
      intro e he
      rcases List.mem_cons.1 he with rfl | he
      · exact hs
      · exact hp e he

theorem lookup_cons_new (m0 : Mapping) (P : Nat) (s : Ty) (h : m0.lookup P = none) :
    (∀ Q t, m0.lookup Q = some t → ((P, s) :: m0).lookup Q = some t) ∧
    (∀ Q t, ((P, s) :: m0).lookup Q = some t → m0.lookup Q = some t ∨ t = s) ∧
    ((P, s) :: m0).lookup P = some s := by
  refine ⟨?_, ?_, ?_⟩
  · intro Q t hQ
    by_cases hPQ : Q = P
    · subst hPQ
      rw [h] at hQ
      cases hQ
    · have hb : (Q == P) = false := by simpa using hPQ
      simp only [List.lookup, hb]
      exact hQ
  · intro Q t hQ
    by_cases hPQ : Q = P
    · subst hPQ
      simp [List.lookup] at hQ
      exact Or.inr hQ.symm
    · have hb : (Q == P) = false := by simpa using hPQ
      simp only [List.lookup, hb] at hQ
      exact Or.inl hQ
  · simp [List.lookup]

/-- A call on a first operand without type parameters and untyped primitives extends the map
by bindings to types of that operand. -/
theorem identical_extends (U : Universe) (x : Ty) (hx : ParamFree U x) (n : Nat) :
    ∀ (m0 : Mapping) (s t : Ty) (p : List ifacePair) (r : Option Mapping), Contains U x s →
      identical U n (some m0) s t true p = (.ret true, r) →
      Extends (Contains U x) (some m0) r := by
  induction n with
  | zero => intro m0 s t p r _ h; simp [identical] at h
  | succ n ih =>
    intro m0 s t p r hs h
    have hle : ∀ (m1 : Option Mapping) (s1 t1 : Ty) (q : List ifacePair) (m2 : Option Mapping),
        s1 ∈ children U s → identical U n m1 s1 t1 true q = (.ret true, m2) →
        Extends (Contains U x) m1 m2 := by
      intro m1 s1 t1 q m2 hs1 h1
      cases m1 with
      | none => intro ma hma; cases hma
      | some m1 => exact ih m1 s1 t1 q m2 (contains_child U x s s1 hs hs1) h1
    by_cases hst : s = t
    · rw [identical_of_eq U n _ s t true p hst] at h
      cases h
      exact extends_refl _ _
    · cases hu : Underlying U t with
      | none =>
        rw [identical_of_nil U n _ s t true p hst hu] at h
        simp at h
      | some ut =>
        cases hp : asTypeParam U ut with
        | none =>
          rw [identical_of_switch U n _ s t true p ut hst hu (Or.inl hp)] at h
          exact (identicalSwitch_true_inv U (identical U n) (Extends (Contains U x))
            (extends_refl _) (extends_trans _) _ _ s t p hle h).1
        | some tp =>
          obtain ⟨P, o, r0⟩ := tp
          cases hl : m0.lookup P with
          | some typ =>
            rw [identical_of_bound U n m0 s t true p ut P o r0 typ hst hu hp hl] at h
            exact (identicalSwitch_true_inv U (identical U n) (Extends (Contains U x))
              (extends_refl _) (extends_trans _) _ _ s typ p hle h).1
          | none =>
            cases hun : isUntyped U s with
            | none =>
              rw [identical_of_unclassified U n m0 s t true p ut P o r0 hst hu hp hl hun] at h
              simp at h
            | some untyped =>
              have hf : untyped = false := by
                cases untyped
                · rfl
                · exact absurd hun (hx s hs).2
              subst hf
              rw [identical_of_unbound U n m0 s t true p ut P o r0 false hst hu hp hl hun] at h
              simp only [Bool.false_eq_true, if_false] at h
              split at h
              · simp only [Prod.mk.injEq, true_and] at h
                subst h
                obtain ⟨k1, k2, -⟩ := lookup_cons_new m0 P s hl
                intro ma hma
                cases hma
                refine ⟨_, rfl, k1, fun Q t hQ => ?_⟩
                rcases k2 Q t hQ with h | h
                · exact Or.inl h
                · exact Or.inr (h ▸ hs)
              · simp at h

theorem Underlying_of_asTypeParam (U : Universe) (b : Nat) (tp : Nat × Nat × Nat)
    (h : asTypeParam U (.ptr b) = some tp) : Underlying U (.ptr b) = some (.ptr b) := by
  cases hb : U.heap b <;> simp_all [asTypeParam, Underlying]

/-- After a true result, the same comparison without a map returns true when the type
parameters of the second operand are replaced by their bindings. -/
theorem identical_subst (U : Universe) (x y : Ty) (σ : Mapping) (sub : Ty → Ty)
    (hx : ParamFree U x) (hy : ParamsDirect U y) (hsub : Substitution U x y σ sub) (n : Nat) :
    ∀ (m0 : Mapping) (s t : Ty) (p : List ifacePair) (mOut : Mapping),
      Contains U x s → (Contains U x t ∨ Contains U y t) →
      (∀ e ∈ p, Contains U x (.ptr e.x)) →
      (∀ P τ, m0.lookup P = some τ → Contains U x τ) →
      identical U n (some m0) s t true p = (.ret true, some mOut) →
      (∀ P τ, mOut.lookup P = some τ → σ.lookup P = some τ) →
      identical U n none s (sub t) true (p.map (subPair sub)) = (.ret true, none) := by
  induction n with
  | zero => intro m0 s t p mOut _ _ _ _ h; simp [identical] at h
  | succ n ih =>
    intro m0 s t p mOut hs ht hp hm0 h hσ
    by_cases hst : s = t
    · subst hst
      rw [hsub.fixed s hs]
      exact identical_of_eq U n none s s true _ rfl
    have hle : ∀ (m1 : Option Mapping) (s1 t1 : Ty) (q : List ifacePair) (m2 : Option Mapping),
        s1 ∈ children U s → identical U n m1 s1 t1 true q = (.ret true, m2) →
        Extends (Contains U x) m1 m2 := by
      intro m1 s1 t1 q m2 hs1 h1
      cases m1 with
      | none => intro ma hma; cases hma
      | some m1 =>
        exact identical_extends U x hx n m1 s1 t1 q m2 (contains_child U x s s1 hs hs1) h1
    -- the comparison of `s` with a type `t1` whose replacement is `t2`
    have core : ∀ t1 t2 : Ty,
        ((t1 = .nilTuple ∧ t2 = .nilTuple) ∨ ∃ b b1, t1 = .ptr b ∧ t2 = .ptr b1 ∧
          sub (.ptr b) = .ptr b1 ∧ SubstNode sub (U.heap b) (U.heap b1) ∧
          ∀ e ∈ p, e.x = b → b1 = b) →
        (∀ c ∈ children U t1, Contains U x c ∨ Contains U y c) →
        identicalSwitch U (identical U n) (some m0) s t1 true p = (.ret true, some mOut) →
        identical U (n + 1) none s t2 true (p.map (subPair sub)) = (.ret true, none) := by
      intro t1 t2 hrel hch hsw
      by_cases hs2 : s = t2
      · exact identical_of_eq U n none s t2 true _ hs2
      have hu2 : ∃ u, Underlying U t2 = some u := by
        rcases hrel with ⟨-, rfl⟩ | ⟨b, b1, -, rfl, -⟩
        · exact ⟨_, rfl⟩
        · exact Underlying_ptr_isSome U b1
      obtain ⟨u2, hu2⟩ := hu2
      rw [identical_of_switch U n none s t2 true _ u2 hs2 hu2 (Or.inr rfl)]
      obtain ⟨-, hcase⟩ := identicalSwitch_true_inv U (identical U n) (Extends (Contains U x))
        (extends_refl _) (extends_trans _) _ _ s t1 p hle hsw
      rcases hcase with ⟨a, b, ms, ms1, rfl, rfl, ha, hb, hl, hg⟩ | ⟨nx, ny, hnx, hny, hsim⟩
      · rcases hrel with ⟨h1, -⟩ | ⟨b0, b1, h1, rfl, hsb, hsn, hfix⟩
        · cases h1
        · cases h1
          rw [hb] at hsn
          simp only [SubstNode] at hsn
          have hgs := guard_subst sub p a b b1 (hsub.fixed _ hs) hsb hfix hg
          simp only [identicalSwitch, ha, asInterface, hsn, List.length_map, hl, beq_self_eq_true,
            if_true, hgs]
      · have hrecs : ∀ (q : List ifacePair) (s1 t1 : Ty), s1 ∈ children U s →
            (Contains U x t1 ∨ Contains U y t1) → (∀ e ∈ q, Contains U x (.ptr e.x)) →
            Visits (fun m s t => identical U n m s t true q) (Extends (Contains U x))
              (some m0) (some mOut) s1 t1 →
            identical U n none s1 (sub t1) true (q.map (subPair sub)) = (.ret true, none) := by
          intro q s1 t1 hs1 ht1 hq ⟨m2, m3, e1, hr, e2⟩
          obtain ⟨m2a, rfl, k1, g1⟩ := e1 m0 rfl
          have e3 := identical_extends U x hx n m2a s1 t1 q m3
            (contains_child U x s s1 hs hs1) hr
          obtain ⟨m3a, rfl, -, -⟩ := e3 m2a rfl
          obtain ⟨m4, h4, k2, -⟩ := e2 m3a rfl
          cases h4
          refine ih m2a s1 t1 q m3a (contains_child U x s s1 hs hs1) ht1 hq ?_ hr
            (fun P τ h => hσ P τ (k2 P τ h))
          intro P τ h
          rcases g1 P τ h with h | h
          · exact hm0 P τ h
          · exact h
        rcases hrel with ⟨rfl, rfl⟩ | ⟨b, b1, rfl, rfl, hsb, hsn, hfix⟩
        · apply identicalSwitch_of_sim U _ _ s .nilTuple true _ nx ny hnx hny hsim
          rintro s1 t1 ⟨-, ht1, -⟩
          simp [children] at ht1
        · simp only [nodeAt, Option.some.injEq] at hny
          subst hny
          apply identicalSwitch_of_sim U _ _ s (.ptr b1) true _ nx (U.heap b1) hnx rfl
            (hsim.subst U _ sub nx _ _ hsn)
          rintro s1 u ⟨t1, rfl, hs1, ht1, hv⟩
          rw [← pushed_subst U sub s b b1 p hsb hsn]
          exact hrecs _ s1 t1 hs1 (hch t1 ht1) (pushed_inv U _ s _ p hp hs) hv
    -- a type of `x` is its own replacement
    have fixedRel : ∀ typ : Ty, Contains U x typ → typ ≠ .nil →
        ((typ = .nilTuple ∧ sub typ = .nilTuple) ∨ ∃ b b1, typ = .ptr b ∧ sub typ = .ptr b1 ∧
          sub (.ptr b) = .ptr b1 ∧ SubstNode sub (U.heap b) (U.heap b1) ∧
          ∀ e ∈ p, e.x = b → b1 = b) := by
      intro typ htyp hne
      cases typ with
      | nil => exact absurd rfl hne
      | nilTuple => exact Or.inl ⟨rfl, hsub.nilTuple⟩
      | ptr b =>
        refine Or.inr ⟨b, b, rfl, hsub.fixed _ htyp, hsub.fixed _ htyp, ?_, fun _ _ _ => rfl⟩
        exact SubstNode.self U sub b
          (fun c hc => hsub.fixed c (contains_child U x _ c htyp hc))
    cases hu : Underlying U t with
    | none =>
      rw [identical_of_nil U n _ s t true p hst hu] at h
      simp at h
    | some ut =>
      cases hpt : asTypeParam U ut with
      | none =>
        rw [identical_of_switch U n _ s t true p ut hst hu (Or.inl hpt)] at h
        have hch : ∀ c ∈ children U t, Contains U x c ∨ Contains U y c := by
          intro c hc
          rcases ht with ht | ht
          · exact Or.inl (contains_child U x t c ht hc)
          · exact Or.inr (contains_child U y t c ht hc)
        have htn : t ≠ .nil := by
          rintro rfl
          simp [Underlying] at hu
        by_cases hG : Contains U x t
        · rcases fixedRel t hG htn with ⟨h1, h2⟩ | ⟨b, b1, h1, h2, h3, h4, h5⟩
          · rw [h2]
            exact core t .nilTuple (Or.inl ⟨h1, rfl⟩) hch h
          · rw [h2]
            exact core t (.ptr b1) (Or.inr ⟨b, b1, h1, rfl, h3, h4, h5⟩) hch h
        · have hY : Contains U y t := by
            rcases ht with ht | ht
            · exact absurd ht hG
            · exact ht
          cases t with
          | nil => exact absurd rfl htn
          | nilTuple =>
            rw [hsub.nilTuple]
            exact core .nilTuple .nilTuple (Or.inl ⟨rfl, rfl⟩) hch h
          | ptr b =>
            have hnp : asTypeParam U (.ptr b) = none := by
              cases hb : asTypeParam U (.ptr b) with
              | none => rfl
              | some tp =>
                rw [Underlying_of_asTypeParam U b tp hb] at hu
                cases hu
                rw [hb] at hpt
                cases hpt
            obtain ⟨b1, hsb, hsn⟩ := hsub.node b hY hG hnp
            rw [hsb]
            refine core (.ptr b) (.ptr b1) (Or.inr ⟨b, b1, rfl, rfl, hsb, hsn, ?_⟩) hch h
            intro e he heb
            exact absurd (heb ▸ hp e he) hG
      | some tp =>
        obtain ⟨P, o, r0⟩ := tp
        obtain ⟨rfl, hP⟩ := heap_of_asTypeParam U ut P o r0 hpt
        have htP : t = .ptr P := by
          rcases ht with ht | ht
          · have := (hx t ht).1 _ hu
            rw [this] at hpt
            cases hpt
          · exact hy t _ P o r0 ht hu hpt
        subst htP
        cases hl : m0.lookup P with
        | some typ =>
          rw [identical_of_bound U n m0 s _ true p _ P o r0 typ hst hu hpt hl] at h
          have htyp := hm0 P typ hl
          obtain ⟨hext, -⟩ := identicalSwitch_true_inv U (identical U n)
            (Extends (Contains U x)) (extends_refl _) (extends_trans _) _ _ s typ p hle h
          obtain ⟨m4, h4, k1, -⟩ := hext m0 rfl
          cases h4
          have hsP : sub (.ptr P) = typ := hsub.bound P o r0 typ hP (hσ P typ (k1 P typ hl))
          rw [hsP]
          have hne : typ ≠ .nil := by
            rintro rfl
            rw [identicalSwitch_absent] at h
            simp at h
          have hch : ∀ c ∈ children U typ, Contains U x c ∨ Contains U y c :=
            fun c hc => Or.inl (contains_child U x typ c htyp hc)
          rcases fixedRel typ htyp hne with ⟨h1, h2⟩ | ⟨b, b1, h1, h2, h3, h4, h5⟩
          · have := core typ .nilTuple (Or.inl ⟨h1, rfl⟩) hch h
            rwa [← h1] at this
          · have hbb : b1 = b := by
              rw [h1, hsub.fixed _ (h1 ▸ htyp)] at h2
              cases h2
              rfl
            have := core typ (.ptr b1) (Or.inr ⟨b, b1, h1, rfl, h3, h4, h5⟩) hch h
            rwa [hbb, ← h1] at this
        | none =>
          cases hun : isUntyped U s with
          | none =>
            rw [identical_of_unclassified U n m0 s _ true p _ P o r0 hst hu hpt hl hun] at h
            simp at h
          | some untyped =>
            have hf : untyped = false := by
              cases untyped
              · rfl
              · exact absurd hun (hx s hs).2
            subst hf
            rw [identical_of_unbound U n m0 s _ true p _ P o r0 false hst hu hpt hl hun] at h
            simp only [Bool.false_eq_true, if_false] at h
            split at h
            · simp only [Prod.mk.injEq, true_and, Option.some.injEq] at h
              subst h
              obtain ⟨-, -, k3⟩ := lookup_cons_new m0 P s hl
              rw [hsub.bound P o r0 s hP (hσ P s k3)]
              exact identical_of_eq U n none s s true _ rfl
            · simp at h

/-- C20, as amended. Unification soundness: `x` contains no type parameter and no untyped
primitive, the type parameters of `y` stand for themselves (`y` contains no declared type
whose underlying type is a type parameter), and `identical(m, x, y, true, empty stack)`
started with the empty map returns true and leaves the map `m`. Then for `y` with every type
parameter replaced by the type that `m` binds it to, `Identical(x, sub y)` returns true, at
the same depth. -/
theorem identical_unification_sound (U : Universe) (n : Nat) (x y : Ty) (m : Mapping)
    (sub : Ty → Ty) (hx : ParamFree U x) (hy : ParamsDirect U y)
    (hsub : Substitution U x y m sub)
    (hrun : identical U n (some []) x y true [] = (.ret true, some m)) :
    Identical U n x (sub y) = .ret true := by
  have := identical_subst U x y m sub hx hy hsub n [] x y [] m (contains_refl U x)
    (Or.inr (contains_refl U y)) (fun _ he => by cases he) (fun P τ h => by simp at h) hrun
    (fun _ _ h => h)
  rw [Identical]
  exact congrArg Prod.fst this

/-! ## A second operand without type parameters -/

theorem andThen_with_map (r1 r2 : Result) (k1 k2 : Option Mapping → Result) (m : Mapping)
    (hr : r1 = (r2.1, some m)) (hn : r2.2 = none) (hk : k1 (some m) = ((k2 none).1, some m)) :
    andThen r1 k1 = ((andThen r2 k2).1, some m) := by
  rcases r2 with ⟨o, m2⟩
  simp only at hn hr
  subst hn
  subst hr
  cases o with
  | ret b => cases b <;> first | rfl | exact hk
  | abort => rfl
  | fuel => rfl

theorem identicalTypes_with_map (rec1 rec2 : Option Mapping → Ty → Ty → Result) (m : Mapping)
    (hn : ∀ s t, (rec2 none s t).2 = none) (vs ws : List Ty)
    (h : ∀ s, ∀ t ∈ ws, rec1 (some m) s t = ((rec2 none s t).1, some m)) :
    identicalTypes rec1 vs ws (some m) = ((identicalTypes rec2 vs ws none).1, some m) := by
  induction vs generalizing ws with
  | nil => cases ws <;> rfl
  | cons v vs ih =>
    cases ws with
    | nil => rfl
    | cons w ws =>
      simp only [identicalTypes]
      exact andThen_with_map _ _ _ _ m (h v w (List.mem_cons_self _ _)) (hn v w)
        (ih ws (fun s t ht => h s t (List.mem_cons_of_mem _ ht)))

theorem identicalFields_with_map (U : Universe) (rec1 rec2 : Option Mapping → Ty → Ty → Result)
    (m : Mapping) (hn : ∀ s t, (rec2 none s t).2 = none) (c : Bool) (fs gs : List Field)
    (h : ∀ s, ∀ g ∈ gs, rec1 (some m) s g.typ = ((rec2 none s g.typ).1, some m)) :
    identicalFields U rec1 c fs gs (some m) =
      ((identicalFields U rec2 c fs gs none).1, some m) := by
  induction fs generalizing gs with
  | nil => cases gs <;> rfl
  | cons f fs ih =>
    cases gs with
    | nil => rfl
    | cons g gs =>
      simp only [identicalFields]
      split
      · rfl
      · exact andThen_with_map _ _ _ _ m (h f.typ g (List.mem_cons_self _ _)) (hn _ _)
          (ih gs (fun s t ht => h s t (List.mem_cons_of_mem _ ht)))

theorem identicalMethods_with_map (U : Universe) (rec1 rec2 : Option Mapping → Ty → Ty → Result)
    (m : Mapping) (hn : ∀ s t, (rec2 none s t).2 = none) (fs gs : List Method)
    (h : ∀ s, ∀ g ∈ gs, rec1 (some m) s g.typ = ((rec2 none s g.typ).1, some m)) :
    identicalMethods U rec1 fs gs (some m) =
      ((identicalMethods U rec2 fs gs none).1, some m) := by
  induction fs generalizing gs with
  | nil => cases gs <;> rfl
  | cons f fs ih =>
    cases gs with
    | nil => rfl
    | cons g gs =>
      simp only [identicalMethods]
      split
      · rfl
      · exact andThen_with_map _ _ _ _ m (h f.typ g (List.mem_cons_self _ _)) (hn _ _)
          (ih gs (fun s t ht => h s t (List.mem_cons_of_mem _ ht)))

/-- The type switch with a map, when the recursive calls on the components of `y` give the
outcome they give without a map and leave the map as it was: so does the switch. -/
theorem identicalSwitch_with_map (U : Universe)
    (rec1 rec2 : Option Mapping → Ty → Ty → Bool → List ifacePair → Result) (m : Mapping)
    (hn : ∀ s t c p, (rec2 none s t c p).2 = none) (x y : Ty) (c : Bool) (p : List ifacePair)
    (h : ∀ s, ∀ t ∈ children U y, ∀ q,
      rec1 (some m) s t c q = ((rec2 none s t c q).1, some m)) :
    identicalSwitch U rec1 (some m) x y c p =
      ((identicalSwitch U rec2 none x y c p).1, some m) := by
  cases x with
  | nil => rfl
  | nilTuple =>
    simp only [identicalSwitch]
    cases asTuple U y <;> rfl
  | ptr a =>
    cases ha : U.heap a <;> simp only [identicalSwitch, ha]
    case Basic => cases asBasic U y <;> rfl
    case Array l e =>
      cases hb : asArray U y with
      | none => rfl
      | some le =>
        simp only
        split
        · exact h e _ (children_asArray U y _ _ hb) p
        · rfl
    case Slice e =>
      cases hb : asSlice U y with
      | none => rfl
      | some e1 => exact h e _ (children_asSlice U y _ hb) p
    case Struct fs =>
      cases hb : asStruct U y with
      | none => rfl
      | some gs =>
        simp only
        split
        · exact identicalFields_with_map U _ _ m (fun s t => hn s t c p) c fs gs
            (fun s g hg => h s g.typ (children_asStruct U y gs hb g hg) p)
        · rfl
    case Pointer e =>
      cases hb : asPointer U y with
      | none => rfl
      | some e1 => exact h e _ (children_asPointer U y _ hb) p
    case Tuple vs =>
      cases hb : asTuple U y with
      | none => rfl
      | some ws =>
        simp only
        split
        · exact identicalTypes_with_map _ _ m (fun s t => hn s t c p) _ _
            (fun s t ht => h s t (children_asTuple U y ws hb t ht) p)
        · rfl
    case Signature r ps rs v =>
      cases hb : asSignature U y with
      | none => rfl
      | some sg =>
        obtain ⟨ps1, rs1, v1⟩ := sg
        obtain ⟨h1, h2⟩ := children_asSignature U y ps1 rs1 v1 hb
        simp only
        split
        · exact andThen_with_map _ _ _ _ m (h _ _ h1 p) (hn _ _ _ _) (h _ _ h2 p)
        · rfl
    case Interface ms =>
      cases hb : asInterface U y with
      | none => rfl
      | some bm =>
        obtain ⟨b, ms1⟩ := bm
        obtain ⟨-, h1⟩ := children_asInterface U y b ms1 hb
        simp only
        split
        · split
          · rfl
          · exact identicalMethods_with_map U _ _ m (fun s t => hn s t c _) ms ms1
              (fun s g hg => h s g.typ (h1 g hg) _)
        · rfl
    case Map k e =>
      cases hb : asMap U y with
      | none => rfl
      | some ke =>
        obtain ⟨k1, e1⟩ := ke
        obtain ⟨h1, h2⟩ := children_asMap U y k1 e1 hb
        exact andThen_with_map _ _ _ _ m (h _ _ h1 p) (hn _ _ _ _) (h _ _ h2 p)
    case Chan d e =>
      cases hb : asChan U y with
      | none => rfl
      | some de =>
        simp only
        split
        · exact h e _ (children_asChan U y _ _ hb) p
        · rfl
    case Named => cases asNamed U y <;> rfl
    case Instance n args =>
      cases hb : asInstance U y with
      | none => rfl
      | some na =>
        obtain ⟨n1, args1⟩ := na
        obtain ⟨h1, h2⟩ := children_asInstance U y n1 args1 hb
        apply andThen_with_map _ _ _ _ m (h _ _ h1 p) (hn _ _ _ _)
        split
        · rfl
        · exact identicalTypes_with_map _ _ m (fun s t => hn s t c p) _ _
            (fun s t ht => h s t (h2 t ht) p)
    case TypeParam => cases asTypeParam U y <;> rfl

/-- Against a second operand without type parameters a map plays no part: `identical` gives
the outcome it gives without a map, and leaves the map as it was. -/
theorem identical_with_map (U : Universe) (n : Nat) (m : Mapping) (x y : Ty) (c : Bool)
    (p : List ifacePair) (hy : NoTypeParam U y) :
    identical U n (some m) x y c p = ((identical U n none x y c p).1, some m) := by
  induction n generalizing x y p with
  | zero => rfl
  | succ n ih =>
    by_cases hxy : x = y
    · rw [identical_of_eq U n _ x y c p hxy, identical_of_eq U n _ x y c p hxy]
    · cases hu : Underlying U y with
      | none =>
        rw [identical_of_nil U n _ x y c p hxy hu, identical_of_nil U n _ x y c p hxy hu]
      | some uy =>
        rw [identical_of_switch U n _ x y c p uy hxy hu
            (Or.inl (hy y uy (contains_refl U y) hu)),
          identical_of_switch U n none x y c p uy hxy hu (Or.inr rfl)]
        exact identicalSwitch_with_map U _ _ m (fun s t c p => identical_snd_none U n s t c p)
          x y c p (fun s t ht q => ih s t q
            (fun t1 u1 hc => hy t1 u1 (contains_trans U y t t1
              (contains_child U y y t (contains_refl U y) ht) hc)))

/-- C6, as amended. Unification consistency (failure): for an unbound type parameter `P`, a
typed type `A` that contains no type parameter and passes the constraint check of `P`, and a
type `B` other than `P` itself with `Identical(B, A)` false, `identical` run from the empty map
on the tuple `(A, B)` against the tuple `(P, P)` returns false, and the map it leaves holds
the binding `P = A`, made at the first element, and no other. -/
theorem identical_tuple_mismatch (U : Universe) (n tx ty P o r : Nat) (A B : Ty)
    (hx : asTuple U (.ptr tx) = some [A, B]) (hy : asTuple U (.ptr ty) = some [.ptr P, .ptr P])
    (hP : U.heap P = .TypeParam o r) (hA : isTyped U A = some true) (hAfree : NoTypeParam U A)
    (hBP : B ≠ .ptr P) (hsat : U.assignableToTypeParam A P = true)
    (hne : Identical U (n + 1) B A = .ret false) :
    identical U (n + 2) (some []) (.ptr tx) (.ptr ty) true [] = (.ret false, some [(P, A)]) := by
  have hAP : A ≠ .ptr P := by
    rintro rfl
    have := hAfree (.ptr P) (.ptr P) (contains_refl U _) (by simp [Underlying, hP])
    simp [asTypeParam, hP] at this
  rw [identical_pair_against_param U n tx ty P o r A B true [] hx hy hP hA hAP hBP hsat]
  have hBA : B ≠ A := by
    rintro rfl
    simp [Identical, identical] at hne
  have hsw : (identicalSwitch U (identical U n) none B A true []).1 = .ret false := by
    cases hu : Underlying U A with
    | none =>
      rw [Identical, identical_of_nil U n none B A true [] hBA hu] at hne
      cases hne
    | some uA =>
      rw [Identical, identical_of_switch U n none B A true [] uA hBA hu (Or.inr rfl)] at hne
      exact hne
  rw [identicalSwitch_with_map U (identical U n) (identical U n) [(P, A)]
    (fun s t c p => identical_snd_none U n s t c p) B A true []
    (fun s t ht q => identical_with_map U n [(P, A)] s t true q
      (fun t1 u1 hc => hAfree t1 u1 (contains_trans U A t t1
        (contains_child U A A t (contains_refl U A) ht) hc))), hsw]

/-! ## The properties on the example universe -/

theorem exRank_le (x : Ty) : exRank x ≤ 2 := by
  unfold exRank
  split <;> omega

theorem exU_corresponds : Corresponds exU exR exL exRank 2 where
  bound := fun x _ _ => exRank_le x
  step := by
    intro x y hR
    simp only [exR, List.mem_cons, Prod.mk.injEq, List.mem_singleton, List.not_mem_nil,
      or_false] at hR
    right
    rcases hR with ⟨rfl, rfl⟩ | ⟨rfl, rfl⟩ | ⟨rfl, rfl⟩ | ⟨rfl, rfl⟩
    · refine ⟨10, 20, rfl, rfl, ?_, fun _ => by simp [exL]⟩
      refine ⟨_, rfl, List.Forall₂.cons ⟨rfl, Or.inr ⟨?_, ?_⟩⟩ List.Forall₂.nil⟩
      · simp [exR]
      · intro h; cases h
    · refine ⟨11, 21, rfl, rfl, ?_, fun h => by cases h⟩
      refine ⟨_, _, _, rfl, Or.inl rfl, Or.inr ⟨?_, fun _ => ?_⟩⟩
      · simp [exR, tupleTy]
      · simp [exRank, tupleTy]
    · refine ⟨12, 22, rfl, rfl, ?_, fun h => by cases h⟩
      refine ⟨_, rfl, List.Forall₂.cons (Or.inr ⟨?_, fun _ => ?_⟩) List.Forall₂.nil⟩
      · simp [exR]
      · simp [exRank]
    · refine ⟨13, 23, rfl, rfl, ?_, fun _ => by simp [exL]⟩
      refine ⟨_, rfl, List.Forall₂.cons ⟨rfl, Or.inr ⟨?_, ?_⟩⟩ List.Forall₂.nil⟩
      · simp [exR]
      · intro h; cases h

/-- C2, at the failing input. With Absence (the nil interface) as one operand the two orders
differ: `Identical(nil, int)` returns false, `Identical(int, nil)` aborts in `y.Underlying()`. -/
theorem Identical_absent_not_symmetric (n : Nat) :
    Identical exU (n + 1) .nil exInt = .ret false ∧
    Identical exU (n + 1) exInt .nil = .abort := by
  constructor
  · obtain ⟨uy, h⟩ := Underlying_ptr_isSome exU (exTyp .Int)
    rw [Identical, exInt, identical_of_switch exU n none .nil _ true [] uy (by simp) h (Or.inr rfl)]
    rfl
  · simp [Identical, identical, exInt, Underlying]

/-- Witness of C3: `struct { a int "tag1" }` against `struct { a int "tag2" }`. -/
theorem Identical_tag_sensitive_witness :
    ∃ N, ∀ n, N ≤ n →
      Identical exU n (.ptr 7) (.ptr 8) = .ret false ∧
      IdenticalIgnoreTags exU n (.ptr 7) (.ptr 8) = .ret true :=
  Identical_tag_sensitive exU 7 8 _ _ rfl rfl
    (List.Forall₂.cons ⟨rfl, by decide, 1, by decide⟩ List.Forall₂.nil)
    (fun h => by cases h with | cons h1 _ => exact absurd h1 (by decide))

/-- Witness of C4: two declarations of the same struct are not identical; two nodes of one
declaration are, although they wrap different structs. -/
theorem Identical_Named_witness :
    Identical exU 1 (.ptr 9) (.ptr 14) = .ret false ∧
    Identical exU 1 (.ptr 9) (.ptr 15) = .ret true :=
  ⟨Identical_Named exU 0 9 14 600 601 _ _ rfl rfl, Identical_Named exU 0 9 15 600 600 _ _ rfl rfl⟩

/-- Counterexample to C5 as stated: `A` is the unconstrained parameter `P` itself. It is typed
and passes the constraint check, the tuples `(P, P)` and `(P, P)` are distinct nodes, the call
returns true, and the map is left empty instead of holding `P = A`. -/
theorem identical_tuple_binds_fails :
    isTyped exU (.ptr 2) = some true ∧ exU.assignableToTypeParam (.ptr 2) 2 = true ∧
    identical exU 3 (some []) (.ptr 4) (.ptr 6) true [] = (.ret true, some []) ∧
    identical exU 3 (some []) (.ptr 4) (.ptr 6) true [] ≠ (.ret true, some [(2, .ptr 2)]) := by
  decide

/-- Witness of C5 as amended: `(int, int)` against `(P, P)` binds `P = int`. -/
theorem identical_tuple_binds_witness :
    identical exU 3 (some []) (.ptr 3) (.ptr 4) true [] = (.ret true, some [(2, exInt)]) :=
  identical_tuple_binds exU 0 3 4 2 500 0 exInt true [] rfl rfl rfl (by decide) (by decide)
    (by decide)

/-- Counterexample to C6 as stated. `(int, string)` against `(P, P)`, both `int` and `string`
typed, not identical, and passing the constraint check of `P`: the call returns false, and
the map it leaves binds `P = int`, it is not without a binding for `P`. `(int, P)` against
`(P, P)`, with `int` and `P` typed, not identical and passing the check: the call returns
true, the second pair is the same pointer twice. `([]Q, []int)` against `(P, P)`, with `[]Q`
and `[]int` typed, not identical and passing the check: the call returns true, `[]int`
against the binding `[]Q` binds `Q = int`. -/
theorem identical_tuple_mismatch_fails :
    (isTyped exU exInt = some true ∧ isTyped exU exString = some true ∧
      exU.assignableToTypeParam exInt 2 = true ∧ exU.assignableToTypeParam exString 2 = true ∧
      Identical exU 3 exInt exString = .ret false ∧
      identical exU 3 (some []) (.ptr 5) (.ptr 4) true [] = (.ret false, some [(2, exInt)]) ∧
      List.lookup 2 [(2, exInt)] ≠ none) ∧
    (isTyped exU (.ptr 2) = some true ∧ exU.assignableToTypeParam (.ptr 2) 2 = true ∧
      Identical exU 3 exInt (.ptr 2) = .ret false ∧ Identical exU 3 (.ptr 2) exInt = .ret false ∧
      identical exU 3 (some []) (.ptr 53) (.ptr 4) true [] = (.ret true, some [(2, exInt)])) ∧
    (isTyped exU (.ptr 40) = some true ∧ isTyped exU (.ptr 41) = some true ∧
      exU.assignableToTypeParam (.ptr 40) 2 = true ∧
      exU.assignableToTypeParam (.ptr 41) 2 = true ∧
      Identical exU 3 (.ptr 40) (.ptr 41) = .ret false ∧
      Identical exU 3 (.ptr 41) (.ptr 40) = .ret false ∧
      identical exU 4 (some []) (.ptr 42) (.ptr 4) true [] =
        (.ret true, some [(1, exInt), (2, .ptr 40)])) := by
  decide

/-- With a map, two types that are not identical can still compare equal against a repeated
parameter: `([]Q, []int)` against `(P, P)` binds `P = []Q`, then compares `[]int` with the
binding `[]Q` and binds `Q = int`. -/
theorem identical_tuple_unifies_inside :
    Identical exU 3 (.ptr 40) (.ptr 41) = .ret false ∧
    Identical exU 3 (.ptr 41) (.ptr 40) = .ret false ∧
    identical exU 4 (some []) (.ptr 42) (.ptr 4) true [] =
      (.ret true, some [(1, exInt), (2, .ptr 40)]) := by
  decide

/-- Witness of C7: against the numeric parameter `Q`, Absence makes the call abort; `string`
fails the check and leaves the map as it was; the untyped integer constant type passes as
`int` and is bound as `int`. -/
theorem identical_constraint_atomic_witness :
    identical exU 1 (some [(2, exString)]) .nil (.ptr 1) true [] =
      (.abort, some [(2, exString)]) ∧
    identical exU 1 (some [(2, exString)]) exString (.ptr 1) true [] =
      (.ret false, some [(2, exString)]) ∧
    identical exU 1 (some [(2, exString)]) (.ptr (exTyp .UntypedInt)) (.ptr 1) true [] =
      (.ret true, some [(1, exInt), (2, exString)]) := by
  refine ⟨(identical_constraint_atomic exU 0 [(2, exString)] .nil (.ptr 1) true [] 1 501
    RestrictionNum (by decide) rfl rfl (by decide)).1 rfl, ?_, ?_⟩
  · obtain ⟨untyped, hu, hf, -⟩ := (identical_constraint_atomic exU 0 [(2, exString)] exString
      (.ptr 1) true [] 1 501 RestrictionNum (by decide) rfl rfl (by decide)).2 (by decide)
    have h : isUntyped exU exString = some false := by decide
    rw [h] at hu
    cases hu
    exact hf (by decide)
  · obtain ⟨untyped, hu, -, ht⟩ := (identical_constraint_atomic exU 0 [(2, exString)]
      (.ptr (exTyp .UntypedInt)) (.ptr 1) true [] 1 501 RestrictionNum (by decide) rfl rfl
      (by decide)).2 (by decide)
    have h : isUntyped exU (.ptr (exTyp .UntypedInt)) = some true := by decide
    rw [h] at hu
    cases hu
    exact ht (by decide)

/-- Witness of C8: a call that binds `P` from a map that binds `Q`. -/
theorem identical_binds_at_most_once_witness :
    ∃ ext : Mapping,
      (identical exU 3 (some [(1, exInt)]) (.ptr 3) (.ptr 4) true []).2 =
        some (ext ++ [(1, exInt)]) ∧
      (ext.map Prod.fst).Nodup ∧ (∀ k ∈ ext.map Prod.fst, List.lookup k [(1, exInt)] = none) ∧
      (∀ k v, List.lookup k [(1, exInt)] = some v →
        (ext ++ [(1, exInt)]).lookup k = some v) :=
  identical_binds_at_most_once exU 3 [(1, exInt)] (.ptr 3) (.ptr 4) true []

/-- Witness of C9: `type T interface { m() interface{T} }` against the same declaration
again, and the pair found on the stack in the other order. -/
theorem Identical_cycle_safe_witness :
    Identical exU 12 (.ptr 10) (.ptr 20) = .ret true ∧
    identical exU 1 none (.ptr 13) (.ptr 23) true [⟨23, 13⟩] = (.ret true, none) :=
  ⟨(Identical_cycle_safe exU exR exL exRank 2 exU_corresponds).1 (.ptr 10) (.ptr 20) 12
      (by simp [exR]) (by decide),
   (Identical_cycle_safe exU exR exL exRank 2 exU_corresponds).2 0 none 13 23 _ _ true
      [⟨23, 13⟩] rfl rfl rfl ⟨⟨23, 13⟩, by simp, Or.inr ⟨rfl, rfl⟩⟩⟩

/-- Witness of C10: `struct { f int; g string }`, `struct { f map[int]string }`, `struct {}`,
`[3]int`, `map[int]string` and `chan map[int]string`. -/
theorem Comparable_composition_witness :
    ((∃ n, Comparable exU n (.ptr 36) = .ret true) ↔
      ∀ f ∈ [(⟨1, "f", exInt, "", false⟩ : Field), ⟨1, "g", exString, "", false⟩],
        ∃ n, Comparable exU n f.typ = .ret true) ∧
    Comparable exU 3 (.ptr 35) = Comparable exU 2 (.ptr 30) ∧
    Comparable exU 3 (.ptr 34) = .ret true ∧
    Comparable exU 3 (.ptr 32) = Comparable exU 2 exInt ∧
    Comparable exU 3 (.ptr 30) = .ret false ∧
    Comparable exU 3 (.ptr 31) = .ret true :=
  ⟨(Comparable_composition exU (.ptr 36) 36 rfl).1 _ rfl,
   (Comparable_composition exU (.ptr 35) 35 rfl).2.2.1 _ 2 rfl,
   (Comparable_composition exU (.ptr 34) 34 rfl).2.2.2.1 2 rfl,
   (Comparable_composition exU (.ptr 32) 32 rfl).2.2.2.2.1 _ _ 2 rfl,
   (Comparable_composition exU (.ptr 30) 30 rfl).2.2.2.2.2.1 _ _ 2 rfl,
   (Comparable_composition exU (.ptr 31) 31 rfl).2.2.2.2.2.2 _ _ 2 rfl⟩

/-! ## Further properties on the example universe -/

theorem exU_table : PredeclaredTable exU :=
  ⟨fun k => ⟨basicInfo k, by cases k <;> rfl⟩, ⟨IsInteger, rfl⟩⟩

theorem exU_basics : BasicsWellFormed exU := by
  intro a k info h
  simp only [exU, exHeap] at h
  split at h
  all_goals first
    | cases h; done
    | (simp only [Node.Basic.injEq] at h; obtain ⟨rfl, rfl⟩ := h; rfl)
    | (split at h <;> simp only [Node.Basic.injEq] at h <;> obtain ⟨rfl, rfl⟩ := h <;> rfl)

/-- What `x` contains in the example universe, from a list closed under components. -/
theorem exU_contains (L : List Ty) (hclosed : ∀ t ∈ L, ∀ c ∈ children exU t, c ∈ L)
    (x t : Ty) (hx : x ∈ L) (h : Contains exU x t) : t ∈ L :=
  contains_subset exU L hclosed x t hx h

theorem exU_noTypeParam_int : NoTypeParam exU exInt := by
  intro t u ht hu
  have hm := exU_contains [exInt] (by decide) _ _ (by decide) ht
  simp only [List.mem_singleton] at hm
  subst hm
  have h1 : Underlying exU exInt = some exInt := by decide
  rw [h1] at hu
  cases hu
  decide

/-- Witness of C6 as amended: `(int, string)` against `(P, P)`. -/
theorem identical_tuple_mismatch_witness :
    identical exU 3 (some []) (.ptr 5) (.ptr 4) true [] = (.ret false, some [(2, exInt)]) :=
  identical_tuple_mismatch exU 1 5 4 2 500 0 exInt exString rfl rfl rfl (by decide)
    exU_noTypeParam_int (by decide) (by decide) (by decide)

/-- Counterexample to C11 as stated: on Absence `Comparable` does not return false, the call
aborts in `T.Underlying()`. -/
theorem Comparable_absent_aborts :
    Comparable exU 1 .nil = .abort ∧ Comparable exU 9 .nil = .abort ∧
    Comparable exU 1 .nil ≠ .ret false := by
  decide

/-- On a struct nested in itself `Comparable` does not return: whatever the depth, the
recursion has not ended. -/
theorem Comparable_nested_in_itself (n : Nat) : Comparable exU n (.ptr 70) = .fuel := by
  induction n with
  | zero => rfl
  | succ n ih =>
    have h : Comparable exU (n + 1) (.ptr 70) =
        comparableFields (Comparable exU n) [⟨1, "f", .ptr 70, "", false⟩] := rfl
    rw [h]
    simp only [comparableFields, ih]

/-- Witness of C11 as amended: `[]Q`, `map[int]string`, the tuple `(int, int)`, `int`, the
unconstrained parameter `P`. -/
theorem Comparable_cases_witness :
    Comparable exU 1 (.ptr 40) = .ret false ∧ Comparable exU 1 (.ptr 30) = .ret false ∧
    Comparable exU 1 (.ptr 3) = .ret false ∧ Comparable exU 1 exInt = .ret true ∧
    Comparable exU 1 (.ptr 2) = .ret false :=
  ⟨((Comparable_cases exU (.ptr 40) 0).1 40 rfl).1 _ rfl,
   ((Comparable_cases exU (.ptr 30) 0).1 30 rfl).2.1 _ _ rfl,
   ((Comparable_cases exU (.ptr 3) 0).1 3 rfl).2.2.2.1 _ rfl,
   ((Comparable_cases exU exInt 0).1 _ rfl).2.2.2.2.1 .Int _ rfl,
   ((Comparable_cases exU (.ptr 2) 0).1 2 rfl).2.2.2.2.2 _ _ rfl⟩

/-- Witness of C12: the default of the untyped integer constant type is `int`, and the
default of `int` is `int`. -/
theorem Default_idempotent_witness :
    PredeclaredTable exU ∧
    Default exU (Default exU (.ptr (exTyp .UntypedInt))) = Default exU (.ptr (exTyp .UntypedInt)) ∧
    Default exU (.ptr (exTyp .UntypedInt)) = exInt :=
  ⟨exU_table, Default_idempotent exU exU_table (.ptr (exTyp .UntypedInt)), by decide⟩

/-- Witness of C13: `int` and the struct at 34 are unchanged, the untyped rune constant type
becomes typed. -/
theorem Default_typed_witness :
    Default exU exInt = exInt ∧ Default exU (.ptr 34) = .ptr 34 ∧
    isTyped exU (Default exU (.ptr (exTyp .UntypedRune))) = some true :=
  ⟨(Default_typed exU exU_table exU_basics exInt).1 (by decide),
   (Default_typed exU exU_table exU_basics (.ptr 34)).1 (by decide),
   ((Default_typed exU exU_table exU_basics (.ptr (exTyp .UntypedRune))).2.2.2
      .UntypedRune _ rfl (by decide) (by decide)).1⟩

/-- Witness of C16: `func (r T) (a, b int) (int, string)` against the same signature without
the receiver and with the parameters named `c` and `d`. -/
theorem Identical_signature_witness :
    ∃ n, Identical exU n (.ptr 44) (.ptr 45) = .ret true :=
  (Identical_signature exU 44 45 _ _ _ _ _ _ _ _ rfl rfl).1.2
    ⟨rfl, ⟨2, by decide⟩, ⟨1, by decide⟩⟩

/-- Counterexample to C17 as stated: with the parameter type `P` as `x` and the argument type
`int` as `y`, `int` typed and passing the constraint check of `P`, the call returns false and
binds nothing. -/
theorem identical_resolver_call_fails :
    isTyped exU exInt = some true ∧ exU.assignableToTypeParam exInt 2 = true ∧
    identical exU 1 (some []) (.ptr 2) exInt true [] = (.ret false, some []) ∧
    identical exU 9 (some []) (.ptr 2) exInt true [] = (.ret false, some []) := by
  decide

/-- Witness of C17 as amended: the argument type `int` against the parameter `P`. -/
theorem identical_resolver_call_witness :
    identical exU 1 (some []) exInt (.ptr 2) true [] = (.ret true, some [(2, exInt)]) :=
  identical_resolver_call exU 0 2 500 0 exInt [] rfl (by decide) (by decide) (by decide)

theorem exU_tagfree_50 : TagFree exU (.ptr 50) := by
  intro a fields hc hn f hf
  have hm := exU_contains [.ptr 50, .ptr 90] (by decide) _ _ (by decide) hc
  simp only [List.mem_cons, Ty.ptr.injEq, List.mem_singleton, List.not_mem_nil, or_false] at hm
  rcases hm with rfl | rfl
  · cases hn
    simp only [List.mem_singleton] at hf
    subst hf
    rfl
  · cases hn

theorem exU_tagfree_51 : TagFree exU (.ptr 51) := by
  intro a fields hc hn f hf
  have hm := exU_contains [.ptr 51, .ptr 105] (by decide) _ _ (by decide) hc
  simp only [List.mem_cons, Ty.ptr.injEq, List.mem_singleton, List.not_mem_nil, or_false] at hm
  rcases hm with rfl | rfl
  · cases hn
    simp only [List.mem_singleton] at hf
    subst hf
    rfl
  · cases hn

/-- Witness of C18: `struct { a rune }` against `struct { a int32 }`, both without tags. -/
theorem IdenticalIgnoreTags_weakens_witness :
    IdenticalIgnoreTags exU 2 (.ptr 50) (.ptr 51) = Identical exU 2 (.ptr 50) (.ptr 51) ∧
    Identical exU 2 (.ptr 50) (.ptr 51) = .ret true :=
  ⟨(IdenticalIgnoreTags_weakens exU 2 (.ptr 50) (.ptr 51)).2 exU_tagfree_50 exU_tagfree_51,
   by decide⟩

theorem exU_acyclic (a b : Nat) (hab : children exU (.ptr a) = [.ptr b])
    (hb : children exU (.ptr b) = []) (hr : exDepth (.ptr b) < exDepth (.ptr a)) :
    Acyclic exU exDepth (.ptr a) := by
  intro t ht c hc
  have hm := exU_contains [.ptr a, .ptr b] (by
    intro t ht c hc
    simp only [List.mem_cons, List.mem_singleton, List.not_mem_nil, or_false] at ht
    rcases ht with rfl | rfl
    · rw [hab] at hc
      simp only [List.mem_singleton] at hc
      subst hc
      simp
    · rw [hb] at hc
      cases hc) _ _ (by simp) ht
  simp only [List.mem_cons, List.mem_singleton, List.not_mem_nil, or_false] at hm
  rcases hm with rfl | rfl
  · rw [hab] at hc
    simp only [List.mem_singleton] at hc
    subst hc
    exact hr
  · rw [hb] at hc
    cases hc

/-- Witness of C19: `struct { a rune }`, `struct { a int32 }` and a second
`struct { a rune }`; `rune` and `int32` are distinct nodes of the same kind. -/
theorem Identical_trans_witness :
    Identical exU (max 2 2) (.ptr 50) (.ptr 52) = .ret true :=
  (Identical_trans exU exDepth).1 2 2 (.ptr 50) (.ptr 51) (.ptr 52)
    (exU_acyclic 50 90 rfl rfl (by decide)) (exU_acyclic 51 105 rfl rfl (by decide))
    (exU_acyclic 52 90 rfl rfl (by decide)) (by decide) (by decide)

theorem exU_paramFree_int : ParamFree exU exInt := by
  intro t ht
  have hm := exU_contains [exInt] (by decide) _ _ (by decide) ht
  simp only [List.mem_singleton] at hm
  subst hm
  refine ⟨fun u hu => ?_, by decide⟩
  have h1 : Underlying exU exInt = some exInt := by decide
  rw [h1] at hu
  cases hu
  decide

theorem exU_paramFree_48 : ParamFree exU (.ptr 48) := by
  intro t ht
  have hm := exU_contains [.ptr 48, .ptr 41, exInt] (by decide) _ _ (by decide) ht
  simp only [List.mem_cons, List.mem_singleton, List.not_mem_nil, or_false] at hm
  rcases hm with rfl | rfl | rfl
  · refine ⟨fun u hu => ?_, by decide⟩
    have h1 : Underlying exU (.ptr 48) = some (.ptr 48) := by decide
    rw [h1] at hu
    cases hu
    decide
  · refine ⟨fun u hu => ?_, by decide⟩
    have h1 : Underlying exU (.ptr 41) = some (.ptr 41) := by decide
    rw [h1] at hu
    cases hu
    decide
  · refine ⟨fun u hu => ?_, by decide⟩
    have h1 : Underlying exU exInt = some exInt := by decide
    rw [h1] at hu
    cases hu
    decide

theorem exU_paramsDirect_42 : ParamsDirect exU (.ptr 42) := by
  intro t u P o r ht hu hp
  have hm := exU_contains [.ptr 42, .ptr 40, .ptr 41, .ptr 1, exInt] (by decide) _ _
    (by decide) ht
  simp only [List.mem_cons, List.mem_singleton, List.not_mem_nil, or_false] at hm
  rcases hm with rfl | rfl | rfl | rfl | rfl
  · have h1 : Underlying exU (.ptr 42) = some (.ptr 42) := by decide
    rw [h1] at hu
    cases hu
    have h2 : asTypeParam exU (.ptr 42) = none := by decide
    rw [h2] at hp
    cases hp
  · have h1 : Underlying exU (.ptr 40) = some (.ptr 40) := by decide
    rw [h1] at hu
    cases hu
    have h2 : asTypeParam exU (.ptr 40) = none := by decide
    rw [h2] at hp
    cases hp
  · have h1 : Underlying exU (.ptr 41) = some (.ptr 41) := by decide
    rw [h1] at hu
    cases hu
    have h2 : asTypeParam exU (.ptr 41) = none := by decide
    rw [h2] at hp
    cases hp
  · have h1 : Underlying exU (.ptr 1) = some (.ptr 1) := by decide
    rw [h1] at hu
    cases hu
    have h2 : asTypeParam exU (.ptr 1) = some (1, 501, RestrictionNum) := by decide
    rw [h2] at hp
    cases hp
    rfl
  · have h1 : Underlying exU exInt = some exInt := by decide
    rw [h1] at hu
    cases hu
    have h2 : asTypeParam exU exInt = none := by decide
    rw [h2] at hp
    cases hp

theorem lookup_singleton (P Q : Nat) (s t : Ty) (h : List.lookup P [(Q, s)] = some t) :
    P = Q ∧ t = s := by
  by_cases hPQ : P = Q
  · subst hPQ
    simp [List.lookup] at h
    exact ⟨rfl, h.symm⟩
  · have hb : (P == Q) = false := by simpa using hPQ
    simp [List.lookup, hb] at h

theorem exU_substitution_42 : Substitution exU (.ptr 48) (.ptr 42) [(1, exInt)] exSub where
  nilTuple := rfl
  fixed := by
    intro t ht
    have hm := exU_contains [.ptr 48, .ptr 41, exInt] (by decide) _ _ (by decide) ht
    simp only [List.mem_cons, List.mem_singleton, List.not_mem_nil, or_false] at hm
    rcases hm with rfl | rfl | rfl <;> rfl
  bound := by
    intro P o r t _ hl
    obtain ⟨rfl, rfl⟩ := lookup_singleton P 1 exInt t hl
    rfl
  node := by
    intro a ha hna hnp
    have hm := exU_contains [.ptr 42, .ptr 40, .ptr 41, .ptr 1, exInt] (by decide) _ _
      (by decide) ha
    simp only [List.mem_cons, Ty.ptr.injEq, List.mem_singleton, List.not_mem_nil, or_false,
      exInt] at hm
    have h41 : Contains exU (.ptr 48) (.ptr 41) :=
      contains_child exU _ _ _ (contains_refl exU _) (by decide)
    rcases hm with rfl | rfl | rfl | rfl | rfl
    · exact ⟨49, rfl, by simp only [SubstNode, exU, exHeap]; rfl⟩
    · exact ⟨41, rfl, by simp only [SubstNode, exU, exHeap]; rfl⟩
    · exact absurd h41 hna
    · exact absurd hnp (by decide)
    · exact absurd (contains_child exU _ _ _ h41 (by decide)) hna

/-- Witness of C20 as amended: `([]int, []int)` against `([]Q, []int)` binds `Q = int`, and
`([]int, []int)` is identical to the tuple with `Q` replaced by `int`. -/
theorem identical_unification_sound_witness :
    exSub (.ptr 42) = .ptr 49 ∧ Identical exU 3 (.ptr 48) (exSub (.ptr 42)) = .ret true :=
  ⟨rfl, identical_unification_sound exU 3 (.ptr 48) (.ptr 42) [(1, exInt)] exSub exU_paramFree_48
    exU_paramsDirect_42 exU_substitution_42 (by decide)⟩

theorem exU_substitution_60 : Substitution exU exInt (.ptr 60) [(2, exInt)] exSub where
  nilTuple := rfl
  fixed := by
    intro t ht
    have hm := exU_contains [exInt] (by decide) _ _ (by decide) ht
    simp only [List.mem_singleton] at hm
    subst hm
    rfl
  bound := by
    intro P o r t _ hl
    obtain ⟨rfl, rfl⟩ := lookup_singleton P 2 exInt t hl
    rfl
  node := by
    intro a ha _ _
    have hm := exU_contains [.ptr 60] (by decide) _ _ (by decide) ha
    simp only [List.mem_singleton, Ty.ptr.injEq] at hm
    subst hm
    exact ⟨61, rfl, by simp only [SubstNode, exU, exHeap]; exact ⟨_, rfl⟩⟩

/-- Counterexample to C20 as stated: `y` is the declared type `type N P`, whose underlying
type is the parameter `P`. `int` has no type parameter and is typed, the call with the empty
map returns true and binds `P = int`, the replacement sends `N` to the node of `N` over `int`;
and `Identical(int, N)` is false for that node. -/
theorem identical_unification_unsound :
    ParamFree exU exInt ∧ Substitution exU exInt (.ptr 60) [(2, exInt)] exSub ∧
    identical exU 1 (some []) exInt (.ptr 60) true [] = (.ret true, some [(2, exInt)]) ∧
    exSub (.ptr 60) = .ptr 61 ∧ exU.heap 60 = .Named 602 (.ptr 2) ∧
    exU.heap 61 = .Named 602 (exSub (.ptr 2)) ∧
    Identical exU 1 exInt (exSub (.ptr 60)) = .ret false ∧
    Identical exU 9 exInt (exSub (.ptr 60)) = .ret false :=
  ⟨exU_paramFree_int, exU_substitution_60, by decide, rfl, rfl, rfl, by decide, by decide⟩

end GoTypes
